import Mathlib

/-!
# PhoneCall-Graph: a shallow embedding of `PhoneCallGraph.c`

The program keeps one global singly linked list `headLL` of `struct phoneNode`;
every node owns a singly linked list of `struct edges`, and an edge points to
another node of the same list.  Nodes are only ever appended at the tail of
`headLL` and are never moved or freed while the graph is in use, so a node
pointer is modelled by the position of the node in the list, and the whole
heap reachable from `headLL` is modelled by a `List phoneNode`.

Conventions of the embedding.

* `pNumber` is the NUL-terminated contents of the 13 byte buffer, as a `String`;
  `strcmp(...) == 0` is equality of strings.  `strcpy` into the buffer is exact
  for strings of at most 12 characters, which is what the callers pass.
* `totalCalls` is a C `int`; `totalCalls++` is modelled with two-complement
  wrap-around (`incrInt`), the usual outcome of the overflow that C leaves
  undefined.  One pair can be inserted more than `INT_MAX` times in a run whose
  input has that many lines, so the range of the counter matters.
* `level` is a C `int` as well.  `BFS` only ever stores the level of the
  dequeued node plus one, and that is a number of edges of a path without
  repeated nodes, so it stays below the number of nodes of the list; it is
  modelled as an unbounded `Int`, which is exact for every list with fewer than
  2^31 nodes.
* `malloc` is assumed to succeed (the program exits otherwise).
* A position outside the node list stands for a pointer that does not point
  into `headLL`; such an edge target is skipped by the model of `BFS`.  The
  graphs built by `addNodesToLL` never contain one.
* A file is the list of the lines that `getline` returns, or nothing when
  `fopen` fails; a line is the list of its characters before the terminating
  NUL.  `isspace` is that of the "C" locale, and `sscanf` is modelled on the
  buffers it is called on, which hold digits and dashes only.  The messages on
  `stderr` are kept as a list.  The function `main` is not modelled: its query
  loop repeats the scanning code of `parseFile` around `checkIfInGraph`.
-/

namespace PhoneCallGraph

/-! ## Data model -/

/-- An entry of an adjacency list (`struct edges`): the position of the
destination node (the field `to` of the source, a reserved word here) and the
number of calls along this edge. -/
structure edges where
  dest : Nat
  totalCalls : Int
deriving DecidableEq

/-- A node of the phone-call graph (`struct phoneNode`); the `next` pointer is
the tail of the list the node is stored in. -/
structure phoneNode where
  pNumber : String
  calls : List edges
  level : Int
  queued : Int
deriving DecidableEq

/-- The global list `headLL`. -/
abbrev Graph := List phoneNode

/-- Reduction of an integer to the range of a 32 bit signed `int`. -/
def wrapInt (x : Int) : Int := (x + 2147483648) % 4294967296 - 2147483648

/-- The C statement `n++` on an `int`. -/
def incrInt (n : Int) : Int := wrapInt (n + 1)

/-! ## The BFS queue -/

/-- Removal of the front entry of the queue (`dequeue`): the dequeued node, or
`none` when the queue was empty, and the remaining queue. -/
def dequeue (head : List Nat) : Option Nat × List Nat :=
  match head with
  | [] => (none, [])
  | pNode :: next => (some pNode, next)

/-- Appending an entry at the tail of the queue (`enqueue`). -/
def enqueue (head : List Nat) (pNode : Nat) : List Nat :=
  match head with
  | [] => [pNode]
  | cur :: next => cur :: enqueue next pNode

/-! ## Insertion -/

/-- The `while (curEdge != NULL)` loop of `addEdges`, entered at the entry
`curEdge` of a non-empty adjacency list with `alreadyFound == 0`, together with
the `if (!alreadyFound)` block after it: the first entry to `p2` is incremented,
and when the last entry is reached without a match a new entry is linked after
it. -/
def addEdgeLoop (p2 : Nat) : edges → List edges → List edges
  | curEdge, next =>
    if curEdge.dest = p2 then
      { curEdge with totalCalls := incrInt curEdge.totalCalls } :: next
    else
      match next with
      | [] => [curEdge, ⟨p2, 1⟩]
      | e :: rest => curEdge :: addEdgeLoop p2 e rest

/-- One half of `addEdges`: the update of the adjacency list `calls` of a node
for the destination `p2`.  On an empty list the first block allocates the entry
and sets `alreadyFound`, so that the loop and the last block do nothing. -/
def addEdgeTo (calls : List edges) (p2 : Nat) : List edges :=
  match calls with
  | [] => [⟨p2, 1⟩]
  | curEdge :: next => addEdgeLoop p2 curEdge next

/-- Replacement of the adjacency list of the node at position `p`. -/
def updateCalls (g : Graph) (p : Nat) (f : List edges → List edges) : Graph :=
  g.modify (fun n => { n with calls := f n.calls }) p

/-- The function `addEdges(p1, p2)`: first the list of `p1` is updated for the
destination `p2`, then the list of `p2` (as it is then) for the destination
`p1`. -/
def addEdges (g : Graph) (p1 p2 : Nat) : Graph :=
  updateCalls (updateCalls g p1 (fun calls => addEdgeTo calls p2)) p2
    (fun calls => addEdgeTo calls p1)

/-- A freshly allocated node of `addNodesToLL`. -/
def newNode (phoneNumber : String) : phoneNode :=
  { pNumber := phoneNumber, calls := [], level := 0, queued := 0 }

/-- The search loop of `addNodesToLL` from the node at position `i` on.  The
pair holds `p1` and `p2`; `none` stands for a flag `f1` (resp. `f2`) that is
still 1.  The second comparison is only made when the first one fails. -/
def scanNodes (phoneNumber phoneNumber2 : String) :
    List phoneNode → Nat → Option Nat × Option Nat → Option Nat × Option Nat
  | [], _, found => found
  | cur :: next, i, (p1, p2) =>
    if cur.pNumber = phoneNumber then
      scanNodes phoneNumber phoneNumber2 next (i + 1) (some i, p2)
    else if cur.pNumber = phoneNumber2 then
      scanNodes phoneNumber phoneNumber2 next (i + 1) (p1, some i)
    else
      scanNodes phoneNumber phoneNumber2 next (i + 1) (p1, p2)

/-- The function `addNodesToLL(phoneNumber, phoneNumber2)` as a function of the
list `headLL`. -/
def addNodesToLL (headLL : Graph) (phoneNumber phoneNumber2 : String) : Graph :=
  let g0 := match headLL with
    | [] => [newNode phoneNumber]
    | _ :: _ => headLL
  let found := scanNodes phoneNumber phoneNumber2 g0 0 (none, none)
  let r1 := match found.1 with
    | some p1 => (g0, p1)
    | none => (g0 ++ [newNode phoneNumber], g0.length)
  let r2 := match found.2 with
    | some p2 => (r1.1, p2)
    | none => (r1.1 ++ [newNode phoneNumber2], r1.1.length)
  addEdges r2.1 r1.2 r2.2

/-- The graph after calling `addNodesToLL` on the pairs of `calls` in order,
starting from the empty list. -/
def build (calls : List (String × String)) : Graph :=
  calls.foldl (fun g p => addNodesToLL g p.1 p.2) []

/-! ## Breadth-first search -/

/-- The first loop of `BFS`: the flag `queued` of every node is cleared.  The
field `level` is left as it is. -/
def resetQueued (g : Graph) : Graph :=
  g.map (fun n => { n with queued := 0 })

/-- The `for` loop of `BFS` over the adjacency entries `children` of the
dequeued node `A`: every destination that is not queued is marked, gets the
level of `A` plus one, and is appended to the queue. -/
def visitChildren (A : Nat) : List edges → Graph → List Nat → Graph × List Nat
  | [], g, q => (g, q)
  | children :: next, g, q =>
    match g[children.dest]?, g[A]? with
    | some n, some a =>
      if n.queued = 0 then
        visitChildren A next
          (g.set children.dest { n with queued := 1, level := a.level + 1 })
          (enqueue q children.dest)
      else visitChildren A next g q
    | _, _ => visitChildren A next g q

/-- The `while (q != NULL)` loop of `BFS`, run for at most `fuel` iterations.
The result is `none` when the fuel is used up or the dequeued position is not a
node of the list, and otherwise the returned value with the final list. -/
def bfsLoop (target : Nat) : Nat → Graph → List Nat → Option (Int × Graph)
  | 0, _, _ => none
  | fuel + 1, g, q =>
    match dequeue q with
    | (none, _) => some (-1, g)
    | (some A, q1) =>
      match g[A]? with
      | none => none
      | some a =>
        if A = target then some (a.level - 1, g)
        else
          let r := visitChildren A a.calls g q1
          bfsLoop target fuel r.1 r.2

/-- The function `BFS(start, target)`.  Every node is enqueued at most once, so
the loop runs at most once per node and once more on the empty queue; the fuel
is fixed accordingly. -/
def BFS (g : Graph) (start target : Nat) : Option (Int × Graph) :=
  let g1 := resetQueued g
  match g1[start]? with
  | none => none
  | some s =>
    bfsLoop target (g.length + 1)
      (g1.set start { s with queued := 1, level := 0 }) (enqueue [] start)

/-! ## Queries -/

/-- The result of a call of `checkIfInGraph`: the returned value, the lines
written to `stdout` and to `stderr`, and the list `headLL` after the call. -/
structure QueryResult where
  ret : Int
  out : List String
  err : List String
  graph : Graph
deriving DecidableEq

/-- The search loop of `checkIfInGraph` from the node at position `i` on; both
comparisons are made at every node. -/
def findNodes (p1 p2 : String) :
    List phoneNode → Nat → Option Nat × Option Nat → Option Nat × Option Nat
  | [], _, found => found
  | cur :: next, i, (pn1, pn2) =>
    findNodes p1 p2 next (i + 1)
      (if cur.pNumber = p1 then some i else pn1,
       if cur.pNumber = p2 then some i else pn2)

/-- The loop of `checkIfInGraph` over the adjacency list of `pn1`: the value of
`linkedCalls` after it. -/
def linkedCallsOf (pn2 : Nat) : List edges → Int
  | [] => 0
  | curEdge :: next =>
    if pn2 = curEdge.dest then 0 + curEdge.totalCalls else linkedCallsOf pn2 next

/-- The adjacency list of the node at position `p` (empty outside the list). -/
def callsAt (g : Graph) (p : Nat) : List edges :=
  match g[p]? with
  | some n => n.calls
  | none => []

/-- The line printed for a direct connection. -/
def talkedLine (n : Int) : String := "Talked " ++ toString n ++ " times\n"

/-- The line printed for an indirect connection. -/
def connectedLine (n : Int) : String :=
  "Connected through " ++ toString n ++ " numbers\n"

/-- The function `checkIfInGraph(p1, p2)`; `none` only when `BFS` gives no
result. -/
def checkIfInGraph (headLL : Graph) (p1 p2 : String) : Option QueryResult :=
  match findNodes p1 p2 headLL 0 (none, none) with
  | (some pn1, some pn2) =>
    let linkedCalls := linkedCallsOf pn2 (callsAt headLL pn1)
    if linkedCalls ≠ 0 then
      some { ret := 0, out := [talkedLine linkedCalls], err := [], graph := headLL }
    else
      match BFS headLL pn1 pn2 with
      | none => none
      | some (search, g) =>
        if search = -1 then
          some { ret := 0, out := ["Not connected\n"], err := [], graph := g }
        else
          some { ret := 0, out := [connectedLine search], err := [], graph := g }
  | _ =>
    some { ret := 1, out := [], err := ["Phone Number Not Found.\n"], graph := headLL }

/-- The `while` loop of `BFS` (as `bfsLoop`) with a record of the run: `deq`
collects the dequeued nodes in order.  The result also gives the dequeued nodes
and the nodes left in the queue at the return.  The queue is first-in
first-out and entries are only appended, so the dequeued nodes followed by the
nodes left in the queue are the enqueued nodes, in the order of the calls of
`enqueue`. -/
def bfsLoopLog (target : Nat) :
    Nat → Graph → List Nat → List Nat → Option (Int × Graph × List Nat × List Nat)
  | 0, _, _, _ => none
  | fuel + 1, g, q, deq =>
    match dequeue q with
    | (none, _) => some (-1, g, deq, [])
    | (some A, q1) =>
      match g[A]? with
      | none => none
      | some a =>
        if A = target then some (a.level - 1, g, deq ++ [A], q1)
        else
          let r := visitChildren A a.calls g q1
          bfsLoopLog target fuel r.1 r.2 (deq ++ [A])

/-- The function `BFS` (as `BFS`) with the record of `bfsLoopLog`. -/
def BFSLog (g : Graph) (start target : Nat) : Option (Int × Graph × List Nat × List Nat) :=
  let g1 := resetQueued g
  match g1[start]? with
  | none => none
  | some s =>
    bfsLoopLog target (g.length + 1)
      (g1.set start { s with queued := 1, level := 0 }) (enqueue [] start) []

/-- The arguments of the call of `BFS` that `checkIfInGraph(p1, p2)` makes, if
it makes one: the function `checkIfInGraph` up to its call `BFS(pn1, pn2)`. -/
def bfsCallOf (headLL : Graph) (p1 p2 : String) : Option (Nat × Nat) :=
  match findNodes p1 p2 headLL 0 (none, none) with
  | (some pn1, some pn2) =>
    let linkedCalls := linkedCallsOf pn2 (callsAt headLL pn1)
    if linkedCalls ≠ 0 then none else some (pn1, pn2)
  | _ => none

/-! ## Reading the input -/

/-- The loop of `checkPhoneFormat` from the character at position `index` on. -/
def checkPhoneFormatFrom : List Char → Nat → Int
  | [], index => if index ≠ 12 then 1 else 0
  | c :: rest, index =>
    if index > 12 then 1
    else if index = 3 ∨ index = 7 then
      if c ≠ '-' then 1 else checkPhoneFormatFrom rest (index + 1)
    else
      if c < '0' ∨ c > '9' then 1 else checkPhoneFormatFrom rest (index + 1)

/-- The function `checkPhoneFormat(phoneNum)`: 0 for a string of the form
`ddd-ddd-dddd`, 1 otherwise. -/
def checkPhoneFormat (phoneNum : String) : Int :=
  checkPhoneFormatFrom phoneNum.data 0

/-- The function `isspace` of the C library in the "C" locale: the space and
the characters from `\t` (9) to `\r` (13). -/
def isspace (c : Char) : Bool :=
  decide (c.toNat = 32) || (decide (9 ≤ c.toNat) && decide (c.toNat ≤ 13))

/-- The loop of `parseFile` that copies a number from the line into a buffer of
12 characters.  The first argument is the line from position `i` on, the second
the buffer filled so far; the result is the line from the final position `i` on,
the buffer, and whether the branch `Too Many Args Given` was taken. -/
def copyNumber : List Char → List Char → List Char × List Char × Bool
  | [], phoneNum => ([], phoneNum, false)
  | c :: rest, phoneNum =>
    if ('0' ≤ c ∧ c ≤ '9') ∨ c = '-' then
      if phoneNum.length < 12 then copyNumber rest (phoneNum ++ [c])
      else if ¬ isspace c then (c :: rest, phoneNum, true)
      else copyNumber rest phoneNum
    else (c :: rest, phoneNum, false)

/-- The last scanning loop of `parseFile` over the rest of the line: `true` when
it reaches the end of the line, `false` when it meets a character that is not
white space (the branch `Incorrect Format.`). -/
def onlySpace : List Char → Bool
  | [] => true
  | c :: rest => if ¬ isspace c then false else onlySpace rest

/-- A conversion `%ws` of `sscanf` on an input without white space: an input
failure at the end of the input, and otherwise the input after the up to `w`
characters that are stored. -/
def scanField (w : Nat) (s : List Char) : Option (List Char) :=
  match s with
  | [] => none
  | _ :: _ => some (s.drop w)

/-- The value of `sscanf(s, "%3s-%3s-%4s%1s", ...)` on a buffer without white
space (the buffers of `parseFile` hold digits and dashes only): the number of
conversions made, or `EOF` = -1 on an empty buffer. -/
def sscanfPhone (s : List Char) : Int :=
  match scanField 3 s with
  | none => -1
  | some r1 =>
    match r1 with
    | '-' :: r2 =>
      match scanField 3 r2 with
      | none => 1
      | some r3 =>
        match r3 with
        | '-' :: r4 =>
          match scanField 4 r4 with
          | none => 2
          | some r5 =>
            match scanField 1 r5 with
            | none => 3
            | some _ => 4
        | _ => 2
    | _ => 1

/-- What the body of the reading loop of `parseFile` ends with: `continue`
(`next`), `break` (`stop`), or the call `addNodesToLL(phoneNum, phoneNum2)`. -/
inductive LineAction where
  | next : LineAction
  | stop : LineAction
  | insert (phoneNum phoneNum2 : String) : LineAction
deriving DecidableEq

/-- The effect of the body of the reading loop on one line: whether `errSeen`
is set to 1, the messages written to `stderr`, and how the body ends. -/
structure LineResult where
  errSeen : Bool
  err : List String
  action : LineAction
deriving DecidableEq

/-- The body of the `while (getline(...) > 0)` loop of `parseFile` on one line
(the characters before the terminating NUL). -/
def parseLine (line : List Char) : LineResult :=
  let r1 := copyNumber line []
  let phoneNum := r1.2.1
  let r2 := copyNumber (r1.1.dropWhile isspace) []
  let phoneNum2 := r2.2.1
  let extra := ! onlySpace r2.1
  let skipLine := r1.2.2 || r2.2.2 || extra
  let err := (if r1.2.2 then ["Too Many Args Given"] else []) ++
    (if r2.2.2 then ["Too Many Args Given"] else []) ++
    (if extra then ["Incorrect Format.\n"] else [])
  if skipLine then { errSeen := true, err := err, action := LineAction.next }
  else if sscanfPhone phoneNum = 4 then
    { errSeen := true, err := ["Incorrect Format."], action := LineAction.stop }
  else if sscanfPhone phoneNum2 = 4 then
    { errSeen := true, err := ["Incorrect Format."], action := LineAction.stop }
  else if checkPhoneFormat (String.mk phoneNum) + checkPhoneFormat (String.mk phoneNum2) ≠ 0
  then { errSeen := false, err := ["Incorrect Formating.\n"], action := LineAction.next }
  else { errSeen := false, err := [],
         action := LineAction.insert (String.mk phoneNum) (String.mk phoneNum2) }

/-- The reading loop of `parseFile` over the lines that `getline` returns, from
the current `headLL`, `errSeen` and `stderr`. -/
def parseLines : Graph → Int → List String → List String → Int × List String × Graph
  | g, errSeen, err, [] => (errSeen, err, g)
  | g, errSeen, err, line :: rest =>
    let r := parseLine line.data
    let errSeen1 := if r.errSeen then 1 else errSeen
    match r.action with
    | LineAction.next => parseLines g errSeen1 (err ++ r.err) rest
    | LineAction.stop => (errSeen1, err ++ r.err, g)
    | LineAction.insert phoneNum phoneNum2 =>
      parseLines (addNodesToLL g phoneNum phoneNum2) errSeen1 (err ++ r.err) rest

/-- The function `parseFile(argv)` on the list `headLL`; `file` is `none` when
the file cannot be opened and otherwise holds its lines.  The result is the
returned value, the messages written to `stderr`, and the list `headLL`. -/
def parseFile (headLL : Graph) (file : Option (List String)) : Int × List String × Graph :=
  match file with
  | none => (1, ["Could Not Open File.\n"], headLL)
  | some lines => parseLines headLL 0 [] lines

/-! ## Notions used to state the properties -/

/-- The phone numbers of the nodes, in list order. -/
def numbers (g : Graph) : List String := g.map (fun n => n.pNumber)

/-- The position that a search loop over the nodes from position `i` on ends
with for the number `s`, starting from `acc`: the last node carrying `s`. -/
def lastPos (s : String) : List phoneNode → Nat → Option Nat → Option Nat
  | [], _, acc => acc
  | cur :: next, i, acc =>
    lastPos s next (i + 1) (if cur.pNumber = s then some i else acc)

/-- The node that the search loops find for the number `s`. -/
def posOf (g : Graph) (s : String) : Option Nat := lastPos s g 0 none

/-- The `totalCalls` of the first entry of an adjacency list whose destination
is `p`, if there is one. -/
def countTo (p : Nat) : List edges → Option Int
  | [] => none
  | e :: next => if e.dest = p then some e.totalCalls else countTo p next

/-- The destinations of an adjacency list, in list order. -/
def dests (calls : List edges) : List Nat := calls.map (fun e => e.dest)

/-- The number of pairs of the sequence that are `(A, B)` or `(B, A)`. -/
def pairCount (calls : List (String × String)) (A B : String) : Nat :=
  calls.countP (fun p => decide (p = (A, B) ∨ p = (B, A)))

/-- Every pair of the sequence consists of two different numbers. -/
def Distinct (calls : List (String × String)) : Prop :=
  ∀ p ∈ calls, p.1 ≠ p.2

instance (calls : List (String × String)) : Decidable (Distinct calls) := by
  unfold Distinct
  infer_instance

/-- The number `s` occurs in a pair of the sequence. -/
def Occurs (calls : List (String × String)) (s : String) : Prop :=
  ∃ p ∈ calls, p.1 = s ∨ p.2 = s

instance (calls : List (String × String)) (s : String) : Decidable (Occurs calls s) := by
  unfold Occurs
  infer_instance

/-- Every edge target is a node of the node list. -/
def WellFormed (g : Graph) : Prop :=
  ∀ n ∈ g, ∀ e ∈ n.calls, e.dest < g.length

instance (g : Graph) : Decidable (WellFormed g) := by
  unfold WellFormed
  infer_instance

/-- The node `u` has an adjacency entry whose destination is `v`. -/
def Adj (g : Graph) (u v : Nat) : Prop :=
  ∃ e ∈ callsAt g u, e.dest = v

/-- `Walk g s v k`: there is a path of `k` edges from `s` to `v` along
adjacency entries. -/
inductive Walk (g : Graph) (s : Nat) : Nat → Nat → Prop
  | refl : Walk g s s 0
  | step {u v k} : Walk g s u k → Adj g u v → Walk g s v (k + 1)

/-- The nodes that `addNodesToLL(x, y)` appends to the list `g`: one for `x`
when no node carries `x`, then one for `y` unless `y` differs from `x` and a
node carries `y`. -/
def newNodes (g : Graph) (x y : String) : List phoneNode :=
  (if x ∈ numbers g then [] else [newNode x]) ++
    (if x ≠ y ∧ y ∈ numbers g then [] else [newNode y])

/-- The `totalCalls` an edge entry holds after `c` insertions of its pair, if
there is an entry at all. -/
def countAfter (c : Nat) : Option Int :=
  if c = 0 then none else some (wrapInt c)

/-- The adjacency list with every entry to `p` incremented. -/
def bumped (calls : List edges) (p : Nat) : List edges :=
  calls.map (fun e => if e.dest = p then { e with totalCalls := incrInt e.totalCalls } else e)

/-- The representation invariant of the graph after the insertions `calls`:
no two nodes carry the same number, every edge target is a node, no adjacency
list has two entries to the same node, and the entry from a node to another
holds the (wrapped) number of insertions of their pair. -/
def Inv (calls : List (String × String)) (g : Graph) : Prop :=
  (numbers g).Nodup ∧
  (∀ (i : Nat) (n : phoneNode), g[i]? = some n → ∀ e ∈ n.calls, e.dest < g.length) ∧
  (∀ (i : Nat) (n : phoneNode), g[i]? = some n → (dests n.calls).Nodup) ∧
  (∀ (i j : Nat) (ni nj : phoneNode), g[i]? = some ni → g[j]? = some nj →
    countTo j ni.calls = countAfter (pairCount calls ni.pNumber nj.pNumber))

/-- Whenever a node `a` has an entry to a node `b` with count `n`, the node `b`
has an entry to `a` with the same count. -/
def Mirrored (g : Graph) : Prop :=
  ∀ (a b : Nat) (n : Int), (⟨b, n⟩ : edges) ∈ callsAt g a → (⟨a, n⟩ : edges) ∈ callsAt g b

/-- The call counts of the pair `A`, `B` are exact after the insertions
`calls`: the nodes of `A` and `B` hold entries to each other whose `totalCalls`
is the number of insertions of the pair, and no such entries when that number
is 0. -/
def CountsExact (calls : List (String × String)) (A B : String) : Prop :=
  (pairCount calls A B = 0 →
    ∀ i j, posOf (build calls) A = some i → posOf (build calls) B = some j →
      j ∉ dests (callsAt (build calls) i) ∧ i ∉ dests (callsAt (build calls) j)) ∧
  (0 < pairCount calls A B →
    ∃ i j, posOf (build calls) A = some i ∧ posOf (build calls) B = some j ∧
      (⟨j, (pairCount calls A B : Int)⟩ : edges) ∈ callsAt (build calls) i ∧
      (⟨i, (pairCount calls A B : Int)⟩ : edges) ∈ callsAt (build calls) j)

/-- The node at position `v` is marked as queued. -/
def queuedAt (g : Graph) (v : Nat) : Prop :=
  ∃ n, g[v]? = some n ∧ n.queued ≠ 0

/-- The field `level` of the node at position `v` (0 outside the list). -/
def levelAt (g : Graph) (v : Nat) : Int :=
  match g[v]? with
  | some n => n.level
  | none => 0

/-- The number of nodes whose flag `queued` is 0. -/
def unqueued (g : Graph) : Nat :=
  g.countP (fun n => decide (n.queued = 0))

/-- The state of `BFS` inside the `for` loop over the entries of the dequeued
node `A`, whose level is `L`; `g0` is the list at the call of `BFS`, `s` the
start node, `t` the target, `g` the current list and `q` the current queue. -/
structure Mid (g0 : Graph) (s t A L : Nat) (g : Graph) (q : List Nat) : Prop where
  calls_eq : ∀ k, callsAt g k = callsAt g0 k
  len_eq : g.length = g0.length
  start : queuedAt g s ∧ levelAt g s = 0
  sound : ∀ v, queuedAt g v → ∃ k : Nat, levelAt g v = k ∧ Walk g0 s v k
  window : ∀ v ∈ q, queuedAt g v ∧ (L : Int) ≤ levelAt g v ∧ levelAt g v ≤ L + 1
  sorted : q.Pairwise (fun u v => levelAt g u ≤ levelAt g v)
  cur : queuedAt g A ∧ levelAt g A = L
  closed : ∀ v, queuedAt g v → v ∉ q → v ≠ A →
    v ≠ t ∧ levelAt g v ≤ L ∧
      ∀ w, Adj g0 v w → queuedAt g w ∧ levelAt g w ≤ levelAt g v + 1

/-- The state of `BFS` at the head of the `while` loop. -/
structure Outer (g0 : Graph) (s t : Nat) (g : Graph) (q : List Nat) : Prop where
  calls_eq : ∀ k, callsAt g k = callsAt g0 k
  len_eq : g.length = g0.length
  start : queuedAt g s ∧ levelAt g s = 0
  sound : ∀ v, queuedAt g v → ∃ k : Nat, levelAt g v = k ∧ Walk g0 s v k
  queued : ∀ v ∈ q, queuedAt g v
  sorted : q.Pairwise (fun u v => levelAt g u ≤ levelAt g v)
  window : ∀ h ∈ q.head?, ∀ v ∈ q, levelAt g v ≤ levelAt g h + 1
  closed : ∀ v, queuedAt g v → v ∉ q →
    v ≠ t ∧ (∀ h ∈ q.head?, levelAt g v ≤ levelAt g h) ∧
      ∀ w, Adj g0 v w → queuedAt g w ∧ levelAt g w ≤ levelAt g v + 1

/-- The persistent part of the graph: the number and the adjacency list of
every node, in list order. -/
def shape (g : Graph) : List (String × List edges) :=
  g.map (fun n => (n.pNumber, n.calls))

/-- Two states of the list that a search treats alike: the same numbers and
adjacency lists, the same flags `queued`, and the same `level` at every node
that is queued. -/
def Sim (g h : Graph) : Prop :=
  shape g = shape h ∧
  ∀ (k : Nat) (n m : phoneNode), g[k]? = some n → h[k]? = some m →
    n.queued = m.queued ∧ (n.queued ≠ 0 → n.level = m.level)

/-- The character `c` is allowed at index `i` of a phone number: a dash at the
indices 3 and 7, a decimal digit elsewhere. -/
def okAt (i : Nat) (c : Char) : Prop :=
  if i = 3 ∨ i = 7 then c = '-' else ('0' ≤ c ∧ c ≤ '9')

/-- The string has the form `ddd-ddd-dddd`: exactly 12 characters, dashes at the
indices 3 and 7 and decimal digits at the other ten indices. -/
def IsPhoneNumber (s : List Char) : Prop :=
  s.length = 12 ∧ ∀ (i : Nat) (c : Char), s[i]? = some c → okAt i c

/-- The line consists of the phone number `t1`, one or more white space
characters, the phone number `t2`, and then only white space up to its end. -/
def IsRecord (line t1 t2 : List Char) : Prop :=
  ∃ ws rest, line = t1 ++ ws ++ t2 ++ rest ∧ IsPhoneNumber t1 ∧ IsPhoneNumber t2 ∧
    ws ≠ [] ∧ (∀ c ∈ ws, isspace c = true) ∧ (∀ c ∈ rest, isspace c = true)

/-- No node has an adjacency entry to itself. -/
def NoSelfEntry (g : Graph) : Prop :=
  ∀ k, k ∉ dests (callsAt g k)

/-- The character is a decimal digit or a dash. -/
def DigitOrDash (c : Char) : Prop :=
  ('0' ≤ c ∧ c ≤ '9') ∨ c = '-'

/-- `Records g lines g1`: `g1` is the graph obtained from `g` by calling
`addNodesToLL(t1, t2)`, in line order, for exactly the lines that are records
with the numbers `t1` and `t2`; every other line changes nothing. -/
inductive Records : Graph → List String → Graph → Prop
  | done (g : Graph) : Records g [] g
  | record (g g1 : Graph) (line : String) (rest : List String) (t1 t2 : List Char) :
      IsRecord line.data t1 t2 →
      Records (addNodesToLL g (String.mk t1) (String.mk t2)) rest g1 →
      Records g (line :: rest) g1
  | other (g g1 : Graph) (line : String) (rest : List String) :
      (∀ t1 t2, ¬ IsRecord line.data t1 t2) → Records g rest g1 →
      Records g (line :: rest) g1

/-- Every edge target is a node of the node list, in terms of `callsAt`. -/
def InRange (g : Graph) : Prop :=
  ∀ k, ∀ e ∈ callsAt g k, e.dest < g.length

/-- After the insertions `calls` (of any pairs), the `totalCalls` of every entry
is the wrapped value of a number between 1 and the number of insertions of the
pair of numbers of its two end nodes. -/
def CountsBounded (calls : List (String × String)) (g : Graph) : Prop :=
  ∀ (i j : Nat) (ni nj : phoneNode) (c : Int), g[i]? = some ni → g[j]? = some nj →
    (⟨j, c⟩ : edges) ∈ ni.calls →
    ∃ m : Nat, 1 ≤ m ∧ m ≤ pairCount calls ni.pNumber nj.pNumber ∧ c = wrapInt m

/-- A state of the list of the two insertions of the example as a run of `BFS`
leaves it: every node has `queued` 1, and the levels are 0, 1 and 2. -/
def exampleStale : Graph :=
  [⟨"555-111-2222", [⟨1, 1⟩], 0, 1⟩, ⟨"555-333-4444", [⟨0, 1⟩, ⟨2, 1⟩], 1, 1⟩,
    ⟨"555-555-6666", [⟨1, 1⟩], 2, 1⟩]

/-! ## Lists and queues -/

theorem enqueue_eq (q : List Nat) (p : Nat) : enqueue q p = q ++ [p] := by
  induction q with
  | nil => rfl
  | cons a r ih => simp [enqueue, ih]

theorem getElem?_updateCalls (g : Graph) (p k : Nat) (f : List edges → List edges) :
    (updateCalls g p f)[k]? =
      (g[k]?).map (fun n => if p = k then { n with calls := f n.calls } else n) := by
  unfold updateCalls
  rw [List.getElem?_modify]
  rfl

theorem length_updateCalls (g : Graph) (p : Nat) (f : List edges → List edges) :
    (updateCalls g p f).length = g.length := by
  unfold updateCalls
  simp

theorem numbers_updateCalls (g : Graph) (p : Nat) (f : List edges → List edges) :
    numbers (updateCalls g p f) = numbers g := by
  apply List.ext_getElem?
  intro k
  simp only [numbers, List.getElem?_map, getElem?_updateCalls]
  cases g[k]? with
  | none => rfl
  | some n => by_cases h : p = k <;> simp [h]

theorem updateCalls_comm (g : Graph) (i j : Nat) (f h : List edges → List edges)
    (hij : i ≠ j) :
    updateCalls (updateCalls g i f) j h = updateCalls (updateCalls g j h) i f := by
  apply List.ext_getElem?
  intro k
  simp only [getElem?_updateCalls]
  cases g[k]? with
  | none => rfl
  | some n =>
    by_cases h1 : i = k
    · have h2 : ¬ j = k := fun e => hij (h1.trans e.symm)
      simp [h1, h2]
    · by_cases h2 : j = k <;> simp [h1, h2]

theorem addEdges_comm (g : Graph) (i j : Nat) (hij : i ≠ j) :
    addEdges g i j = addEdges g j i := by
  unfold addEdges
  exact updateCalls_comm g i j _ _ hij

theorem length_addEdges (g : Graph) (i j : Nat) : (addEdges g i j).length = g.length := by
  simp [addEdges, length_updateCalls]

theorem numbers_addEdges (g : Graph) (i j : Nat) : numbers (addEdges g i j) = numbers g := by
  simp [addEdges, numbers_updateCalls]

/-! ## The search loops -/

theorem scanNodes_eq (x y : String) (g : List phoneNode) (i : Nat) (a b : Option Nat) :
    scanNodes x y g i (a, b) =
      (lastPos x g i a, if x = y then b else lastPos y g i b) := by
  induction g generalizing i a b with
  | nil => simp [scanNodes, lastPos]
  | cons n r ih =>
    unfold scanNodes
    by_cases h1 : n.pNumber = x
    · simp only [h1, if_true, ih, lastPos]
      by_cases hxy : x = y
      · simp [hxy]
      · simp [hxy]
    · by_cases h2 : n.pNumber = y
      · have hxy : ¬ x = y := fun e => h1 (h2.trans e.symm)
        have hyx : ¬ y = x := fun e => hxy e.symm
        simp only [h2, hyx, if_false, if_true, ih, lastPos, hxy]
      · simp only [h1, h2, if_false, ih, lastPos]

theorem findNodes_eq (x y : String) (g : List phoneNode) (i : Nat) (a b : Option Nat) :
    findNodes x y g i (a, b) = (lastPos x g i a, lastPos y g i b) := by
  induction g generalizing i a b with
  | nil => simp [findNodes, lastPos]
  | cons n r ih => simp [findNodes, lastPos, ih]

theorem lastPos_append (s : String) (g h : List phoneNode) (i : Nat) (acc : Option Nat) :
    lastPos s (g ++ h) i acc = lastPos s h (i + g.length) (lastPos s g i acc) := by
  induction g generalizing i acc with
  | nil => simp [lastPos]
  | cons n r ih =>
    have e : i + 1 + r.length = i + (r.length + 1) := by omega
    show lastPos s (r ++ h) (i + 1) _ =
      lastPos s h (i + (r.length + 1)) (lastPos s r (i + 1) _)
    rw [ih, e]

theorem lastPos_not_mem (s : String) (g : List phoneNode) (i : Nat) (acc : Option Nat)
    (h : s ∉ numbers g) : lastPos s g i acc = acc := by
  induction g generalizing i acc with
  | nil => rfl
  | cons n r ih =>
    simp only [numbers, List.map_cons, List.mem_cons, not_or] at h
    have h1 : ¬ n.pNumber = s := fun e => h.1 e.symm
    simp only [lastPos, h1, if_false]
    exact ih _ _ h.2

theorem lastPos_spec (s : String) (g : List phoneNode) (i : Nat) (acc : Option Nat)
    (k : Nat) (h : lastPos s g i acc = some k) :
    acc = some k ∨ (i ≤ k ∧ ∃ n, g[k - i]? = some n ∧ n.pNumber = s) := by
  induction g generalizing i acc with
  | nil => left; simpa [lastPos] using h
  | cons n r ih =>
    simp only [lastPos] at h
    rcases ih _ _ h with h1 | ⟨h1, m, h2, h3⟩
    · by_cases hn : n.pNumber = s
      · simp only [hn, if_true, Option.some.injEq] at h1
        right
        subst h1
        exact ⟨le_refl _, n, by simp, hn⟩
      · simp only [hn, if_false] at h1
        exact Or.inl h1
    · right
      refine ⟨by omega, m, ?_, h3⟩
      have : k - i = (k - (i + 1)) + 1 := by omega
      rw [this]
      simpa using h2

theorem lastPos_mem (s : String) (g : List phoneNode) (i : Nat) (acc : Option Nat)
    (h : s ∈ numbers g) : ∃ k, lastPos s g i acc = some k := by
  induction g generalizing i acc with
  | nil => simp [numbers] at h
  | cons n r ih =>
    simp only [lastPos]
    by_cases hr : s ∈ numbers r
    · exact ih _ _ hr
    · rw [lastPos_not_mem s r _ _ hr]
      simp only [numbers, List.map_cons, List.mem_cons] at h
      rcases h with h | h
      · exact ⟨i, by simp [h]⟩
      · exact absurd h hr

theorem posOf_eq_none (g : Graph) (s : String) : posOf g s = none ↔ s ∉ numbers g := by
  constructor
  · intro h hm
    obtain ⟨k, hk⟩ := lastPos_mem s g 0 none hm
    unfold posOf at h
    rw [h] at hk
    cases hk
  · intro h
    exact lastPos_not_mem s g 0 none h

theorem posOf_some (g : Graph) (s : String) (k : Nat) (h : posOf g s = some k) :
    ∃ n, g[k]? = some n ∧ n.pNumber = s := by
  rcases lastPos_spec s g 0 none k h with h1 | ⟨_, n, h2, h3⟩
  · cases h1
  · exact ⟨n, by simpa using h2, h3⟩

theorem posOf_lt (g : Graph) (s : String) (k : Nat) (h : posOf g s = some k) :
    k < g.length := by
  obtain ⟨n, hn, _⟩ := posOf_some g s k h
  exact (List.getElem?_eq_some.mp hn).1

/-! ## The shape of an insertion -/

theorem addNodesToLL_nil (x y : String) :
    addNodesToLL [] x y = addEdges [newNode x, newNode y] 0 1 := by
  simp only [addNodesToLL, scanNodes_eq, lastPos, newNode, if_true]
  by_cases hxy : x = y <;> simp [hxy]

theorem addNodesToLL_cons (n : phoneNode) (r : List phoneNode) (x y : String) :
    addNodesToLL (n :: r) x y =
      addEdges
        (match (if x = y then none else posOf (n :: r) y) with
          | some _ => (match posOf (n :: r) x with
              | some _ => n :: r
              | none => (n :: r) ++ [newNode x])
          | none => (match posOf (n :: r) x with
              | some _ => n :: r
              | none => (n :: r) ++ [newNode x]) ++ [newNode y])
        (match posOf (n :: r) x with
          | some p1 => p1
          | none => (n :: r).length)
        (match (if x = y then none else posOf (n :: r) y) with
          | some p2 => p2
          | none => (match posOf (n :: r) x with
              | some _ => n :: r
              | none => (n :: r) ++ [newNode x]).length) := by
  simp only [addNodesToLL, scanNodes_eq, posOf]
  cases lastPos x (n :: r) 0 none <;>
    cases (if x = y then none else lastPos y (n :: r) 0 none) <;> rfl

theorem addNodesToLL_eq (g : Graph) (x y : String) :
    ∃ i j, addNodesToLL g x y = addEdges (g ++ newNodes g x y) i j ∧ i ≠ j ∧
      (∃ n, (g ++ newNodes g x y)[i]? = some n ∧ n.pNumber = x) ∧
      (∃ n, (g ++ newNodes g x y)[j]? = some n ∧ n.pNumber = y) := by
  cases g with
  | nil =>
    refine ⟨0, 1, ?_, by decide, ⟨newNode x, ?_, rfl⟩, ⟨newNode y, ?_, rfl⟩⟩
    · rw [addNodesToLL_nil]; simp [newNodes, numbers]
    · simp [newNodes, numbers]
    · simp [newNodes, numbers]
  | cons n r =>
    rw [addNodesToLL_cons]
    by_cases hx : x ∈ numbers (n :: r)
    · obtain ⟨i, hi⟩ := Option.ne_none_iff_exists'.mp
        (fun h => (posOf_eq_none _ _).mp h hx)
      obtain ⟨ni, hni, hnx⟩ := posOf_some _ _ _ hi
      have hil := posOf_lt _ _ _ hi
      by_cases hy : x ≠ y ∧ y ∈ numbers (n :: r)
      · obtain ⟨j, hj⟩ := Option.ne_none_iff_exists'.mp
          (fun h => (posOf_eq_none _ _).mp h hy.2)
        obtain ⟨nj, hnj, hny⟩ := posOf_some _ _ _ hj
        have hjl := posOf_lt _ _ _ hj
        refine ⟨i, j, ?_, ?_, ⟨ni, ?_, hnx⟩, ⟨nj, ?_, hny⟩⟩
        · simp [hi, hj, hy.1, newNodes, hx, hy.2]
        · rintro rfl
          rw [hni] at hnj
          cases hnj
          exact hy.1 (hnx.symm.trans hny)
        · simp [newNodes, hx, hy.1, hy.2, hni]
        · simp [newNodes, hx, hy.1, hy.2, hnj]
      · have hj : (if x = y then none else posOf (n :: r) y) = none := by
          by_cases hxy : x = y
          · simp [hxy]
          · simp only [hxy, if_false]
            exact (posOf_eq_none _ _).mpr (fun h => hy ⟨hxy, h⟩)
        have hnew : newNodes (n :: r) x y = [newNode y] := by
          simp only [newNodes, hx, if_true, List.nil_append]
          rw [if_neg hy]
        refine ⟨i, (n :: r).length, ?_, ?_, ⟨ni, ?_, hnx⟩, ⟨newNode y, ?_, rfl⟩⟩
        · rw [hj, hnew]; simp [hi]
        · exact Nat.ne_of_lt hil
        · rw [hnew, List.getElem?_append_left hil]; exact hni
        · rw [hnew]; exact List.getElem?_concat_length _ _
    · have hi := (posOf_eq_none _ _).mpr hx
      by_cases hy : x ≠ y ∧ y ∈ numbers (n :: r)
      · obtain ⟨j, hj⟩ := Option.ne_none_iff_exists'.mp
          (fun h => (posOf_eq_none _ _).mp h hy.2)
        obtain ⟨nj, hnj, hny⟩ := posOf_some _ _ _ hj
        have hjl := posOf_lt _ _ _ hj
        have hnew : newNodes (n :: r) x y = [newNode x] := by
          simp only [newNodes, hx, if_false]
          rw [if_pos hy]; rfl
        refine ⟨(n :: r).length, j, ?_, ?_, ⟨newNode x, ?_, rfl⟩, ⟨nj, ?_, hny⟩⟩
        · rw [hnew]; simp [hi, hj, hy.1]
        · exact (Nat.ne_of_lt hjl).symm
        · rw [hnew]; exact List.getElem?_concat_length _ _
        · rw [hnew, List.getElem?_append_left hjl]; exact hnj
      · have hj : (if x = y then none else posOf (n :: r) y) = none := by
          by_cases hxy : x = y
          · simp [hxy]
          · simp only [hxy, if_false]
            exact (posOf_eq_none _ _).mpr (fun h => hy ⟨hxy, h⟩)
        have hnew : newNodes (n :: r) x y = [newNode x, newNode y] := by
          simp only [newNodes, hx, if_false]
          rw [if_neg hy]; rfl
        refine ⟨(n :: r).length, (n :: r).length + 1, ?_, ?_,
          ⟨newNode x, ?_, rfl⟩, ⟨newNode y, ?_, rfl⟩⟩
        · rw [hj, hnew]; simp [hi]
        · omega
        · rw [hnew, List.getElem?_append_right (le_refl _)]; simp
        · rw [hnew, List.getElem?_append_right (Nat.le_succ _)]; simp

theorem numbers_addNodesToLL (g : Graph) (x y : String) :
    numbers (addNodesToLL g x y) = numbers g ++ numbers (newNodes g x y) := by
  obtain ⟨i, j, h, _⟩ := addNodesToLL_eq g x y
  rw [h, numbers_addEdges]
  simp [numbers]

theorem length_addNodesToLL (g : Graph) (x y : String) :
    (addNodesToLL g x y).length = g.length + (newNodes g x y).length := by
  obtain ⟨i, j, h, _⟩ := addNodesToLL_eq g x y
  rw [h, length_addEdges]
  simp

theorem mem_numbers_of_getElem? (g : Graph) (i : Nat) (n : phoneNode)
    (h : g[i]? = some n) : n.pNumber ∈ numbers g :=
  List.mem_map.mpr ⟨n, List.mem_iff_getElem?.mpr ⟨i, h⟩, rfl⟩

theorem fst_mem_numbers_addNodesToLL (g : Graph) (x y : String) :
    x ∈ numbers (addNodesToLL g x y) := by
  obtain ⟨i, j, h, _, ⟨n, hn, hx⟩, _⟩ := addNodesToLL_eq g x y
  rw [h, numbers_addEdges]
  have hm := mem_numbers_of_getElem? _ _ _ hn
  rwa [hx] at hm

theorem snd_mem_numbers_addNodesToLL (g : Graph) (x y : String) :
    y ∈ numbers (addNodesToLL g x y) := by
  obtain ⟨i, j, h, _, _, ⟨n, hn, hy⟩⟩ := addNodesToLL_eq g x y
  rw [h, numbers_addEdges]
  have hm := mem_numbers_of_getElem? _ _ _ hn
  rwa [hy] at hm

theorem posOf_of_mem (g : Graph) (s : String) (h : s ∈ numbers g) :
    ∃ k, posOf g s = some k :=
  lastPos_mem s g 0 none h

theorem addNodesToLL_of_posOf (g : Graph) (x y : String) (i j : Nat) (hxy : x ≠ y)
    (hx : posOf g x = some i) (hy : posOf g y = some j) :
    addNodesToLL g x y = addEdges g i j := by
  cases g with
  | nil => simp [posOf, lastPos] at hx
  | cons n r =>
    rw [addNodesToLL_cons]
    simp [hx, hy, hxy]

/-! ## Order of the arguments -/

/-- Claim C8: for every list of nodes and every two different numbers `A` and
`B`, calling `addNodesToLL(A, B)` and then `addNodesToLL(B, A)` leaves exactly
the same list (nodes, adjacency entries in the same order, counts) as calling
`addNodesToLL(A, B)` twice. -/
theorem addNodesToLL_swap_eq (g : Graph) (A B : String) (hAB : A ≠ B) :
    addNodesToLL (addNodesToLL g A B) B A = addNodesToLL (addNodesToLL g A B) A B := by
  obtain ⟨i, hi⟩ := posOf_of_mem _ _ (fst_mem_numbers_addNodesToLL g A B)
  obtain ⟨j, hj⟩ := posOf_of_mem _ _ (snd_mem_numbers_addNodesToLL g A B)
  rw [addNodesToLL_of_posOf _ B A j i (fun e => hAB e.symm) hj hi,
    addNodesToLL_of_posOf _ A B i j hAB hi hj]
  apply addEdges_comm
  rintro rfl
  obtain ⟨n, hn, hnA⟩ := posOf_some _ _ _ hi
  obtain ⟨m, hm, hmB⟩ := posOf_some _ _ _ hj
  rw [hn] at hm
  cases hm
  exact hAB (hnA.symm.trans hmB)

theorem addNodesToLL_swap_eq_witness :
    "555-111-2222" ≠ "555-333-4444" ∧
    addNodesToLL (addNodesToLL [] "555-111-2222" "555-333-4444")
        "555-333-4444" "555-111-2222" =
      addNodesToLL (addNodesToLL [] "555-111-2222" "555-333-4444")
        "555-111-2222" "555-333-4444" :=
  ⟨by decide, addNodesToLL_swap_eq [] "555-111-2222" "555-333-4444" (by decide)⟩

/-! ## One half of `addEdges` -/

theorem addEdgeTo_cons (e : edges) (r : List edges) (p : Nat) :
    addEdgeTo (e :: r) p =
      if e.dest = p then { e with totalCalls := incrInt e.totalCalls } :: r
      else e :: addEdgeTo r p := by
  induction r generalizing e with
  | nil => simp [addEdgeTo, addEdgeLoop]
  | cons f r _ => simp [addEdgeTo, addEdgeLoop]

theorem countTo_addEdgeTo (cs : List edges) (p t : Nat) :
    countTo t (addEdgeTo cs p) =
      if t = p then
        some (match countTo p cs with
          | none => 1
          | some c => incrInt c)
      else countTo t cs := by
  induction cs with
  | nil =>
    by_cases h : t = p
    · simp [addEdgeTo, countTo, h]
    · have h2 : ¬ p = t := fun e => h e.symm
      simp [addEdgeTo, countTo, h, h2]
  | cons e r ih =>
    rw [addEdgeTo_cons]
    by_cases he : e.dest = p
    · by_cases h : t = p
      · simp [countTo, he, h]
      · have h2 : ¬ p = t := fun e => h e.symm
        simp [countTo, he, h, h2]
    · by_cases h : t = p
      · subst h
        simp only [he, if_false, countTo, ih, if_true]
      · simp only [he, if_false, countTo, ih, h]

theorem dests_addEdgeTo (cs : List edges) (p : Nat) :
    dests (addEdgeTo cs p) = if p ∈ dests cs then dests cs else dests cs ++ [p] := by
  induction cs with
  | nil => simp [addEdgeTo, dests]
  | cons e r ih =>
    rw [addEdgeTo_cons]
    by_cases he : e.dest = p
    · simp [dests, he]
    · have he2 : ¬ p = e.dest := fun h => he h.symm
      simp only [he, if_false, dests, List.map_cons, List.mem_cons, he2, false_or] at ih ⊢
      rw [ih]
      by_cases hm : p ∈ List.map (fun e => e.dest) r <;> simp [hm]

theorem addEdgeTo_of_mem (cs : List edges) (p : Nat) (h : p ∈ dests cs)
    (hn : (dests cs).Nodup) : addEdgeTo cs p = bumped cs p := by
  induction cs with
  | nil => simp [dests] at h
  | cons e r ih =>
    rw [addEdgeTo_cons]
    simp only [dests, List.map_cons, List.nodup_cons, List.mem_cons] at h hn
    by_cases he : e.dest = p
    · simp only [he, if_true, bumped, List.map_cons, List.cons.injEq, true_and]
      symm
      have hid : List.map (fun e : edges => if e.dest = p then
          { e with totalCalls := incrInt e.totalCalls } else e) r = List.map id r := by
        apply List.map_congr_left
        intro f hf
        have : ¬ f.dest = p := by
          intro hfp
          apply hn.1
          rw [he, ← hfp]
          exact List.mem_map.mpr ⟨f, hf, rfl⟩
        simp [this]
      rw [hid, List.map_id]
    · have he2 : ¬ p = e.dest := fun h => he h.symm
      simp only [he2, false_or] at h
      simp only [he, if_false, bumped, List.map_cons, List.cons.injEq, true_and]
      exact ih h hn.2

theorem addEdgeTo_of_not_mem (cs : List edges) (p : Nat) (h : p ∉ dests cs) :
    addEdgeTo cs p = cs ++ [⟨p, 1⟩] := by
  induction cs with
  | nil => rfl
  | cons e r ih =>
    rw [addEdgeTo_cons]
    simp only [dests, List.map_cons, List.mem_cons, not_or] at h
    have he : ¬ e.dest = p := fun e => h.1 e.symm
    simp only [he, if_false, List.cons_append, List.cons.injEq, true_and]
    exact ih h.2

theorem countTo_eq_none (cs : List edges) (p : Nat) :
    countTo p cs = none ↔ p ∉ dests cs := by
  induction cs with
  | nil => simp [countTo, dests]
  | cons e r ih =>
    by_cases he : e.dest = p
    · simp [countTo, dests, he]
    · have he2 : ¬ p = e.dest := fun h => he h.symm
      simp only [countTo, he, if_false, ih, dests, List.map_cons, List.mem_cons, he2,
        false_or]

theorem mem_of_countTo (cs : List edges) (p : Nat) (c : Int) (h : countTo p cs = some c) :
    (⟨p, c⟩ : edges) ∈ cs := by
  induction cs with
  | nil => simp [countTo] at h
  | cons e r ih =>
    by_cases he : e.dest = p
    · simp only [countTo, he, if_true, Option.some.injEq] at h
      cases e
      simp only at he h
      subst he h
      exact List.mem_cons_self _ _
    · simp only [countTo, he, if_false] at h
      exact List.mem_cons_of_mem _ (ih h)

theorem countTo_of_mem (cs : List edges) (e : edges) (h : e ∈ cs) (hn : (dests cs).Nodup) :
    countTo e.dest cs = some e.totalCalls := by
  induction cs with
  | nil => cases h
  | cons f r ih =>
    simp only [dests, List.map_cons, List.nodup_cons] at hn
    rcases List.mem_cons.mp h with h | h
    · subst h
      simp [countTo]
    · have hf : ¬ f.dest = e.dest := by
        intro hfe
        apply hn.1
        rw [hfe]
        exact List.mem_map.mpr ⟨e, h, rfl⟩
      simp only [countTo, hf, if_false]
      exact ih h hn.2

theorem linkedCallsOf_eq (cs : List edges) (p : Nat) :
    linkedCallsOf p cs = (countTo p cs).getD 0 := by
  induction cs with
  | nil => rfl
  | cons e r ih =>
    by_cases he : e.dest = p
    · simp [linkedCallsOf, countTo, he]
    · have he2 : ¬ p = e.dest := fun h => he h.symm
      simp [linkedCallsOf, countTo, he, he2, ih]

/-! ## Arithmetic of the call counter -/

theorem wrapInt_of_le (c : Nat) (h : c ≤ 2147483647) : wrapInt c = c := by
  unfold wrapInt
  omega

theorem incrInt_wrapInt (x : Int) : incrInt (wrapInt x) = wrapInt (x + 1) := by
  unfold incrInt wrapInt
  omega

theorem countAfter_succ (c : Nat) :
    countAfter (c + 1) = some (match countAfter c with
      | none => 1
      | some v => incrInt v) := by
  unfold countAfter
  by_cases h : c = 0
  · subst h
    simp [wrapInt]
  · simp only [h, if_false, Nat.succ_ne_zero, incrInt_wrapInt]
    simp

/-! ## Counting the inserted pairs -/

theorem pairCount_append_singleton (calls : List (String × String)) (x y a b : String) :
    pairCount (calls ++ [(x, y)]) a b =
      pairCount calls a b + (if (x = a ∧ y = b) ∨ (x = b ∧ y = a) then 1 else 0) := by
  simp [pairCount, List.countP_append, List.countP_cons]

theorem pairCount_comm (calls : List (String × String)) (a b : String) :
    pairCount calls a b = pairCount calls b a := by
  unfold pairCount
  congr 1
  funext p
  simp only [decide_eq_decide]
  exact Or.comm

theorem pairCount_of_not_occurs (calls : List (String × String)) (a b : String)
    (h : ¬ Occurs calls a) : pairCount calls a b = 0 := by
  unfold pairCount
  rw [List.countP_eq_zero]
  intro p hp
  simp only [decide_eq_true_eq]
  rintro (rfl | rfl)
  · exact h ⟨_, hp, Or.inl rfl⟩
  · exact h ⟨_, hp, Or.inr rfl⟩

theorem pairCount_self (calls : List (String × String)) (a : String)
    (h : Distinct calls) : pairCount calls a a = 0 := by
  unfold pairCount
  rw [List.countP_eq_zero]
  intro p hp
  simp only [decide_eq_true_eq, or_self]
  rintro rfl
  exact h _ hp rfl

theorem occurs_append_singleton (calls : List (String × String)) (x y s : String) :
    Occurs (calls ++ [(x, y)]) s ↔ Occurs calls s ∨ x = s ∨ y = s := by
  simp [Occurs, or_and_right, exists_or]

/-! ## Positions of nodes -/

theorem index_unique (g : Graph) (hn : (numbers g).Nodup) (i j : Nat) (ni nj : phoneNode)
    (hi : g[i]? = some ni) (hj : g[j]? = some nj) (h : ni.pNumber = nj.pNumber) :
    i = j := by
  obtain ⟨hi1, hi2⟩ := List.getElem?_eq_some.mp hi
  obtain ⟨hj1, hj2⟩ := List.getElem?_eq_some.mp hj
  have hi3 : i < (numbers g).length := by simpa [numbers] using hi1
  have hj3 : j < (numbers g).length := by simpa [numbers] using hj1
  have e : (numbers g)[i] = (numbers g)[j] := by
    simp only [numbers, List.getElem_map, hi2, hj2, h]
  exact (List.Nodup.getElem_inj_iff hn).mp e

theorem posOf_eq_some_iff (g : Graph) (hn : (numbers g).Nodup) (s : String) (k : Nat) :
    posOf g s = some k ↔ ∃ n, g[k]? = some n ∧ n.pNumber = s := by
  constructor
  · exact posOf_some g s k
  · rintro ⟨n, hk, hs⟩
    have hm : s ∈ numbers g := hs ▸ mem_numbers_of_getElem? g k n hk
    obtain ⟨k2, hk2⟩ := posOf_of_mem g s hm
    obtain ⟨m, hm1, hm2⟩ := posOf_some g s k2 hk2
    have := index_unique g hn k2 k m n hm1 hk (hm2.trans hs.symm)
    rw [hk2, this]

theorem getElem?_addEdges (g : Graph) (i j k : Nat) (hij : i ≠ j) :
    (addEdges g i j)[k]? = (g[k]?).map (fun n =>
      if k = i then { n with calls := addEdgeTo n.calls j }
      else if k = j then { n with calls := addEdgeTo n.calls i } else n) := by
  unfold addEdges
  simp only [getElem?_updateCalls]
  cases g[k]? with
  | none => rfl
  | some n =>
    by_cases h1 : i = k
    · have h2 : ¬ j = k := fun e => hij (h1.trans e.symm)
      simp [h1, h2]
    · have h1b : ¬ k = i := fun e => h1 e.symm
      by_cases h2 : j = k
      · simp [h1, h1b, h2]
      · have h2b : ¬ k = j := fun e => h2 e.symm
        simp [h1, h1b, h2, h2b]

theorem getElem?_append_newNodes (g : Graph) (x y : String) (hxy : x ≠ y) (k : Nat)
    (n : phoneNode) (h : (g ++ newNodes g x y)[k]? = some n) :
    g[k]? = some n ∨ (g.length ≤ k ∧ n.calls = [] ∧ n.pNumber ∉ numbers g) := by
  by_cases hk : k < g.length
  · left
    rwa [List.getElem?_append_left hk] at h
  · right
    refine ⟨Nat.le_of_not_lt hk, ?_⟩
    rw [List.getElem?_append_right (Nat.le_of_not_lt hk)] at h
    have hm : n ∈ newNodes g x y := List.mem_iff_getElem?.mpr ⟨_, h⟩
    unfold newNodes at hm
    rcases List.mem_append.mp hm with hm | hm
    · by_cases hx : x ∈ numbers g
      · simp [hx] at hm
      · simp only [hx, if_false, List.mem_singleton] at hm
        subst hm
        exact ⟨rfl, hx⟩
    · by_cases hy : x ≠ y ∧ y ∈ numbers g
      · rw [if_pos hy] at hm
        cases hm
      · rw [if_neg hy] at hm
        simp only [List.mem_singleton] at hm
        subst hm
        exact ⟨rfl, fun h => hy ⟨hxy, h⟩⟩

theorem nodup_numbers_append_newNodes (g : Graph) (x y : String) (hxy : x ≠ y)
    (hn : (numbers g).Nodup) : (numbers (g ++ newNodes g x y)).Nodup := by
  have hyx : ¬ y = x := fun e => hxy e.symm
  have key : ∀ l : List phoneNode, numbers (g ++ l) = numbers g ++ numbers l := by
    intro l; simp [numbers]
  rw [key]
  by_cases hx : x ∈ numbers g <;> by_cases hy : y ∈ numbers g
  · have e : newNodes g x y = [] := by simp [newNodes, hx, hy, hxy]
    rw [e]; simpa [numbers] using hn
  · have e : newNodes g x y = [newNode y] := by simp [newNodes, hx, hy]
    rw [e, List.nodup_append]
    exact ⟨hn, List.nodup_singleton _, by simpa [numbers, newNode] using hy⟩
  · have e : newNodes g x y = [newNode x] := by simp [newNodes, hx, hy, hxy]
    rw [e, List.nodup_append]
    exact ⟨hn, List.nodup_singleton _, by simpa [numbers, newNode] using hx⟩
  · have e : newNodes g x y = [newNode x, newNode y] := by simp [newNodes, hx, hy]
    rw [e, List.nodup_append]
    refine ⟨hn, by simp [numbers, newNode, hxy], ?_⟩
    intro s hs hs2
    simp only [numbers, newNode, List.map_cons, List.map_nil, List.mem_cons,
      List.mem_singleton, List.not_mem_nil, or_false] at hs2
    rcases hs2 with rfl | rfl
    · exact hx hs
    · exact hy hs

/-! ## The numbers of the nodes -/

theorem build_append_singleton (calls : List (String × String)) (x y : String) :
    build (calls ++ [(x, y)]) = addNodesToLL (build calls) x y := by
  simp [build, List.foldl_append]

theorem mem_numbers_newNodes (g : Graph) (x y s : String)
    (h : s ∈ numbers (newNodes g x y)) : s = x ∨ s = y := by
  obtain ⟨n, hm, rfl⟩ := List.mem_map.mp h
  unfold newNodes at hm
  rcases List.mem_append.mp hm with hm | hm
  · by_cases hx : x ∈ numbers g
    · simp [hx] at hm
    · simp only [hx, if_false, List.mem_singleton] at hm
      subst hm
      exact Or.inl rfl
  · by_cases hy : x ≠ y ∧ y ∈ numbers g
    · rw [if_pos hy] at hm
      cases hm
    · rw [if_neg hy] at hm
      simp only [List.mem_singleton] at hm
      subst hm
      exact Or.inr rfl

theorem mem_numbers_addNodesToLL (g : Graph) (x y s : String) :
    s ∈ numbers (addNodesToLL g x y) ↔ s ∈ numbers g ∨ s = x ∨ s = y := by
  constructor
  · intro h
    rw [numbers_addNodesToLL, List.mem_append] at h
    rcases h with h | h
    · exact Or.inl h
    · exact Or.inr (mem_numbers_newNodes g x y s h)
  · rintro (h | rfl | rfl)
    · rw [numbers_addNodesToLL]
      exact List.mem_append_left _ h
    · exact fst_mem_numbers_addNodesToLL g s y
    · exact snd_mem_numbers_addNodesToLL g x s

theorem mem_numbers_build (calls : List (String × String)) (s : String) :
    s ∈ numbers (build calls) ↔ Occurs calls s := by
  induction calls using List.reverseRecOn with
  | nil => simp [build, numbers, Occurs]
  | append_singleton l p ih =>
    obtain ⟨x, y⟩ := p
    rw [build_append_singleton, mem_numbers_addNodesToLL, occurs_append_singleton, ih]
    constructor
    · rintro (h | h | h)
      · exact Or.inl h
      · exact Or.inr (Or.inl h.symm)
      · exact Or.inr (Or.inr h.symm)
    · rintro (h | h | h)
      · exact Or.inl h
      · exact Or.inr (Or.inl h.symm)
      · exact Or.inr (Or.inr h.symm)

/-! ## Preservation of the representation invariant -/

theorem Inv_nil : Inv [] [] := by
  refine ⟨List.nodup_nil, ?_, ?_, ?_⟩ <;> intro i <;> simp

theorem Inv_append_newNodes (calls : List (String × String)) (g : Graph) (x y : String)
    (hxy : x ≠ y) (hinv : Inv calls g) (hocc : ∀ s, Occurs calls s → s ∈ numbers g) :
    Inv calls (g ++ newNodes g x y) := by
  obtain ⟨hN, hW, hD, hC⟩ := hinv
  refine ⟨nodup_numbers_append_newNodes g x y hxy hN, ?_, ?_, ?_⟩
  · intro i n hi e he
    rcases getElem?_append_newNodes g x y hxy i n hi with h | ⟨_, h, _⟩
    · have := hW i n h e he
      rw [List.length_append]
      omega
    · rw [h] at he; cases he
  · intro i n hi
    rcases getElem?_append_newNodes g x y hxy i n hi with h | ⟨_, h, _⟩
    · exact hD i n h
    · rw [h]; exact List.nodup_nil
  · intro i j ni nj hi hj
    rcases getElem?_append_newNodes g x y hxy i ni hi with h1 | ⟨_, h1, h1n⟩
    · rcases getElem?_append_newNodes g x y hxy j nj hj with h2 | ⟨h2l, _, h2n⟩
      · exact hC i j ni nj h1 h2
      · rw [pairCount_comm, pairCount_of_not_occurs calls _ _ (fun h => h2n (hocc _ h))]
        show countTo j ni.calls = none
        rw [countTo_eq_none]
        intro hm
        obtain ⟨e, he, hej⟩ := List.mem_map.mp hm
        have := hW i ni h1 e he
        omega
    · rw [pairCount_of_not_occurs calls _ _ (fun h => h1n (hocc _ h)), h1]
      rfl

theorem Inv_addEdges (calls : List (String × String)) (g : Graph) (x y : String)
    (i j : Nat) (ni nj : phoneNode) (hxy : x ≠ y) (hinv : Inv calls g)
    (hi : g[i]? = some ni) (hj : g[j]? = some nj) (hx : ni.pNumber = x)
    (hy : nj.pNumber = y) : Inv (calls ++ [(x, y)]) (addEdges g i j) := by
  obtain ⟨hN, hW, hD, hC⟩ := hinv
  have hij : i ≠ j := by
    rintro rfl
    rw [hi] at hj; cases hj
    exact hxy (hx.symm.trans hy)
  have hil : i < g.length := (List.getElem?_eq_some.mp hi).1
  have hjl : j < g.length := (List.getElem?_eq_some.mp hj).1
  have hget : ∀ (k : Nat) (m : phoneNode), (addEdges g i j)[k]? = some m →
      ∃ n, g[k]? = some n ∧ m.pNumber = n.pNumber ∧
        m.calls = (if k = i then addEdgeTo n.calls j
          else if k = j then addEdgeTo n.calls i else n.calls) := by
    intro k m hk
    rw [getElem?_addEdges g i j k hij] at hk
    cases hg : g[k]? with
    | none => rw [hg] at hk; cases hk
    | some n =>
      rw [hg] at hk
      simp only [Option.map_some', Option.some.injEq] at hk
      refine ⟨n, rfl, ?_, ?_⟩
      · subst hk
        split_ifs <;> rfl
      · subst hk
        split_ifs <;> rfl
  have hmem : ∀ (cs : List edges) (p : Nat) (e : edges), e ∈ addEdgeTo cs p →
      e.dest = p ∨ e.dest ∈ dests cs := by
    intro cs p e he
    have : e.dest ∈ dests (addEdgeTo cs p) := List.mem_map.mpr ⟨e, he, rfl⟩
    rw [dests_addEdgeTo] at this
    by_cases hp : p ∈ dests cs
    · rw [if_pos hp] at this; exact Or.inr this
    · rw [if_neg hp] at this
      rcases List.mem_append.mp this with h | h
      · exact Or.inr h
      · exact Or.inl (List.mem_singleton.mp h)
  have hnod : ∀ (cs : List edges) (p : Nat), (dests cs).Nodup →
      (dests (addEdgeTo cs p)).Nodup := by
    intro cs p h
    rw [dests_addEdgeTo]
    by_cases hp : p ∈ dests cs
    · rw [if_pos hp]; exact h
    · rw [if_neg hp, List.nodup_append]
      exact ⟨h, List.nodup_singleton _, by simpa using hp⟩
  refine ⟨by rw [numbers_addEdges]; exact hN, ?_, ?_, ?_⟩
  · intro k m hk e he
    obtain ⟨n, hn, _, hc⟩ := hget k m hk
    rw [length_addEdges]
    have hold : ∀ e ∈ n.calls, e.dest < g.length := hW k n hn
    have hold2 : ∀ d ∈ dests n.calls, d < g.length := by
      intro d hd
      obtain ⟨e, he, rfl⟩ := List.mem_map.mp hd
      exact hold e he
    rw [hc] at he
    by_cases h1 : k = i
    · rw [if_pos h1] at he
      rcases hmem _ _ _ he with h | h
      · omega
      · exact hold2 _ h
    · rw [if_neg h1] at he
      by_cases h2 : k = j
      · rw [if_pos h2] at he
        rcases hmem _ _ _ he with h | h
        · omega
        · exact hold2 _ h
      · rw [if_neg h2] at he
        exact hold e he
  · intro k m hk
    obtain ⟨n, hn, _, hc⟩ := hget k m hk
    rw [hc]
    by_cases h1 : k = i
    · rw [if_pos h1]; exact hnod _ _ (hD k n hn)
    · rw [if_neg h1]
      by_cases h2 : k = j
      · rw [if_pos h2]; exact hnod _ _ (hD k n hn)
      · rw [if_neg h2]; exact hD k n hn
  · intro k l mk ml hk hl
    obtain ⟨nk, hnk, hpk, hck⟩ := hget k mk hk
    obtain ⟨nl, hnl, hpl, _⟩ := hget l ml hl
    have hkx : nk.pNumber = x ↔ k = i :=
      ⟨fun h => index_unique g hN k i nk ni hnk hi (h.trans hx.symm),
       fun h => by subst h; rw [hi] at hnk; cases hnk; exact hx⟩
    have hky : nk.pNumber = y ↔ k = j :=
      ⟨fun h => index_unique g hN k j nk nj hnk hj (h.trans hy.symm),
       fun h => by subst h; rw [hj] at hnk; cases hnk; exact hy⟩
    have hlx : nl.pNumber = x ↔ l = i :=
      ⟨fun h => index_unique g hN l i nl ni hnl hi (h.trans hx.symm),
       fun h => by subst h; rw [hi] at hnl; cases hnl; exact hx⟩
    have hly : nl.pNumber = y ↔ l = j :=
      ⟨fun h => index_unique g hN l j nl nj hnl hj (h.trans hy.symm),
       fun h => by subst h; rw [hj] at hnl; cases hnl; exact hy⟩
    rw [hpk, hpl, pairCount_append_singleton, hck]
    have hold := hC k l nk nl hnk hnl
    have e1 : (x = nk.pNumber ∧ y = nl.pNumber) ↔ (k = i ∧ l = j) := by
      rw [← hkx, ← hly]
      exact ⟨fun h => ⟨h.1.symm, h.2.symm⟩, fun h => ⟨h.1.symm, h.2.symm⟩⟩
    have e2 : (x = nl.pNumber ∧ y = nk.pNumber) ↔ (l = i ∧ k = j) := by
      rw [← hlx, ← hky]
      exact ⟨fun h => ⟨h.1.symm, h.2.symm⟩, fun h => ⟨h.1.symm, h.2.symm⟩⟩
    simp only [e1, e2]
    by_cases h1 : k = i
    · rw [if_pos h1, countTo_addEdgeTo]
      have h3 : ¬ k = j := fun e => hij (h1.symm.trans e)
      by_cases h2 : l = j
      · subst h2
        rw [if_pos rfl, if_pos (Or.inl ⟨h1, rfl⟩), countAfter_succ, ← hold]
      · rw [if_neg h2, if_neg (by simp [h2, h3]), Nat.add_zero]
        exact hold
    · rw [if_neg h1]
      by_cases h2 : k = j
      · rw [if_pos h2, countTo_addEdgeTo]
        by_cases h3 : l = i
        · subst h3
          rw [if_pos rfl, if_pos (Or.inr ⟨rfl, h2⟩), countAfter_succ, ← hold]
        · rw [if_neg h3, if_neg (by simp [h1, h3]), Nat.add_zero]
          exact hold
      · rw [if_neg h2, if_neg (by simp [h1, h2]), Nat.add_zero]
        exact hold

theorem Inv_addNodesToLL (calls : List (String × String)) (g : Graph) (x y : String)
    (hxy : x ≠ y) (hinv : Inv calls g) (hocc : ∀ s, Occurs calls s → s ∈ numbers g) :
    Inv (calls ++ [(x, y)]) (addNodesToLL g x y) := by
  obtain ⟨i, j, heq, _, ⟨ni, hni, hx⟩, ⟨nj, hnj, hy⟩⟩ := addNodesToLL_eq g x y
  rw [heq]
  exact Inv_addEdges calls _ x y i j ni nj hxy
    (Inv_append_newNodes calls g x y hxy hinv hocc) hni hnj hx hy

theorem distinct_append_singleton (calls : List (String × String)) (x y : String) :
    Distinct (calls ++ [(x, y)]) ↔ Distinct calls ∧ x ≠ y := by
  simp only [Distinct, List.mem_append, List.mem_singleton]
  constructor
  · intro h
    exact ⟨fun p hp => h p (Or.inl hp), h (x, y) (Or.inr rfl)⟩
  · rintro ⟨h1, h2⟩ p (hp | rfl)
    · exact h1 p hp
    · exact h2

theorem Inv_build (calls : List (String × String)) (hd : Distinct calls) :
    Inv calls (build calls) := by
  induction calls using List.reverseRecOn with
  | nil => exact Inv_nil
  | append_singleton l p ih =>
    obtain ⟨x, y⟩ := p
    rw [distinct_append_singleton] at hd
    rw [build_append_singleton]
    exact Inv_addNodesToLL l _ x y hd.2 (ih hd.1)
      (fun s hs => (mem_numbers_build l s).mpr hs)

/-! ## Consequences of the invariant -/

theorem callsAt_of_getElem? (g : Graph) (i : Nat) (n : phoneNode) (h : g[i]? = some n) :
    callsAt g i = n.calls := by
  simp [callsAt, h]

theorem getElem?_of_mem_callsAt (g : Graph) (i : Nat) (e : edges) (h : e ∈ callsAt g i) :
    ∃ n, g[i]? = some n ∧ e ∈ n.calls := by
  unfold callsAt at h
  cases hg : g[i]? with
  | none => rw [hg] at h; cases h
  | some n => rw [hg] at h; exact ⟨n, rfl, h⟩

theorem nodup_dests_callsAt (calls : List (String × String)) (g : Graph) (hinv : Inv calls g)
    (i : Nat) : (dests (callsAt g i)).Nodup := by
  unfold callsAt
  cases hg : g[i]? with
  | none => exact List.nodup_nil
  | some n => exact hinv.2.2.1 i n hg

theorem countTo_callsAt (calls : List (String × String)) (g : Graph) (hinv : Inv calls g)
    (A B : String) (i j : Nat) (hi : posOf g A = some i) (hj : posOf g B = some j) :
    countTo j (callsAt g i) = countAfter (pairCount calls A B) := by
  obtain ⟨ni, hni, hA⟩ := posOf_some g A i hi
  obtain ⟨nj, hnj, hB⟩ := posOf_some g B j hj
  rw [callsAt_of_getElem? g i ni hni, hinv.2.2.2 i j ni nj hni hnj, hA, hB]

theorem Inv_mirrored (calls : List (String × String)) (g : Graph) (hinv : Inv calls g) :
    Mirrored g := by
  intro a b n h
  obtain ⟨na, hna, hmem⟩ := getElem?_of_mem_callsAt g a _ h
  have hb : b < g.length := hinv.2.1 a na hna _ hmem
  have hnb : g[b]? = some g[b] := List.getElem?_eq_getElem hb
  have h1 := countTo_of_mem na.calls _ hmem (hinv.2.2.1 a na hna)
  rw [hinv.2.2.2 a b na g[b] hna hnb, pairCount_comm,
    ← hinv.2.2.2 b a g[b] na hnb hna] at h1
  rw [callsAt_of_getElem? g b _ hnb]
  exact mem_of_countTo _ _ _ h1

theorem callsAt_append_newNodes (g : Graph) (x y : String) (k : Nat) :
    callsAt (g ++ newNodes g x y) k = callsAt g k := by
  unfold callsAt
  by_cases hk : k < g.length
  · rw [List.getElem?_append_left hk]
  · rw [List.getElem?_append_right (Nat.le_of_not_lt hk),
      List.getElem?_eq_none (Nat.le_of_not_lt hk)]
    cases hn : (newNodes g x y)[k - g.length]? with
    | none => rfl
    | some n =>
      have hm : n ∈ newNodes g x y := List.mem_iff_getElem?.mpr ⟨_, hn⟩
      have : n.calls = [] := by
        unfold newNodes at hm
        rcases List.mem_append.mp hm with hm | hm
        · split_ifs at hm
          · cases hm
          · rw [List.mem_singleton.mp hm]; rfl
        · split_ifs at hm
          · cases hm
          · rw [List.mem_singleton.mp hm]; rfl
      simp [this]

theorem callsAt_addEdges (g : Graph) (i j k : Nat) (hij : i ≠ j) (hi : i < g.length)
    (hj : j < g.length) :
    callsAt (addEdges g i j) k =
      if k = i then addEdgeTo (callsAt g i) j
      else if k = j then addEdgeTo (callsAt g j) i else callsAt g k := by
  unfold callsAt
  rw [getElem?_addEdges g i j k hij]
  by_cases h1 : k = i
  · subst h1
    simp [List.getElem?_eq_getElem hi]
  · by_cases h2 : k = j
    · subst h2
      simp [List.getElem?_eq_getElem hj, h1]
    · simp only [h1, h2, if_false]
      cases g[k]? <;> rfl

/-! ## No duplicate nodes -/

/-- Claim C7: in every graph built from the empty graph by calls of
`addNodesToLL` on pairs of different numbers, no two nodes carry the same
`pNumber`; a further call `addNodesToLL(x, y)` with `x ≠ y` appends a node for
`x` exactly when no node carries `x`, then one for `y` exactly when no node
carries `y`, and leaves the numbers of the existing nodes at their positions. -/
theorem no_duplicate_nodes (calls : List (String × String)) (hd : Distinct calls)
    (x y : String) (hxy : x ≠ y) :
    (numbers (build calls)).Nodup ∧
    (numbers (addNodesToLL (build calls) x y)).Nodup ∧
    numbers (addNodesToLL (build calls) x y) =
      numbers (build calls) ++ (if x ∈ numbers (build calls) then [] else [x]) ++
        (if y ∈ numbers (build calls) then [] else [y]) := by
  refine ⟨(Inv_build calls hd).1, ?_, ?_⟩
  · rw [← build_append_singleton]
    exact (Inv_build _ ((distinct_append_singleton calls x y).mpr ⟨hd, hxy⟩)).1
  · rw [numbers_addNodesToLL, List.append_assoc]
    congr 1
    unfold newNodes
    by_cases hx : x ∈ numbers (build calls) <;>
      by_cases hy : y ∈ numbers (build calls) <;>
      simp only [hx, hy, hxy, ne_eq, not_false_eq_true, true_and, and_true, and_false,
        if_true, if_false] <;>
      rfl

theorem no_duplicate_nodes_witness :
    Distinct [("555-111-2222", "555-333-4444")] ∧ "555-333-4444" ≠ "555-555-6666" ∧
    (numbers (build [("555-111-2222", "555-333-4444")])).Nodup ∧
    (numbers (addNodesToLL (build [("555-111-2222", "555-333-4444")])
      "555-333-4444" "555-555-6666")).Nodup ∧
    numbers (addNodesToLL (build [("555-111-2222", "555-333-4444")])
        "555-333-4444" "555-555-6666") =
      numbers (build [("555-111-2222", "555-333-4444")]) ++
        (if "555-333-4444" ∈ numbers (build [("555-111-2222", "555-333-4444")])
          then [] else ["555-333-4444"]) ++
        (if "555-555-6666" ∈ numbers (build [("555-111-2222", "555-333-4444")])
          then [] else ["555-555-6666"]) :=
  ⟨by decide, by decide,
    no_duplicate_nodes [("555-111-2222", "555-333-4444")] (by decide)
      "555-333-4444" "555-555-6666" (by decide)⟩

/-! ## Mirrored edges -/

/-- Claim C5: in every graph built from the empty graph by calls of
`addNodesToLL` on pairs of different numbers, an entry from node `a` to node
`b` with `totalCalls` `n` comes with an entry from `b` to `a` with the same
`totalCalls`; the property still holds after one more call of `addNodesToLL` on
two different numbers. -/
theorem mirrored_edges (calls : List (String × String)) (hd : Distinct calls)
    (x y : String) (hxy : x ≠ y) :
    Mirrored (build calls) ∧ Mirrored (addNodesToLL (build calls) x y) := by
  refine ⟨Inv_mirrored calls _ (Inv_build calls hd), ?_⟩
  rw [← build_append_singleton]
  exact Inv_mirrored _ _ (Inv_build _ ((distinct_append_singleton calls x y).mpr ⟨hd, hxy⟩))

theorem mirrored_edges_witness :
    Distinct [("555-111-2222", "555-333-4444")] ∧ "555-333-4444" ≠ "555-555-6666" ∧
    Mirrored (build [("555-111-2222", "555-333-4444")]) ∧
    Mirrored (addNodesToLL (build [("555-111-2222", "555-333-4444")])
      "555-333-4444" "555-555-6666") :=
  ⟨by decide, by decide,
    mirrored_edges [("555-111-2222", "555-333-4444")] (by decide)
      "555-333-4444" "555-555-6666" (by decide)⟩

/-! ## No duplicate edge entries -/

theorem insertion_step (calls : List (String × String)) (g : Graph) (x y : String)
    (hxy : x ≠ y) (hinv : Inv calls g) (hocc : ∀ s, Occurs calls s → s ∈ numbers g) :
    ∃ i j, posOf (addNodesToLL g x y) x = some i ∧ posOf (addNodesToLL g x y) y = some j ∧
      callsAt (addNodesToLL g x y) i = addEdgeTo (callsAt g i) j ∧
      callsAt (addNodesToLL g x y) j = addEdgeTo (callsAt g j) i ∧
      countTo j (callsAt g i) = countAfter (pairCount calls x y) ∧
      countTo i (callsAt g j) = countAfter (pairCount calls x y) := by
  have hinv2 := Inv_addNodesToLL calls g x y hxy hinv hocc
  have hinv1 := Inv_append_newNodes calls g x y hxy hinv hocc
  obtain ⟨i, j, heq, hij, ⟨ni, hni, hx⟩, ⟨nj, hnj, hy⟩⟩ := addNodesToLL_eq g x y
  have hil := (List.getElem?_eq_some.mp hni).1
  have hjl := (List.getElem?_eq_some.mp hnj).1
  refine ⟨i, j, ?_, ?_, ?_, ?_, ?_, ?_⟩
  · rw [posOf_eq_some_iff _ hinv2.1, heq, getElem?_addEdges _ i j i hij, hni]
    exact ⟨_, rfl, by simpa using hx⟩
  · rw [posOf_eq_some_iff _ hinv2.1, heq, getElem?_addEdges _ i j j hij, hnj]
    refine ⟨_, rfl, ?_⟩
    simp only [if_neg hij.symm, if_true]
    exact hy
  · rw [heq, callsAt_addEdges _ i j i hij hil hjl, if_pos rfl, callsAt_append_newNodes]
  · rw [heq, callsAt_addEdges _ i j j hij hil hjl, if_neg hij.symm, if_pos rfl,
      callsAt_append_newNodes]
  · rw [← callsAt_append_newNodes g x y i, callsAt_of_getElem? _ i ni hni,
      hinv1.2.2.2 i j ni nj hni hnj, hx, hy]
  · rw [← callsAt_append_newNodes g x y j, callsAt_of_getElem? _ j nj hnj,
      hinv1.2.2.2 j i nj ni hnj hni, hx, hy, pairCount_comm]

theorem countAfter_eq_none (c : Nat) : countAfter c = none ↔ c = 0 := by
  unfold countAfter
  by_cases h : c = 0 <;> simp [h]

theorem length_bumped (cs : List edges) (p : Nat) : (bumped cs p).length = cs.length := by
  simp [bumped]

/-- Claim C6: in every graph built from the empty graph by calls of
`addNodesToLL` on pairs of different numbers, no adjacency list has two entries
to the same node.  A further call `addNodesToLL(x, y)` with `x ≠ y` on a pair
that was inserted before increments the entry to the other node in each of the
two adjacency lists and keeps both lengths; on a pair that was not inserted
before it appends one entry with `totalCalls` 1 to each of the two lists. -/
theorem no_duplicate_edges (calls : List (String × String)) (hd : Distinct calls)
    (x y : String) (hxy : x ≠ y) :
    (∀ n ∈ build calls, (dests n.calls).Nodup) ∧
    (∀ n ∈ addNodesToLL (build calls) x y, (dests n.calls).Nodup) ∧
    ∃ i j, posOf (addNodesToLL (build calls) x y) x = some i ∧
      posOf (addNodesToLL (build calls) x y) y = some j ∧
      (0 < pairCount calls x y →
        j ∈ dests (callsAt (build calls) i) ∧ i ∈ dests (callsAt (build calls) j) ∧
        callsAt (addNodesToLL (build calls) x y) i = bumped (callsAt (build calls) i) j ∧
        callsAt (addNodesToLL (build calls) x y) j = bumped (callsAt (build calls) j) i ∧
        (callsAt (addNodesToLL (build calls) x y) i).length =
          (callsAt (build calls) i).length ∧
        (callsAt (addNodesToLL (build calls) x y) j).length =
          (callsAt (build calls) j).length) ∧
      (pairCount calls x y = 0 →
        callsAt (addNodesToLL (build calls) x y) i = callsAt (build calls) i ++ [⟨j, 1⟩] ∧
        callsAt (addNodesToLL (build calls) x y) j = callsAt (build calls) j ++ [⟨i, 1⟩]) := by
  have hinv := Inv_build calls hd
  have hinv2 : Inv (calls ++ [(x, y)]) (addNodesToLL (build calls) x y) := by
    rw [← build_append_singleton]
    exact Inv_build _ ((distinct_append_singleton calls x y).mpr ⟨hd, hxy⟩)
  refine ⟨?_, ?_, ?_⟩
  · intro n hn
    obtain ⟨k, hk⟩ := List.mem_iff_getElem?.mp hn
    exact hinv.2.2.1 k n hk
  · intro n hn
    obtain ⟨k, hk⟩ := List.mem_iff_getElem?.mp hn
    exact hinv2.2.2.1 k n hk
  · obtain ⟨i, j, hi, hj, hci, hcj, hti, htj⟩ := insertion_step calls (build calls) x y hxy
      hinv (fun s hs => (mem_numbers_build calls s).mpr hs)
    refine ⟨i, j, hi, hj, ?_, ?_⟩
    · intro hpos
      have hne : countAfter (pairCount calls x y) ≠ none := by
        rw [Ne, countAfter_eq_none]; omega
      have hmi : j ∈ dests (callsAt (build calls) i) := by
        by_contra hc
        exact hne (hti ▸ (countTo_eq_none _ _).mpr hc)
      have hmj : i ∈ dests (callsAt (build calls) j) := by
        by_contra hc
        exact hne (htj ▸ (countTo_eq_none _ _).mpr hc)
      have e1 := addEdgeTo_of_mem _ _ hmi (nodup_dests_callsAt calls _ hinv i)
      have e2 := addEdgeTo_of_mem _ _ hmj (nodup_dests_callsAt calls _ hinv j)
      refine ⟨hmi, hmj, hci.trans e1, hcj.trans e2, ?_, ?_⟩
      · rw [hci, e1, length_bumped]
      · rw [hcj, e2, length_bumped]
    · intro hzero
      rw [hzero] at hti htj
      have hmi : j ∉ dests (callsAt (build calls) i) := (countTo_eq_none _ _).mp hti
      have hmj : i ∉ dests (callsAt (build calls) j) := (countTo_eq_none _ _).mp htj
      exact ⟨hci.trans (addEdgeTo_of_not_mem _ _ hmi), hcj.trans (addEdgeTo_of_not_mem _ _ hmj)⟩

theorem no_duplicate_edges_witness :
    Distinct [("555-111-2222", "555-333-4444")] ∧ "555-333-4444" ≠ "555-111-2222" ∧
    ((∀ n ∈ build [("555-111-2222", "555-333-4444")], (dests n.calls).Nodup) ∧
    (∀ n ∈ addNodesToLL (build [("555-111-2222", "555-333-4444")])
      "555-333-4444" "555-111-2222", (dests n.calls).Nodup) ∧
    ∃ i j, posOf (addNodesToLL (build [("555-111-2222", "555-333-4444")])
        "555-333-4444" "555-111-2222") "555-333-4444" = some i ∧
      posOf (addNodesToLL (build [("555-111-2222", "555-333-4444")])
        "555-333-4444" "555-111-2222") "555-111-2222" = some j ∧
      (0 < pairCount [("555-111-2222", "555-333-4444")] "555-333-4444" "555-111-2222" →
        j ∈ dests (callsAt (build [("555-111-2222", "555-333-4444")]) i) ∧
        i ∈ dests (callsAt (build [("555-111-2222", "555-333-4444")]) j) ∧
        callsAt (addNodesToLL (build [("555-111-2222", "555-333-4444")])
          "555-333-4444" "555-111-2222") i =
          bumped (callsAt (build [("555-111-2222", "555-333-4444")]) i) j ∧
        callsAt (addNodesToLL (build [("555-111-2222", "555-333-4444")])
          "555-333-4444" "555-111-2222") j =
          bumped (callsAt (build [("555-111-2222", "555-333-4444")]) j) i ∧
        (callsAt (addNodesToLL (build [("555-111-2222", "555-333-4444")])
          "555-333-4444" "555-111-2222") i).length =
          (callsAt (build [("555-111-2222", "555-333-4444")]) i).length ∧
        (callsAt (addNodesToLL (build [("555-111-2222", "555-333-4444")])
          "555-333-4444" "555-111-2222") j).length =
          (callsAt (build [("555-111-2222", "555-333-4444")]) j).length) ∧
      (pairCount [("555-111-2222", "555-333-4444")] "555-333-4444" "555-111-2222" = 0 →
        callsAt (addNodesToLL (build [("555-111-2222", "555-333-4444")])
          "555-333-4444" "555-111-2222") i =
          callsAt (build [("555-111-2222", "555-333-4444")]) i ++ [⟨j, 1⟩] ∧
        callsAt (addNodesToLL (build [("555-111-2222", "555-333-4444")])
          "555-333-4444" "555-111-2222") j =
          callsAt (build [("555-111-2222", "555-333-4444")]) j ++ [⟨i, 1⟩])) :=
  ⟨by decide, by decide,
    no_duplicate_edges [("555-111-2222", "555-333-4444")] (by decide)
      "555-333-4444" "555-111-2222" (by decide)⟩

/-! ## Call counts -/

theorem edge_count (calls : List (String × String)) (hd : Distinct calls) (A B : String)
    (i j : Nat) (hi : posOf (build calls) A = some i) (hj : posOf (build calls) B = some j) :
    countTo j (callsAt (build calls) i) = countAfter (pairCount calls A B) ∧
    countTo i (callsAt (build calls) j) = countAfter (pairCount calls A B) := by
  refine ⟨countTo_callsAt calls _ (Inv_build calls hd) A B i j hi hj, ?_⟩
  rw [pairCount_comm]
  exact countTo_callsAt calls _ (Inv_build calls hd) B A j i hj hi

theorem occurs_of_pairCount_pos (calls : List (String × String)) (A B : String)
    (h : 0 < pairCount calls A B) : Occurs calls A ∧ Occurs calls B := by
  constructor
  · by_contra hc
    have := pairCount_of_not_occurs calls A B hc
    omega
  · by_contra hc
    have := pairCount_of_not_occurs calls B A hc
    rw [pairCount_comm] at this
    omega

/-- Claim C2 (amended): after `addNodesToLL` has been called, from the empty
graph, on a sequence of pairs of different numbers, for two numbers `A` and `B`
(in particular two different ones) whose pair was inserted at most `INT_MAX` =
2147483647 times (in either order), the nodes of `A` and `B` hold entries to
each other whose `totalCalls` is the number of insertions of the pair, and
neither holds an entry to the other when that number is 0. -/
theorem call_counts_exact (calls : List (String × String)) (hd : Distinct calls)
    (A B : String) (hmax : pairCount calls A B ≤ 2147483647) :
    CountsExact calls A B := by
  constructor
  · intro hzero i j hi hj
    obtain ⟨h1, h2⟩ := edge_count calls hd A B i j hi hj
    rw [hzero] at h1 h2
    exact ⟨(countTo_eq_none _ _).mp h1, (countTo_eq_none _ _).mp h2⟩
  · intro hpos
    obtain ⟨hA, hB⟩ := occurs_of_pairCount_pos calls A B hpos
    obtain ⟨i, hi⟩ := posOf_of_mem _ _ ((mem_numbers_build calls A).mpr hA)
    obtain ⟨j, hj⟩ := posOf_of_mem _ _ ((mem_numbers_build calls B).mpr hB)
    obtain ⟨h1, h2⟩ := edge_count calls hd A B i j hi hj
    have hc : countAfter (pairCount calls A B) = some (pairCount calls A B : Int) := by
      unfold countAfter
      rw [if_neg (by omega), wrapInt_of_le _ hmax]
    rw [hc] at h1 h2
    exact ⟨i, j, hi, hj, mem_of_countTo _ _ _ h1, mem_of_countTo _ _ _ h2⟩

theorem call_counts_exact_witness :
    Distinct [("555-111-2222", "555-333-4444"), ("555-333-4444", "555-111-2222")] ∧
    pairCount [("555-111-2222", "555-333-4444"), ("555-333-4444", "555-111-2222")]
      "555-111-2222" "555-333-4444" ≤ 2147483647 ∧
    CountsExact [("555-111-2222", "555-333-4444"), ("555-333-4444", "555-111-2222")]
      "555-111-2222" "555-333-4444" :=
  ⟨by decide, by decide,
    call_counts_exact [("555-111-2222", "555-333-4444"), ("555-333-4444", "555-111-2222")]
      (by decide) "555-111-2222" "555-333-4444" (by decide)⟩

theorem pairCount_replicate (n : Nat) (a b : String) :
    pairCount (List.replicate n (a, b)) a b = n := by
  unfold pairCount
  rw [List.countP_replicate]
  simp

theorem distinct_replicate (n : Nat) (a b : String) (hab : a ≠ b) :
    Distinct (List.replicate n (a, b)) := by
  intro p hp
  rw [List.eq_of_mem_replicate hp]
  exact hab

theorem entry_replicate (n : Nat) (a b : String) (hab : a ≠ b) (hn : 0 < n) :
    ∃ i j, posOf (build (List.replicate n (a, b))) a = some i ∧
      posOf (build (List.replicate n (a, b))) b = some j ∧
      (⟨j, wrapInt n⟩ : edges) ∈ callsAt (build (List.replicate n (a, b))) i := by
  have hd := distinct_replicate n a b hab
  have hpos : 0 < pairCount (List.replicate n (a, b)) a b := by
    rw [pairCount_replicate]; exact hn
  obtain ⟨hA, hB⟩ := occurs_of_pairCount_pos _ a b hpos
  obtain ⟨i, hi⟩ := posOf_of_mem _ _ ((mem_numbers_build _ a).mpr hA)
  obtain ⟨j, hj⟩ := posOf_of_mem _ _ ((mem_numbers_build _ b).mpr hB)
  have h1 := (edge_count _ hd a b i j hi hj).1
  rw [pairCount_replicate] at h1
  unfold countAfter at h1
  rw [if_neg (by omega)] at h1
  exact ⟨i, j, hi, hj, mem_of_countTo _ _ _ h1⟩

theorem not_countsExact_replicate (n : Nat) (a b : String) (hab : a ≠ b) (hn : 0 < n)
    (hw : wrapInt n ≠ n) : ¬ CountsExact (List.replicate n (a, b)) a b := by
  rintro ⟨_, h⟩
  rw [pairCount_replicate] at h
  obtain ⟨i, j, hi, hj, hmem, _⟩ := h hn
  have hd := distinct_replicate n a b hab
  have h1 := countTo_of_mem _ _ hmem (nodup_dests_callsAt _ _ (Inv_build _ hd) i)
  rw [(edge_count _ hd a b i j hi hj).1, pairCount_replicate] at h1
  unfold countAfter at h1
  rw [if_neg (by omega)] at h1
  exact hw (Option.some.inj h1)

/-- Claim C2 fails as stated: after 2147483648 insertions of one pair of
different numbers the counter of the entry has left the range of `int` (the
entry holds -2147483648 under wrap-around), and the nodes do not hold entries
whose `totalCalls` is the number of insertions. -/
theorem call_counts_overflow :
    Distinct (List.replicate 2147483648 ("555-111-2222", "555-333-4444")) ∧
    "555-111-2222" ≠ "555-333-4444" ∧
    (∃ i j,
      posOf (build (List.replicate 2147483648 ("555-111-2222", "555-333-4444")))
        "555-111-2222" = some i ∧
      posOf (build (List.replicate 2147483648 ("555-111-2222", "555-333-4444")))
        "555-333-4444" = some j ∧
      (⟨j, -2147483648⟩ : edges) ∈
        callsAt (build (List.replicate 2147483648 ("555-111-2222", "555-333-4444"))) i) ∧
    ¬ CountsExact (List.replicate 2147483648 ("555-111-2222", "555-333-4444"))
      "555-111-2222" "555-333-4444" :=
  ⟨distinct_replicate _ _ _ (by decide), by decide,
    entry_replicate 2147483648 _ _ (by decide) (by decide),
    not_countsExact_replicate 2147483648 _ _ (by decide) (by decide) (by decide)⟩

/-! ## Termination of the search -/

theorem visitChildren_cons (A : Nat) (c : edges) (cs : List edges) (g : Graph)
    (q : List Nat) :
    visitChildren A (c :: cs) g q =
      match g[c.dest]?, g[A]? with
      | some n, some a =>
        if n.queued = 0 then
          visitChildren A cs (g.set c.dest { n with queued := 1, level := a.level + 1 })
            (q ++ [c.dest])
        else visitChildren A cs g q
      | _, _ => visitChildren A cs g q := by
  rw [← enqueue_eq]
  rfl

theorem unqueued_set (g : Graph) (i : Nat) (n m : phoneNode) (h : g[i]? = some n)
    (h0 : n.queued = 0) (h1 : m.queued ≠ 0) : unqueued (g.set i m) + 1 = unqueued g := by
  induction g generalizing i with
  | nil => simp at h
  | cons a r ih =>
    cases i with
    | zero =>
      simp only [List.getElem?_cons_zero, Option.some.injEq] at h
      subst h
      simp [unqueued, List.countP_cons, h0, h1]
    | succ i =>
      simp only [List.getElem?_cons_succ] at h
      have := ih i h
      simp only [unqueued, List.set_cons_succ, List.countP_cons] at this ⊢
      omega

theorem visitChildren_measure (A : Nat) (cs : List edges) (g : Graph) (q : List Nat) :
    unqueued (visitChildren A cs g q).1 + (visitChildren A cs g q).2.length =
      unqueued g + q.length := by
  induction cs generalizing g q with
  | nil => rfl
  | cons c cs ih =>
    rw [visitChildren_cons]
    split
    · rename_i n a hn ha
      split_ifs with h0
      · rw [ih]
        have := unqueued_set g c.dest n { n with queued := 1, level := a.level + 1 } hn h0
          (by simp)
        simp only [List.length_append, List.length_singleton]
        omega
      · exact ih g q
    · exact ih g q

theorem visitChildren_length (A : Nat) (cs : List edges) (g : Graph) (q : List Nat) :
    (visitChildren A cs g q).1.length = g.length := by
  induction cs generalizing g q with
  | nil => rfl
  | cons c cs ih =>
    rw [visitChildren_cons]
    split
    · split_ifs
      · rw [ih, List.length_set]
      · exact ih g q
    · exact ih g q

theorem visitChildren_queue_valid (A : Nat) (cs : List edges) (g : Graph) (q : List Nat)
    (hq : ∀ v ∈ q, v < g.length) : ∀ v ∈ (visitChildren A cs g q).2, v < g.length := by
  induction cs generalizing g q with
  | nil => exact hq
  | cons c cs ih =>
    rw [visitChildren_cons]
    split
    · rename_i n a hn ha
      split_ifs
      · have := ih (g.set c.dest { n with queued := 1, level := a.level + 1 })
          (q ++ [c.dest]) (by
            intro v hv
            rw [List.length_set]
            rcases List.mem_append.mp hv with hv | hv
            · exact hq v hv
            · rw [List.mem_singleton.mp hv]
              exact (List.getElem?_eq_some.mp hn).1)
        rwa [List.length_set] at this
      · exact ih g q hq
    · exact ih g q hq

theorem bfsLoop_total (target : Nat) (fuel : Nat) (g : Graph) (q : List Nat)
    (hq : ∀ v ∈ q, v < g.length) (hfuel : unqueued g + q.length < fuel) :
    ∃ r, bfsLoop target fuel g q = some r := by
  induction fuel generalizing g q with
  | zero => omega
  | succ fuel ih =>
    cases q with
    | nil => exact ⟨_, rfl⟩
    | cons A q1 =>
      have hA : A < g.length := hq A (List.mem_cons_self _ _)
      simp only [bfsLoop, dequeue, List.getElem?_eq_getElem hA]
      split_ifs
      · exact ⟨_, rfl⟩
      · apply ih
        · rw [visitChildren_length]
          exact visitChildren_queue_valid _ _ _ _
            (fun v hv => hq v (List.mem_cons_of_mem _ hv))
        · rw [visitChildren_measure]
          simp only [List.length_cons] at hfuel
          omega

theorem unqueued_resetQueued (g : Graph) : unqueued (resetQueued g) = g.length := by
  induction g with
  | nil => rfl
  | cons a r ih =>
    simp only [unqueued, resetQueued, List.map_cons, List.countP_cons, List.length_cons] at ih ⊢
    rw [ih]
    simp

theorem length_resetQueued (g : Graph) : (resetQueued g).length = g.length := by
  simp [resetQueued]

theorem BFS_total (g : Graph) (start target : Nat) (hs : start < g.length) :
    ∃ r, BFS g start target = some r := by
  have hs2 : start < (resetQueued g).length := by rwa [length_resetQueued]
  have hget : (resetQueued g)[start]? = some (resetQueued g)[start] :=
    List.getElem?_eq_getElem hs2
  simp only [BFS, hget, enqueue]
  apply bfsLoop_total
  · intro v hv
    rw [List.mem_singleton.mp hv, List.length_set]
    exact hs2
  · have := unqueued_set (resetQueued g) start _
      { (resetQueued g)[start] with queued := 1, level := 0 } hget
      (by simp [resetQueued]) (by simp)
    rw [unqueued_resetQueued] at this
    dsimp only at this
    simp only [List.length_singleton]
    omega

/-! ## Marking one node -/

theorem queuedAt_set (g : Graph) (c : Nat) (n m : phoneNode) (hn : g[c]? = some n)
    (hm : m.queued ≠ 0) (v : Nat) :
    queuedAt (g.set c m) v ↔ queuedAt g v ∨ v = c := by
  have hc : c < g.length := (List.getElem?_eq_some.mp hn).1
  unfold queuedAt
  by_cases hv : v = c
  · subst hv
    simp only [List.getElem?_set_self hc, or_true, iff_true]
    exact ⟨m, rfl, hm⟩
  · rw [List.getElem?_set_ne (fun e => hv e.symm)]
    simp [hv]

theorem levelAt_set_self (g : Graph) (c : Nat) (m : phoneNode) (hc : c < g.length) :
    levelAt (g.set c m) c = m.level := by
  simp [levelAt, List.getElem?_set_self hc]

theorem levelAt_set_ne (g : Graph) (c v : Nat) (m : phoneNode) (hv : v ≠ c) :
    levelAt (g.set c m) v = levelAt g v := by
  simp [levelAt, List.getElem?_set_ne (fun e => hv e.symm)]

theorem callsAt_set (g : Graph) (c k : Nat) (n m : phoneNode) (hn : g[c]? = some n)
    (hm : m.calls = n.calls) : callsAt (g.set c m) k = callsAt g k := by
  have hc : c < g.length := (List.getElem?_eq_some.mp hn).1
  unfold callsAt
  by_cases hk : k = c
  · subst hk
    simp [List.getElem?_set_self hc, hn, hm]
  · rw [List.getElem?_set_ne (fun e => hk e.symm)]

theorem not_queuedAt (g : Graph) (c : Nat) (n : phoneNode) (hn : g[c]? = some n)
    (h0 : n.queued = 0) : ¬ queuedAt g c := by
  rintro ⟨m, hm, hq⟩
  rw [hn] at hm
  cases hm
  exact hq h0

theorem levelAt_of_getElem? (g : Graph) (v : Nat) (n : phoneNode) (h : g[v]? = some n) :
    levelAt g v = n.level := by
  simp [levelAt, h]

theorem Mid.visit {g0 : Graph} {s t A L : Nat} {g : Graph} {q : List Nat}
    (h : Mid g0 s t A L g q) (c : Nat) (n : phoneNode) (hn : g[c]? = some n)
    (h0 : n.queued = 0) (hadj : Adj g0 A c) :
    Mid g0 s t A L (g.set c { n with queued := 1, level := (L : Int) + 1 }) (q ++ [c]) := by
  have hc : c < g.length := (List.getElem?_eq_some.mp hn).1
  have hnq : ¬ queuedAt g c := not_queuedAt g c n hn h0
  have hq : ∀ v, queuedAt (g.set c { n with queued := 1, level := (L : Int) + 1 }) v ↔
      queuedAt g v ∨ v = c := queuedAt_set g c n _ hn (by simp)
  have hlc : levelAt (g.set c { n with queued := 1, level := (L : Int) + 1 }) c = L + 1 :=
    levelAt_set_self g c _ hc
  have hlv : ∀ v, queuedAt g v →
      levelAt (g.set c { n with queued := 1, level := (L : Int) + 1 }) v = levelAt g v := by
    intro v hv
    apply levelAt_set_ne
    rintro rfl
    exact hnq hv
  refine ⟨?_, ?_, ?_, ?_, ?_, ?_, ?_, ?_⟩
  · intro k
    have e : callsAt (g.set c { n with queued := 1, level := (L : Int) + 1 }) k =
        callsAt g k := callsAt_set g c k n _ hn rfl
    rw [e]
    exact h.calls_eq k
  · rw [List.length_set]; exact h.len_eq
  · exact ⟨(hq s).mpr (Or.inl h.start.1), by rw [hlv s h.start.1]; exact h.start.2⟩
  · intro v hv
    rcases (hq v).mp hv with hv | rfl
    · rw [hlv v hv]; exact h.sound v hv
    · obtain ⟨k, hk, hw⟩ := h.sound A h.cur.1
      have hkL : k = L := by
        have := h.cur.2
        rw [hk] at this
        exact_mod_cast this
      subst hkL
      exact ⟨k + 1, by rw [hlc]; push_cast; rfl, Walk.step hw hadj⟩
  · intro v hv
    rcases List.mem_append.mp hv with hv | hv
    · obtain ⟨h1, h2, h3⟩ := h.window v hv
      rw [hlv v h1]
      exact ⟨(hq v).mpr (Or.inl h1), h2, h3⟩
    · rw [List.mem_singleton.mp hv, hlc]
      exact ⟨(hq c).mpr (Or.inr rfl), by omega, le_refl _⟩
  · rw [List.pairwise_append]
    refine ⟨?_, List.pairwise_singleton _ _, ?_⟩
    · refine h.sorted.imp_of_mem ?_
      intro u v hu hv huv
      rw [hlv u (h.window u hu).1, hlv v (h.window v hv).1]
      exact huv
    · intro u hu v hv
      rw [List.mem_singleton.mp hv, hlc, hlv u (h.window u hu).1]
      exact (h.window u hu).2.2
  · exact ⟨(hq A).mpr (Or.inl h.cur.1), by rw [hlv A h.cur.1]; exact h.cur.2⟩
  · intro v hv hvq hvA
    have hvc : v ≠ c := fun e => hvq (List.mem_append_right _ (List.mem_singleton.mpr e))
    have hvg : queuedAt g v := by
      rcases (hq v).mp hv with hv | hv
      · exact hv
      · exact absurd hv hvc
    obtain ⟨h1, h2, h3⟩ := h.closed v hvg (fun hm => hvq (List.mem_append_left _ hm)) hvA
    refine ⟨h1, by rw [hlv v hvg]; exact h2, ?_⟩
    intro w hw
    obtain ⟨h4, h5⟩ := h3 w hw
    rw [hlv v hvg, hlv w h4]
    exact ⟨(hq w).mpr (Or.inl h4), h5⟩

theorem Mid.level_le {g0 : Graph} {s t A L : Nat} {g : Graph} {q : List Nat}
    (h : Mid g0 s t A L g q) (v : Nat) (hv : queuedAt g v) : levelAt g v ≤ L + 1 := by
  by_cases hq : v ∈ q
  · exact (h.window v hq).2.2
  · by_cases hA : v = A
    · rw [hA, h.cur.2]; omega
    · have := (h.closed v hv hq hA).2.1
      omega

theorem visitChildren_mid (g0 : Graph) (s t A L : Nat)
    (hwf : ∀ v w, Adj g0 v w → w < g0.length) (cs ds : List edges) (g : Graph)
    (q : List Nat) (h : Mid g0 s t A L g q) (hcs : callsAt g0 A = ds ++ cs)
    (hds : ∀ e ∈ ds, queuedAt g e.dest ∧ levelAt g e.dest ≤ L + 1) :
    Mid g0 s t A L (visitChildren A cs g q).1 (visitChildren A cs g q).2 ∧
    ∀ e ∈ callsAt g0 A, queuedAt (visitChildren A cs g q).1 e.dest ∧
      levelAt (visitChildren A cs g q).1 e.dest ≤ L + 1 := by
  induction cs generalizing ds g q with
  | nil =>
    rw [List.append_nil] at hcs
    rw [hcs]
    exact ⟨h, hds⟩
  | cons c cs ih =>
    have hcs2 : callsAt g0 A = (ds ++ [c]) ++ cs := by rw [hcs]; simp
    have hadj : Adj g0 A c.dest := ⟨c, by rw [hcs]; simp, rfl⟩
    have hcl : c.dest < g.length := by rw [h.len_eq]; exact hwf A c.dest hadj
    obtain ⟨a, ha, _⟩ := h.cur.1
    have haL : a.level = L := by rw [← levelAt_of_getElem? g A a ha]; exact h.cur.2
    rw [visitChildren_cons]
    simp only [List.getElem?_eq_getElem hcl, ha]
    split_ifs with h0
    · have hmid := h.visit c.dest g[c.dest] (List.getElem?_eq_getElem hcl) h0 hadj
      rw [haL]
      apply ih (ds ++ [c]) _ _ hmid hcs2
      intro e he
      rcases List.mem_append.mp he with he | he
      · obtain ⟨h1, h2⟩ := hds e he
        have hne : e.dest ≠ c.dest := by
          intro e2
          rw [e2] at h1
          exact not_queuedAt g c.dest _ (List.getElem?_eq_getElem hcl) h0 h1
        rw [levelAt_set_ne g c.dest e.dest _ hne]
        exact ⟨(queuedAt_set g c.dest _ _ (List.getElem?_eq_getElem hcl) (by simp) _).mpr
          (Or.inl h1), h2⟩
      · rw [List.mem_singleton.mp he]
        exact ⟨(queuedAt_set g c.dest _ _ (List.getElem?_eq_getElem hcl) (by simp) _).mpr
          (Or.inr rfl), by rw [levelAt_set_self g c.dest _ hcl]⟩
    · have hqc : queuedAt g c.dest := ⟨_, List.getElem?_eq_getElem hcl, h0⟩
      apply ih (ds ++ [c]) g q h hcs2
      intro e he
      rcases List.mem_append.mp he with he | he
      · exact hds e he
      · rw [List.mem_singleton.mp he]
        exact ⟨hqc, h.level_le _ hqc⟩

/-! ## The `while` loop of the search -/

theorem Outer.toMid {g0 : Graph} {s t A : Nat} {g : Graph} {q : List Nat}
    (h : Outer g0 s t g (A :: q)) : ∃ L : Nat, Mid g0 s t A L g q := by
  have hqA := h.queued A (List.mem_cons_self _ _)
  obtain ⟨L, hL, _⟩ := h.sound A hqA
  have hs := List.pairwise_cons.mp h.sorted
  refine ⟨L, h.calls_eq, h.len_eq, h.start, h.sound, ?_, hs.2, ⟨hqA, hL⟩, ?_⟩
  · intro v hv
    refine ⟨h.queued v (List.mem_cons_of_mem _ hv), ?_, ?_⟩
    · rw [← hL]; exact hs.1 v hv
    · rw [← hL]; exact h.window A (by simp) v (List.mem_cons_of_mem _ hv)
  · intro v hv hvq hvA
    obtain ⟨h1, h2, h3⟩ := h.closed v hv (by simp [hvA, hvq])
    exact ⟨h1, by rw [← hL]; exact h2 A (by simp), h3⟩

theorem Mid.toOuter {g0 : Graph} {s t A L : Nat} {g : Graph} {q : List Nat}
    (h : Mid g0 s t A L g q) (hAt : A ≠ t)
    (hdone : ∀ e ∈ callsAt g0 A, queuedAt g e.dest ∧ levelAt g e.dest ≤ L + 1) :
    Outer g0 s t g q := by
  have hhead : ∀ a ∈ q.head?, (L : Int) ≤ levelAt g a := by
    intro a ha
    exact (h.window a (List.mem_of_mem_head? ha)).2.1
  refine ⟨h.calls_eq, h.len_eq, h.start, h.sound, fun v hv => (h.window v hv).1,
    h.sorted, ?_, ?_⟩
  · intro a ha v hv
    have := hhead a ha
    have := (h.window v hv).2.2
    omega
  · intro v hv hvq
    by_cases hvA : v = A
    · subst hvA
      refine ⟨hAt, ?_, ?_⟩
      · intro a ha
        rw [h.cur.2]
        exact hhead a ha
      · rintro w ⟨e, he, rfl⟩
        rw [h.cur.2]
        exact hdone e he
    · obtain ⟨h1, h2, h3⟩ := h.closed v hv hvq hvA
      refine ⟨h1, ?_, h3⟩
      intro a ha
      have := hhead a ha
      omega

theorem Outer.reach_le {g0 : Graph} {s t a : Nat} {g : Graph} {q : List Nat}
    (h : Outer g0 s t g (a :: q)) (v k : Nat) (hw : Walk g0 s v k)
    (hk : (k : Int) ≤ levelAt g a) : queuedAt g v ∧ levelAt g v ≤ k := by
  induction hw with
  | refl => exact ⟨h.start.1, by rw [h.start.2]; rfl⟩
  | @step u w k _ hadj ih =>
    have hk2 : (k : Int) ≤ levelAt g a := by push_cast at hk; omega
    obtain ⟨hu, hlu⟩ := ih hk2
    have hnotin : u ∉ a :: q := by
      intro hm
      have hs := List.pairwise_cons.mp h.sorted
      rcases List.mem_cons.mp hm with rfl | hm
      · push_cast at hk; omega
      · have := hs.1 u hm
        push_cast at hk
        omega
    obtain ⟨hw1, hw2⟩ := (h.closed u hu hnotin).2.2 w hadj
    exact ⟨hw1, by push_cast; omega⟩

theorem Outer.reach_nil {g0 : Graph} {s t : Nat} {g : Graph}
    (h : Outer g0 s t g []) (v k : Nat) (hw : Walk g0 s v k) : queuedAt g v := by
  induction hw with
  | refl => exact h.start.1
  | @step u w k _ hadj ih =>
    exact ((h.closed u ih (List.not_mem_nil _)).2.2 w hadj).1

theorem bfsLoop_spec (g0 : Graph) (s t : Nat)
    (hwf : ∀ v w, Adj g0 v w → w < g0.length) (fuel : Nat) (g : Graph) (q : List Nat)
    (r : Int × Graph) (h : Outer g0 s t g q) (hr : bfsLoop t fuel g q = some r) :
    (r.1 = -1 ∧ ∀ k, ¬ Walk g0 s t k) ∨
    (∃ d : Nat, r.1 = (d : Int) - 1 ∧ Walk g0 s t d ∧ ∀ k, Walk g0 s t k → d ≤ k) := by
  induction fuel generalizing g q with
  | zero => simp [bfsLoop] at hr
  | succ fuel ih =>
    cases q with
    | nil =>
      simp only [bfsLoop, dequeue, Option.some.injEq] at hr
      subst hr
      left
      refine ⟨rfl, ?_⟩
      intro k hw
      have hq := h.reach_nil t k hw
      exact (h.closed t hq (List.not_mem_nil _)).1 rfl
    | cons A q1 =>
      obtain ⟨a, ha, haq⟩ := h.queued A (List.mem_cons_self _ _)
      simp only [bfsLoop, dequeue, ha] at hr
      by_cases hAt : A = t
      · rw [if_pos hAt] at hr
        simp only [Option.some.injEq] at hr
        subst hr
        subst hAt
        right
        obtain ⟨d, hd, hw⟩ := h.sound A ⟨a, ha, haq⟩
        rw [levelAt_of_getElem? g A a ha] at hd
        refine ⟨d, by simp [hd], hw, ?_⟩
        intro k hk
        by_contra hlt
        have hle : (k : Int) ≤ levelAt g A := by
          rw [levelAt_of_getElem? g A a ha, hd]
          omega
        have := (h.reach_le A k hk hle).2
        rw [levelAt_of_getElem? g A a ha, hd] at this
        omega
      · rw [if_neg hAt] at hr
        obtain ⟨L, hmid⟩ := h.toMid
        have hcs : callsAt g0 A = [] ++ a.calls := by
          rw [← h.calls_eq A, callsAt_of_getElem? g A a ha]
          rfl
        obtain ⟨hmid2, hdone⟩ := visitChildren_mid g0 s t A L hwf a.calls [] g q1 hmid hcs
          (fun e he => absurd he (List.not_mem_nil _))
        exact ih _ _ (hmid2.toOuter hAt hdone) hr

theorem callsAt_resetQueued (g : Graph) (k : Nat) :
    callsAt (resetQueued g) k = callsAt g k := by
  unfold callsAt resetQueued
  rw [List.getElem?_map]
  cases g[k]? <;> rfl

theorem not_queuedAt_resetQueued (g : Graph) (v : Nat) : ¬ queuedAt (resetQueued g) v := by
  rintro ⟨n, hn, hq⟩
  unfold resetQueued at hn
  rw [List.getElem?_map] at hn
  cases hg : g[v]? with
  | none => rw [hg] at hn; cases hn
  | some m =>
    rw [hg] at hn
    simp only [Option.map_some', Option.some.injEq] at hn
    subst hn
    exact hq rfl

theorem Outer.init (g : Graph) (s t : Nat) (n : phoneNode)
    (hn : (resetQueued g)[s]? = some n) :
    Outer g s t ((resetQueued g).set s { n with queued := 1, level := 0 }) [s] := by
  have hs : s < (resetQueued g).length := (List.getElem?_eq_some.mp hn).1
  have hq : ∀ v, queuedAt ((resetQueued g).set s { n with queued := 1, level := 0 }) v ↔
      v = s := by
    intro v
    rw [queuedAt_set _ s n _ hn (by simp)]
    simp [not_queuedAt_resetQueued]
  have hl : levelAt ((resetQueued g).set s { n with queued := 1, level := 0 }) s = 0 :=
    levelAt_set_self _ s _ hs
  refine ⟨?_, ?_, ⟨(hq s).mpr rfl, hl⟩, ?_, ?_, List.pairwise_singleton _ _, ?_, ?_⟩
  · intro k
    have e : callsAt ((resetQueued g).set s { n with queued := 1, level := 0 }) k =
        callsAt (resetQueued g) k := callsAt_set _ s k n _ hn rfl
    rw [e, callsAt_resetQueued]
  · rw [List.length_set, length_resetQueued]
  · intro v hv
    rw [(hq v).mp hv]
    exact ⟨0, by rw [hl]; rfl, Walk.refl⟩
  · intro v hv
    rw [List.mem_singleton.mp hv]
    exact (hq s).mpr rfl
  · intro a ha v hv
    simp only [List.head?_cons, Option.mem_def, Option.some.injEq] at ha
    rw [List.mem_singleton.mp hv, ← ha]
    omega
  · intro v hv hvq
    exact absurd (List.mem_singleton.mpr ((hq v).mp hv)) hvq

theorem adj_lt_of_wellFormed (g : Graph) (hwf : WellFormed g) (v w : Nat) (h : Adj g v w) :
    w < g.length := by
  obtain ⟨e, he, rfl⟩ := h
  obtain ⟨n, hn, hmem⟩ := getElem?_of_mem_callsAt g v e he
  exact hwf n (List.mem_iff_getElem?.mpr ⟨v, hn⟩) e hmem

theorem BFS_spec (g : Graph) (s t : Nat) (hwf : WellFormed g) (hs : s < g.length) :
    ∃ r, BFS g s t = some r ∧
      ((r.1 = -1 ∧ ∀ k, ¬ Walk g s t k) ∨
       (∃ d : Nat, r.1 = (d : Int) - 1 ∧ Walk g s t d ∧ ∀ k, Walk g s t k → d ≤ k)) := by
  obtain ⟨r, hr⟩ := BFS_total g s t hs
  refine ⟨r, hr, ?_⟩
  have hs2 : s < (resetQueued g).length := by rwa [length_resetQueued]
  have hget : (resetQueued g)[s]? = some (resetQueued g)[s] := List.getElem?_eq_getElem hs2
  simp only [BFS, hget, enqueue] at hr
  exact bfsLoop_spec g s t (adj_lt_of_wellFormed g hwf) _ _ _ r (Outer.init g s t _ hget) hr

/-! ## The shortest connection -/

theorem walk_zero (g : Graph) (s t : Nat) (h : Walk g s t 0) : s = t := by
  cases h
  rfl

theorem walk_one (g : Graph) (s t : Nat) (h : Walk g s t 1) : Adj g s t := by
  cases h with
  | step hw hadj =>
    cases walk_zero g _ _ hw
    exact hadj

/-- Claim C1: in a graph whose edge targets are all nodes of the node list,
for nodes `start` and `target` (in particular two different ones) such that
`target` is reachable from `start` along adjacency entries, `BFS(start, target)`
returns `d - 1`, where `d` is the minimum number of edges of a path from `start`
to `target`. -/
theorem BFS_shortest (g : Graph) (start target d : Nat) (hwf : WellFormed g)
    (hstart : start < g.length) (hwalk : Walk g start target d)
    (hmin : ∀ k, Walk g start target k → d ≤ k) :
    ∃ g1, BFS g start target = some ((d : Int) - 1, g1) := by
  obtain ⟨r, hr, hspec⟩ := BFS_spec g start target hwf hstart
  rcases hspec with ⟨_, hno⟩ | ⟨d2, hd2, hw2, hmin2⟩
  · exact absurd hwalk (hno d)
  · have e : d2 = d := Nat.le_antisymm (hmin2 d hwalk) (hmin d2 hw2)
    subst e
    refine ⟨r.2, ?_⟩
    rw [hr, ← hd2]

theorem example_walk :
    Walk (build [("555-111-2222", "555-333-4444"), ("555-333-4444", "555-555-6666")])
      0 2 2 :=
  Walk.step (Walk.step Walk.refl ⟨⟨1, 1⟩, by decide, rfl⟩) ⟨⟨2, 1⟩, by decide, rfl⟩

theorem example_walk_min (k : Nat)
    (hk : Walk (build [("555-111-2222", "555-333-4444"),
      ("555-333-4444", "555-555-6666")]) 0 2 k) : 2 ≤ k := by
  match k, hk with
  | 0, hk => exact absurd (walk_zero _ _ _ hk) (by decide)
  | 1, hk =>
    obtain ⟨e, he, hd⟩ := walk_one _ _ _ hk
    have he2 : e ∈ [(⟨1, 1⟩ : edges)] := he
    rw [List.mem_singleton.mp he2] at hd
    exact absurd hd (by decide)
  | k + 2, _ => exact Nat.le_add_left 2 k

theorem BFS_shortest_witness :
    WellFormed (build [("555-111-2222", "555-333-4444"), ("555-333-4444", "555-555-6666")]) ∧
    0 < (build [("555-111-2222", "555-333-4444"),
      ("555-333-4444", "555-555-6666")]).length ∧
    Walk (build [("555-111-2222", "555-333-4444"), ("555-333-4444", "555-555-6666")])
      0 2 2 ∧
    (∀ k, Walk (build [("555-111-2222", "555-333-4444"),
      ("555-333-4444", "555-555-6666")]) 0 2 k → 2 ≤ k) ∧
    ∃ g1, BFS (build [("555-111-2222", "555-333-4444"), ("555-333-4444", "555-555-6666")])
      0 2 = some (((2 : Nat) : Int) - 1, g1) :=
  ⟨by decide, by decide, example_walk, example_walk_min,
    BFS_shortest _ 0 2 2 (by decide) (by decide) example_walk example_walk_min⟩

/-! ## The no-path value -/

/-- Claim C4: in a graph whose edge targets are all nodes of the node list, for
every node `start` and every `target`, `BFS(start, target)` returns -1 exactly
when `start` and `target` are the same node or `target` is not reachable from
`start` along adjacency entries; in every other case the returned value is not
negative. -/
theorem BFS_sentinel (g : Graph) (start target : Nat) (hwf : WellFormed g)
    (hstart : start < g.length) :
    ∃ r g1, BFS g start target = some (r, g1) ∧
      (r = -1 ↔ (start = target ∨ ¬ ∃ k, Walk g start target k)) ∧
      (r ≠ -1 → 0 ≤ r) := by
  obtain ⟨r, hr, hspec⟩ := BFS_spec g start target hwf hstart
  refine ⟨r.1, r.2, hr, ?_⟩
  rcases hspec with ⟨h1, hno⟩ | ⟨d, hd, hw, hmin⟩
  · refine ⟨⟨fun _ => Or.inr ?_, fun _ => h1⟩, fun h => absurd h1 h⟩
    rintro ⟨k, hk⟩
    exact hno k hk
  · cases d with
    | zero =>
      have e := walk_zero g _ _ hw
      have h1 : r.1 = -1 := by rw [hd]; rfl
      exact ⟨⟨fun _ => Or.inl e, fun _ => h1⟩, fun h => absurd h1 h⟩
    | succ d =>
      have hpos : 0 ≤ r.1 := by rw [hd]; push_cast; omega
      refine ⟨⟨fun h => ?_, ?_⟩, fun _ => hpos⟩
      · omega
      · rintro (h | h)
        · subst h
          have := hmin 0 Walk.refl
          omega
        · exact absurd ⟨_, hw⟩ h

theorem BFS_sentinel_witness :
    WellFormed (build [("555-111-2222", "555-333-4444"), ("555-555-6666", "555-777-8888")]) ∧
    0 < (build [("555-111-2222", "555-333-4444"),
      ("555-555-6666", "555-777-8888")]).length ∧
    ∃ r g1, BFS (build [("555-111-2222", "555-333-4444"),
        ("555-555-6666", "555-777-8888")]) 0 2 = some (r, g1) ∧
      (r = -1 ↔ (0 = 2 ∨ ¬ ∃ k, Walk (build [("555-111-2222", "555-333-4444"),
        ("555-555-6666", "555-777-8888")]) 0 2 k)) ∧
      (r ≠ -1 → 0 ≤ r) :=
  ⟨by decide, by decide, BFS_sentinel _ 0 2 (by decide) (by decide)⟩

/-! ## Queries -/

theorem checkIfInGraph_not_found (g : Graph) (p1 p2 : String)
    (h : posOf g p1 = none ∨ posOf g p2 = none) :
    checkIfInGraph g p1 p2 =
      some { ret := 1, out := [], err := ["Phone Number Not Found.\n"], graph := g } := by
  unfold checkIfInGraph
  rw [findNodes_eq]
  unfold posOf at h
  rcases h with h | h
  · rw [h]
  · rw [h]
    cases lastPos p1 g 0 none <;> rfl

theorem checkIfInGraph_found (g : Graph) (p1 p2 : String) (i j : Nat)
    (hi : posOf g p1 = some i) (hj : posOf g p2 = some j) :
    checkIfInGraph g p1 p2 =
      if linkedCallsOf j (callsAt g i) ≠ 0 then
        some { ret := 0, out := [talkedLine (linkedCallsOf j (callsAt g i))], err := [],
               graph := g }
      else
        match BFS g i j with
        | none => none
        | some (search, g1) =>
          if search = -1 then
            some { ret := 0, out := ["Not connected\n"], err := [], graph := g1 }
          else
            some { ret := 0, out := [connectedLine search], err := [], graph := g1 } := by
  unfold checkIfInGraph
  rw [findNodes_eq]
  unfold posOf at hi hj
  rw [hi, hj]

theorem wellFormed_of_inv (calls : List (String × String)) (g : Graph) (h : Inv calls g) :
    WellFormed g := by
  intro n hn e he
  obtain ⟨k, hk⟩ := List.mem_iff_getElem?.mp hn
  exact h.2.1 k n hk e he

/-- Claim C3: in a graph built from the empty graph by insertions of pairs of
different numbers, for two numbers `A` and `B` whose pair was inserted at most
`INT_MAX` times and such that the node of `A` holds an entry to the node of
`B` with `totalCalls` `N`, `checkIfInGraph(A, B)` returns 0, prints exactly
the line `Talked N times`, and leaves the whole list as it was (so no node has
its `level` or `queued` changed: `BFS` is not run). -/
theorem direct_edge_query (calls : List (String × String)) (hd : Distinct calls)
    (A B : String) (i j : Nat) (N : Int)
    (hA : posOf (build calls) A = some i) (hB : posOf (build calls) B = some j)
    (hedge : (⟨j, N⟩ : edges) ∈ callsAt (build calls) i)
    (hmax : pairCount calls A B ≤ 2147483647) :
    checkIfInGraph (build calls) A B =
      some { ret := 0, out := [talkedLine N], err := [], graph := build calls } := by
  have hinv := Inv_build calls hd
  have h1 := countTo_of_mem _ _ hedge (nodup_dests_callsAt calls _ hinv i)
  have h2 := (edge_count calls hd A B i j hA hB).1
  have hl : linkedCallsOf j (callsAt (build calls) i) = N := by
    rw [linkedCallsOf_eq]
    simp only at h1
    rw [h1]
    rfl
  have hN : N ≠ 0 := by
    simp only at h1
    rw [h1] at h2
    unfold countAfter at h2
    split_ifs at h2 with h0
    rw [wrapInt_of_le _ hmax] at h2
    rw [Option.some.inj h2]
    exact_mod_cast h0
  rw [checkIfInGraph_found _ A B i j hA hB, hl, if_pos hN]

theorem direct_edge_query_witness :
    Distinct [("555-111-2222", "555-333-4444"), ("555-333-4444", "555-555-6666"),
      ("555-111-2222", "555-333-4444")] ∧
    posOf (build [("555-111-2222", "555-333-4444"), ("555-333-4444", "555-555-6666"),
      ("555-111-2222", "555-333-4444")]) "555-111-2222" = some 0 ∧
    posOf (build [("555-111-2222", "555-333-4444"), ("555-333-4444", "555-555-6666"),
      ("555-111-2222", "555-333-4444")]) "555-333-4444" = some 1 ∧
    (⟨1, 2⟩ : edges) ∈ callsAt (build [("555-111-2222", "555-333-4444"),
      ("555-333-4444", "555-555-6666"), ("555-111-2222", "555-333-4444")]) 0 ∧
    pairCount [("555-111-2222", "555-333-4444"), ("555-333-4444", "555-555-6666"),
      ("555-111-2222", "555-333-4444")] "555-111-2222" "555-333-4444" ≤ 2147483647 ∧
    checkIfInGraph (build [("555-111-2222", "555-333-4444"),
        ("555-333-4444", "555-555-6666"), ("555-111-2222", "555-333-4444")])
        "555-111-2222" "555-333-4444" =
      some { ret := 0, out := [talkedLine 2], err := [],
             graph := build [("555-111-2222", "555-333-4444"),
               ("555-333-4444", "555-555-6666"), ("555-111-2222", "555-333-4444")] } :=
  ⟨by decide, by decide, by decide, by decide, by decide,
    direct_edge_query _ (by decide) "555-111-2222" "555-333-4444" 0 1 2
      (by decide) (by decide) (by decide) (by decide)⟩

/-- Claim C9: in a graph built from the empty graph by insertions of pairs of
different numbers, for numbers `A` and `C` with `A ≠ C` and a node `j` (the
node of any third number `B`) such that the node of `A` has an entry to `j`,
the node `j` has an entry to the node of `C`, and the node of `A` has no entry
to the node of `C`, `BFS(A, C)` returns 1 and `checkIfInGraph(A, C)` returns 0
and prints exactly `Connected through 1 numbers`. -/
theorem one_intermediate (calls : List (String × String)) (hd : Distinct calls)
    (A C : String) (i j k : Nat) (hAC : A ≠ C)
    (hA : posOf (build calls) A = some i) (hC : posOf (build calls) C = some k)
    (hAB : j ∈ dests (callsAt (build calls) i))
    (hBC : k ∈ dests (callsAt (build calls) j))
    (hnAC : k ∉ dests (callsAt (build calls) i)) :
    (∃ g1, BFS (build calls) i k = some (1, g1)) ∧
    ∃ g1, checkIfInGraph (build calls) A C =
      some { ret := 0, out := ["Connected through 1 numbers\n"], err := [], graph := g1 } := by
  have hinv := Inv_build calls hd
  have hik : i ≠ k := by
    rintro rfl
    obtain ⟨n, hn, hnA⟩ := posOf_some _ _ _ hA
    obtain ⟨m, hm, hmC⟩ := posOf_some _ _ _ hC
    rw [hn] at hm
    cases hm
    exact hAC (hnA.symm.trans hmC)
  have hadj1 : Adj (build calls) i j := by
    obtain ⟨e, he, hej⟩ := List.mem_map.mp hAB
    exact ⟨e, he, hej⟩
  have hadj2 : Adj (build calls) j k := by
    obtain ⟨e, he, hek⟩ := List.mem_map.mp hBC
    exact ⟨e, he, hek⟩
  have hw : Walk (build calls) i k 2 := Walk.step (Walk.step Walk.refl hadj1) hadj2
  have hmin : ∀ m, Walk (build calls) i k m → 2 ≤ m := by
    intro m hm
    match m, hm with
    | 0, hm => exact absurd (walk_zero _ _ _ hm) hik
    | 1, hm =>
      obtain ⟨e, he, hek⟩ := walk_one _ _ _ hm
      exact absurd (List.mem_map.mpr ⟨e, he, hek⟩) hnAC
    | m + 2, _ => exact Nat.le_add_left 2 m
  obtain ⟨g1, hg1⟩ : ∃ g1, BFS (build calls) i k = some (1, g1) := by
    obtain ⟨r, hr, hspec⟩ := BFS_spec (build calls) i k (wellFormed_of_inv calls _ hinv)
      (posOf_lt _ _ _ hA)
    rcases hspec with ⟨_, hno⟩ | ⟨d, hd, hwd, hmind⟩
    · exact absurd hw (hno 2)
    · have e : d = 2 := Nat.le_antisymm (hmind 2 hw) (hmin d hwd)
      subst e
      have hr1 : r.1 = 1 := by rw [hd]; rfl
      exact ⟨r.2, by rw [hr, ← hr1]⟩
  refine ⟨⟨g1, hg1⟩, g1, ?_⟩
  have hl : linkedCallsOf k (callsAt (build calls) i) = 0 := by
    rw [linkedCallsOf_eq, (countTo_eq_none _ _).mpr hnAC]
    rfl
  rw [checkIfInGraph_found _ A C i k hA hC, hl, hg1]
  rfl

theorem one_intermediate_witness :
    Distinct [("555-111-2222", "555-333-4444"), ("555-333-4444", "555-555-6666")] ∧
    "555-111-2222" ≠ "555-555-6666" ∧
    posOf (build [("555-111-2222", "555-333-4444"), ("555-333-4444", "555-555-6666")])
      "555-111-2222" = some 0 ∧
    posOf (build [("555-111-2222", "555-333-4444"), ("555-333-4444", "555-555-6666")])
      "555-555-6666" = some 2 ∧
    1 ∈ dests (callsAt (build [("555-111-2222", "555-333-4444"),
      ("555-333-4444", "555-555-6666")]) 0) ∧
    2 ∈ dests (callsAt (build [("555-111-2222", "555-333-4444"),
      ("555-333-4444", "555-555-6666")]) 1) ∧
    2 ∉ dests (callsAt (build [("555-111-2222", "555-333-4444"),
      ("555-333-4444", "555-555-6666")]) 0) ∧
    (∃ g1, BFS (build [("555-111-2222", "555-333-4444"),
      ("555-333-4444", "555-555-6666")]) 0 2 = some (1, g1)) ∧
    ∃ g1, checkIfInGraph (build [("555-111-2222", "555-333-4444"),
        ("555-333-4444", "555-555-6666")]) "555-111-2222" "555-555-6666" =
      some { ret := 0, out := ["Connected through 1 numbers\n"], err := [], graph := g1 } :=
  ⟨by decide, by decide, by decide, by decide, by decide, by decide, by decide,
    one_intermediate _ (by decide) "555-111-2222" "555-555-6666" 0 1 2
      (by decide) (by decide) (by decide) (by decide) (by decide) (by decide)⟩

/-- Claim C10: after any sequence of `addNodesToLL` calls starting from the
empty graph, `checkIfInGraph(p1, p2)` returns 1, prints nothing on `stdout` and
leaves the whole list unchanged if and only if `p1` or `p2` occurs in no
inserted pair; otherwise it returns 0 and prints exactly one of the lines
`Talked N times`, `Connected through N numbers` and `Not connected`. -/
theorem unknown_numbers (calls : List (String × String)) (p1 p2 : String) :
    ((∃ r, checkIfInGraph (build calls) p1 p2 = some r ∧ r.ret = 1 ∧ r.out = [] ∧
        r.graph = build calls) ↔ (¬ Occurs calls p1 ∨ ¬ Occurs calls p2)) ∧
    (Occurs calls p1 → Occurs calls p2 →
      ∃ r, checkIfInGraph (build calls) p1 p2 = some r ∧ r.ret = 0 ∧
        ∃ line, r.out = [line] ∧
          (line = "Not connected\n" ∨ (∃ n, line = talkedLine n) ∨
            ∃ n, line = connectedLine n)) := by
  have hfound : Occurs calls p1 → Occurs calls p2 →
      ∃ r, checkIfInGraph (build calls) p1 p2 = some r ∧ r.ret = 0 ∧
        ∃ line, r.out = [line] ∧
          (line = "Not connected\n" ∨ (∃ n, line = talkedLine n) ∨
            ∃ n, line = connectedLine n) := by
    intro h1 h2
    obtain ⟨i, hi⟩ := posOf_of_mem _ _ ((mem_numbers_build calls p1).mpr h1)
    obtain ⟨j, hj⟩ := posOf_of_mem _ _ ((mem_numbers_build calls p2).mpr h2)
    rw [checkIfInGraph_found _ p1 p2 i j hi hj]
    by_cases hl : linkedCallsOf j (callsAt (build calls) i) ≠ 0
    · rw [if_pos hl]
      exact ⟨_, rfl, rfl, _, rfl, Or.inr (Or.inl ⟨_, rfl⟩)⟩
    · rw [if_neg hl]
      obtain ⟨r, hr⟩ := BFS_total (build calls) i j (posOf_lt _ _ _ hi)
      obtain ⟨search, g1⟩ := r
      rw [hr]
      by_cases hs : search = -1
      · simp only [hs, if_true]
        exact ⟨_, rfl, rfl, _, rfl, Or.inl rfl⟩
      · simp only [hs, if_false]
        exact ⟨_, rfl, rfl, _, rfl, Or.inr (Or.inr ⟨_, rfl⟩)⟩
  refine ⟨⟨?_, ?_⟩, hfound⟩
  · rintro ⟨r, hr, hret, _⟩
    by_contra hc
    rw [not_or, not_not, not_not] at hc
    obtain ⟨r2, hr2, hret2, _⟩ := hfound hc.1 hc.2
    rw [hr] at hr2
    cases hr2
    rw [hret] at hret2
    exact absurd hret2 (by decide)
  · intro h
    refine ⟨_, checkIfInGraph_not_found _ p1 p2 ?_, rfl, rfl, rfl⟩
    rcases h with h | h
    · exact Or.inl ((posOf_eq_none _ _).mpr (fun hm => h ((mem_numbers_build calls p1).mp hm)))
    · exact Or.inr ((posOf_eq_none _ _).mpr (fun hm => h ((mem_numbers_build calls p2).mp hm)))

/-! ## The state at the start of a search -/

theorem queued_resetQueued (g : Graph) : ∀ n ∈ resetQueued g, n.queued = 0 := by
  intro n hn
  obtain ⟨m, _, rfl⟩ := List.mem_map.mp hn
  rfl

theorem level_resetQueued (g : Graph) :
    (resetQueued g).map (fun n => n.level) = g.map (fun n => n.level) := by
  simp [resetQueued, List.map_map, Function.comp_def]

theorem shape_resetQueued (g : Graph) : shape (resetQueued g) = shape g := by
  simp [shape, resetQueued, List.map_map, Function.comp_def]

theorem getElem?_resetQueued (g : Graph) (k : Nat) :
    (resetQueued g)[k]? = (g[k]?).map (fun n => { n with queued := 0 }) := by
  simp [resetQueued]

theorem BFS_eq (g : Graph) (start target : Nat) (s : phoneNode) (hs : g[start]? = some s) :
    BFS g start target =
      bfsLoop target (g.length + 1)
        ((resetQueued g).set start { s with queued := 1, level := 0 }) (enqueue [] start) := by
  have h : (resetQueued g)[start]? = some { s with queued := 0 } := by
    rw [getElem?_resetQueued, hs]
    rfl
  simp only [BFS, h]

theorem BFS_self (g : Graph) (start : Nat) (s : phoneNode) (hs : g[start]? = some s) :
    BFS g start start =
      some (-1, (resetQueued g).set start { s with queued := 1, level := 0 }) := by
  rw [BFS_eq g start start s hs]
  have hlt : start < (resetQueued g).length := by
    rw [length_resetQueued]
    exact (List.getElem?_eq_some.mp hs).1
  have hget : ((resetQueued g).set start { s with queued := 1, level := 0 })[start]? =
      some { s with queued := 1, level := 0 } := by
    rw [List.getElem?_set_self hlt]
  simp [bfsLoop, enqueue, dequeue, hget]

theorem resetQueued_congr (g h : Graph) (hsh : shape h = shape g)
    (hl : h.map (fun n => n.level) = g.map (fun n => n.level)) :
    resetQueued h = resetQueued g := by
  apply List.ext_getElem?
  intro k
  rw [getElem?_resetQueued, getElem?_resetQueued]
  have e1 : (shape h)[k]? = (shape g)[k]? := by rw [hsh]
  have e2 : (h.map (fun n => n.level))[k]? = (g.map (fun n => n.level))[k]? := by rw [hl]
  simp only [shape, List.getElem?_map] at e1 e2
  cases hh : h[k]? with
  | none =>
    cases hg : g[k]? with
    | none => rfl
    | some n => rw [hh, hg] at e2; cases e2
  | some m =>
    cases hg : g[k]? with
    | none => rw [hh, hg] at e2; cases e2
    | some n =>
      rw [hh, hg] at e1 e2
      simp only [Option.map_some', Option.some.injEq, Prod.mk.injEq] at e1 e2
      cases m
      cases n
      simp only at e1 e2
      simp [e1.1, e1.2, e2]

/-- Claim C11 (amended): for every graph and every call `BFS(start, target)` on
a node `start` of the list, the call is the queue loop run from the list in
which the reset loop of `BFS` has set the flag `queued` of every node to 0,
whatever earlier runs left there, has left the field `level` of every node, the
numbers and the adjacency lists as they were, and in which `start` then has
`queued` 1 and `level` 0.  The call returns; the call `BFS(start, start)`
returns that very list; and two lists that differ only in the flags `queued`
give the same returned value and the same list after the call. -/
theorem reset_clears_queued (g : Graph) (start target : Nat) (s : phoneNode)
    (hs : g[start]? = some s) :
    (∀ n ∈ resetQueued g, n.queued = 0) ∧
    (resetQueued g).map (fun n => n.level) = g.map (fun n => n.level) ∧
    shape (resetQueued g) = shape g ∧
    BFS g start target =
      bfsLoop target (g.length + 1)
        ((resetQueued g).set start { s with queued := 1, level := 0 }) (enqueue [] start) ∧
    (∃ r, BFS g start target = some r) ∧
    BFS g start start =
      some (-1, (resetQueued g).set start { s with queued := 1, level := 0 }) ∧
    ∀ h : Graph, shape h = shape g →
      h.map (fun n => n.level) = g.map (fun n => n.level) →
      BFS h start target = BFS g start target := by
  refine ⟨queued_resetQueued g, level_resetQueued g, shape_resetQueued g,
    BFS_eq g start target s hs,
    BFS_total g start target (List.getElem?_eq_some.mp hs).1,
    BFS_self g start s hs, ?_⟩
  intro h hsh hl
  have hlen : h.length = g.length := by
    have := congrArg List.length hsh
    simpa [shape] using this
  simp only [BFS, resetQueued_congr g h hsh hl, hlen]

theorem reset_clears_queued_witness :
    exampleStale[0]? = some ⟨"555-111-2222", [⟨1, 1⟩], 0, 1⟩ ∧
    ((∀ n ∈ resetQueued exampleStale, n.queued = 0) ∧
    (resetQueued exampleStale).map (fun n => n.level) =
      exampleStale.map (fun n => n.level) ∧
    shape (resetQueued exampleStale) = shape exampleStale ∧
    BFS exampleStale 0 2 =
      bfsLoop 2 (exampleStale.length + 1)
        ((resetQueued exampleStale).set 0
          { (⟨"555-111-2222", [⟨1, 1⟩], 0, 1⟩ : phoneNode) with queued := 1, level := 0 })
        (enqueue [] 0) ∧
    (∃ r, BFS exampleStale 0 2 = some r) ∧
    BFS exampleStale 0 0 =
      some (-1, (resetQueued exampleStale).set 0
        { (⟨"555-111-2222", [⟨1, 1⟩], 0, 1⟩ : phoneNode) with queued := 1, level := 0 }) ∧
    ∀ h : Graph, shape h = shape exampleStale →
      h.map (fun n => n.level) = exampleStale.map (fun n => n.level) →
      BFS h 0 2 = BFS exampleStale 0 2) :=
  ⟨rfl, reset_clears_queued exampleStale 0 2 ⟨"555-111-2222", [⟨1, 1⟩], 0, 1⟩ rfl⟩

/-- Claim C11 fails as stated: the run `BFS(0, 2)` on the graph of the two
insertions of the example leaves the third node with `queued` 1 and `level` 2.
The next call `BFS(0, 1)` returns after the nodes 0 and 1 were dequeued and
never writes to the third node: in the list it leaves, that node has `queued`
0, cleared by the reset loop, and still `level` 2, so its `level` was not 0
when that search began. -/
theorem reset_keeps_level :
    ∃ g1 g2, BFS (build [("555-111-2222", "555-333-4444"), ("555-333-4444", "555-555-6666")])
        0 2 = some (1, g1) ∧
      g1[2]? = some ⟨"555-555-6666", [⟨1, 1⟩], 2, 1⟩ ∧
      BFS g1 0 1 = some (0, g2) ∧
      g2[2]? = some ⟨"555-555-6666", [⟨1, 1⟩], 2, 0⟩ ∧
      ∃ n ∈ resetQueued g1, n.queued = 0 ∧ n.level = 2 :=
  ⟨_, _, rfl, rfl, rfl, rfl, ⟨"555-555-6666", [⟨1, 1⟩], 2, 0⟩, by decide, rfl, rfl⟩

/-! ## Queries leave the persistent graph alone -/

theorem shape_set (g : Graph) (k : Nat) (n m : phoneNode) (hn : g[k]? = some n)
    (hp : m.pNumber = n.pNumber) (hc : m.calls = n.calls) :
    shape (g.set k m) = shape g := by
  apply List.ext_getElem?
  intro i
  simp only [shape, List.getElem?_map, List.getElem?_set]
  by_cases hi : k = i
  · subst hi
    have hk : k < g.length := (List.getElem?_eq_some.mp hn).1
    simp [hk, hn, hp, hc]
  · simp [hi]

theorem shape_visitChildren (A : Nat) (cs : List edges) (g : Graph) (q : List Nat) :
    shape (visitChildren A cs g q).1 = shape g := by
  induction cs generalizing g q with
  | nil => rfl
  | cons c cs ih =>
    rw [visitChildren_cons]
    split
    · rename_i n a hn ha
      split_ifs
      · rw [ih]
        exact shape_set g c.dest n _ hn rfl rfl
      · exact ih g q
    · exact ih g q

theorem shape_bfsLoop (target fuel : Nat) (g : Graph) (q : List Nat) (r : Int × Graph)
    (h : bfsLoop target fuel g q = some r) : shape r.2 = shape g := by
  induction fuel generalizing g q with
  | zero => simp [bfsLoop] at h
  | succ fuel ih =>
    cases q with
    | nil =>
      simp only [bfsLoop, dequeue, Option.some.injEq] at h
      subst h
      rfl
    | cons A q1 =>
      simp only [bfsLoop, dequeue] at h
      cases hA : g[A]? with
      | none => rw [hA] at h; cases h
      | some a =>
        rw [hA] at h
        simp only at h
        split_ifs at h
        · simp only [Option.some.injEq] at h
          subst h
          rfl
        · rw [ih _ _ h, shape_visitChildren]

theorem shape_BFS (g : Graph) (start target : Nat) (r : Int × Graph)
    (h : BFS g start target = some r) : shape r.2 = shape g := by
  simp only [BFS] at h
  cases hs : (resetQueued g)[start]? with
  | none => rw [hs] at h; cases h
  | some s =>
    rw [hs] at h
    simp only at h
    rw [shape_bfsLoop _ _ _ _ r h, ← shape_resetQueued g]
    exact shape_set _ start s _ hs rfl rfl

theorem checkIfInGraph_total (g : Graph) (p1 p2 : String) :
    ∃ r, checkIfInGraph g p1 p2 = some r := by
  cases hi : posOf g p1 with
  | none => exact ⟨_, checkIfInGraph_not_found g p1 p2 (Or.inl hi)⟩
  | some i =>
    cases hj : posOf g p2 with
    | none => exact ⟨_, checkIfInGraph_not_found g p1 p2 (Or.inr hj)⟩
    | some j =>
      rw [checkIfInGraph_found g p1 p2 i j hi hj]
      by_cases hl : linkedCallsOf j (callsAt g i) ≠ 0
      · rw [if_pos hl]; exact ⟨_, rfl⟩
      · rw [if_neg hl]
        obtain ⟨r, hr⟩ := BFS_total g i j (posOf_lt _ _ _ hi)
        obtain ⟨search, g1⟩ := r
        rw [hr]
        by_cases hs : search = -1
        · simp only [hs, if_true]; exact ⟨_, rfl⟩
        · simp only [hs, if_false]; exact ⟨_, rfl⟩

theorem shape_checkIfInGraph (g : Graph) (p1 p2 : String) (r : QueryResult)
    (h : checkIfInGraph g p1 p2 = some r) : shape r.graph = shape g := by
  cases hi : posOf g p1 with
  | none =>
    rw [checkIfInGraph_not_found g p1 p2 (Or.inl hi)] at h
    cases h; rfl
  | some i =>
    cases hj : posOf g p2 with
    | none =>
      rw [checkIfInGraph_not_found g p1 p2 (Or.inr hj)] at h
      cases h; rfl
    | some j =>
      rw [checkIfInGraph_found g p1 p2 i j hi hj] at h
      by_cases hl : linkedCallsOf j (callsAt g i) ≠ 0
      · rw [if_pos hl] at h
        cases h; rfl
      · rw [if_neg hl] at h
        cases hb : BFS g i j with
        | none => rw [hb] at h; cases h
        | some r1 =>
          obtain ⟨search, g1⟩ := r1
          rw [hb] at h
          have hsh := shape_BFS g i j _ hb
          by_cases hs : search = -1
          · simp only [hs, if_true, Option.some.injEq] at h
            subst h; exact hsh
          · simp only [hs, if_false, Option.some.injEq] at h
            subst h; exact hsh

/-- Claim C16: for every state of the list and every pair of strings `p1`, `p2`,
`checkIfInGraph(p1, p2)` returns, and after it (including the run of `BFS`, if
any) the node list, the `pNumber` of every node and every adjacency list
(entries, order, targets, `totalCalls`) are what they were before the call;
only the fields `level` and `queued` can differ. -/
theorem query_read_only (g : Graph) (p1 p2 : String) :
    ∃ r, checkIfInGraph g p1 p2 = some r ∧ shape r.graph = shape g := by
  obtain ⟨r, hr⟩ := checkIfInGraph_total g p1 p2
  exact ⟨r, hr, shape_checkIfInGraph g p1 p2 r hr⟩

/-! ## Stale search state -/

theorem shape_getElem? (g h : Graph) (hsh : shape g = shape h) (k : Nat) (n : phoneNode)
    (hn : g[k]? = some n) :
    ∃ m, h[k]? = some m ∧ m.pNumber = n.pNumber ∧ m.calls = n.calls := by
  have e : (shape g)[k]? = (shape h)[k]? := by rw [hsh]
  simp only [shape, List.getElem?_map, hn, Option.map_some'] at e
  cases hm : h[k]? with
  | none => rw [hm] at e; cases e
  | some m =>
    rw [hm] at e
    simp only [Option.map_some', Option.some.injEq, Prod.mk.injEq] at e
    exact ⟨m, rfl, e.1.symm, e.2.symm⟩

theorem shape_length (g h : Graph) (hsh : shape g = shape h) : g.length = h.length := by
  have := congrArg List.length hsh
  simpa [shape] using this

theorem callsAt_of_shape (g h : Graph) (hsh : shape g = shape h) (k : Nat) :
    callsAt g k = callsAt h k := by
  unfold callsAt
  cases hn : g[k]? with
  | none =>
    have hk : g.length ≤ k := by
      by_contra hlt
      rw [List.getElem?_eq_getElem (Nat.lt_of_not_le hlt)] at hn
      cases hn
    rw [shape_length g h hsh] at hk
    rw [List.getElem?_eq_none hk]
  | some n =>
    obtain ⟨m, hm, _, hc⟩ := shape_getElem? g h hsh k n hn
    rw [hm]
    exact hc.symm

theorem lastPos_of_numbers (s : String) (g h : List phoneNode) (i : Nat) (acc : Option Nat)
    (hnum : numbers g = numbers h) : lastPos s g i acc = lastPos s h i acc := by
  induction g generalizing h i acc with
  | nil =>
    cases h with
    | nil => rfl
    | cons m r => simp [numbers] at hnum
  | cons n r ih =>
    cases h with
    | nil => simp [numbers] at hnum
    | cons m r2 =>
      simp only [numbers, List.map_cons, List.cons.injEq] at hnum
      simp only [lastPos, hnum.1]
      exact ih r2 _ _ hnum.2

theorem numbers_of_shape (g h : Graph) (hsh : shape g = shape h) : numbers g = numbers h := by
  have := congrArg (List.map Prod.fst) hsh
  simpa [shape, numbers, List.map_map, Function.comp_def] using this

theorem posOf_of_shape (g h : Graph) (hsh : shape g = shape h) (s : String) :
    posOf g s = posOf h s :=
  lastPos_of_numbers s g h 0 none (numbers_of_shape g h hsh)

theorem Sim.set {g h : Graph} (hs : Sim g h) (k : Nat) (n m : phoneNode) (lvl : Int)
    (hn : g[k]? = some n) (hm : h[k]? = some m) :
    Sim (g.set k { n with queued := 1, level := lvl })
      (h.set k { m with queued := 1, level := lvl }) := by
  have hkg : k < g.length := (List.getElem?_eq_some.mp hn).1
  have hkh : k < h.length := (List.getElem?_eq_some.mp hm).1
  constructor
  · have e1 : shape (g.set k { n with queued := 1, level := lvl }) = shape g :=
      shape_set g k n _ hn rfl rfl
    have e2 : shape (h.set k { m with queued := 1, level := lvl }) = shape h :=
      shape_set h k m _ hm rfl rfl
    rw [e1, e2]
    exact hs.1
  · intro i a b ha hb
    by_cases hi : i = k
    · subst hi
      rw [List.getElem?_set_self hkg] at ha
      rw [List.getElem?_set_self hkh] at hb
      cases ha
      cases hb
      exact ⟨rfl, fun _ => rfl⟩
    · rw [List.getElem?_set_ne (fun e => hi e.symm)] at ha hb
      exact hs.2 i a b ha hb

theorem visitChildren_sim (A : Nat) (cs : List edges) (g h : Graph) (q : List Nat)
    (hs : Sim g h) (hA : queuedAt g A) (hq : ∀ v ∈ q, queuedAt g v) :
    (visitChildren A cs g q).2 = (visitChildren A cs h q).2 ∧
    Sim (visitChildren A cs g q).1 (visitChildren A cs h q).1 ∧
    ∀ v ∈ (visitChildren A cs g q).2, queuedAt (visitChildren A cs g q).1 v := by
  induction cs generalizing g h q with
  | nil => exact ⟨rfl, hs, hq⟩
  | cons c cs ih =>
    obtain ⟨a, ha, haq⟩ := hA
    obtain ⟨b, hb, _, _⟩ := shape_getElem? g h hs.1 A a ha
    have hlev : a.level = b.level := (hs.2 A a b ha hb).2 haq
    rw [visitChildren_cons, visitChildren_cons]
    cases hn : g[c.dest]? with
    | none =>
      have hk : g.length ≤ c.dest := by
        by_contra hlt
        rw [List.getElem?_eq_getElem (Nat.lt_of_not_le hlt)] at hn
        cases hn
      rw [shape_length g h hs.1] at hk
      rw [List.getElem?_eq_none hk]
      exact ih g h q hs ⟨a, ha, haq⟩ hq
    | some n =>
      obtain ⟨m, hm, _, _⟩ := shape_getElem? g h hs.1 c.dest n hn
      have hqe : n.queued = m.queued := (hs.2 c.dest n m hn hm).1
      rw [hm, ha, hb]
      simp only
      by_cases h0 : n.queued = 0
      · have h0m : m.queued = 0 := by rw [← hqe]; exact h0
        rw [if_pos h0, if_pos h0m, ← hlev]
        have hqs := queuedAt_set g c.dest n
          { n with queued := 1, level := a.level + 1 } hn (by simp)
        apply ih _ _ _ (hs.set c.dest n m (a.level + 1) hn hm)
        · exact (hqs A).mpr (Or.inl ⟨a, ha, haq⟩)
        · intro v hv
          rcases List.mem_append.mp hv with hv | hv
          · exact (hqs v).mpr (Or.inl (hq v hv))
          · exact (hqs v).mpr (Or.inr (List.mem_singleton.mp hv))
      · have h0m : ¬ m.queued = 0 := by rw [← hqe]; exact h0
        rw [if_neg h0, if_neg h0m]
        exact ih g h q hs ⟨a, ha, haq⟩ hq

theorem bfsLoop_sim (target fuel : Nat) (g h : Graph) (q : List Nat) (hs : Sim g h)
    (hq : ∀ v ∈ q, queuedAt g v) :
    (bfsLoop target fuel g q).map Prod.fst = (bfsLoop target fuel h q).map Prod.fst := by
  induction fuel generalizing g h q with
  | zero => rfl
  | succ fuel ih =>
    cases q with
    | nil => rfl
    | cons A q1 =>
      obtain ⟨a, ha, haq⟩ := hq A (List.mem_cons_self _ _)
      obtain ⟨b, hb, _, hcalls⟩ := shape_getElem? g h hs.1 A a ha
      have hlev : a.level = b.level := (hs.2 A a b ha hb).2 haq
      simp only [bfsLoop, dequeue, ha, hb]
      by_cases hAt : A = target
      · rw [if_pos hAt, if_pos hAt]
        simp [hlev]
      · rw [if_neg hAt, if_neg hAt, hcalls]
        obtain ⟨e1, e2, e3⟩ := visitChildren_sim A a.calls g h q1 hs ⟨a, ha, haq⟩
          (fun v hv => hq v (List.mem_cons_of_mem _ hv))
        rw [← e1]
        exact ih _ _ _ e2 e3

theorem BFS_sim (g h : Graph) (hsh : shape g = shape h) (start target : Nat) :
    (BFS g start target).map Prod.fst = (BFS h start target).map Prod.fst := by
  have hr : shape (resetQueued g) = shape (resetQueued h) := by
    rw [shape_resetQueued, shape_resetQueued]; exact hsh
  simp only [BFS]
  cases hn : (resetQueued g)[start]? with
  | none =>
    have hk : (resetQueued g).length ≤ start := by
      by_contra hlt
      rw [List.getElem?_eq_getElem (Nat.lt_of_not_le hlt)] at hn
      cases hn
    rw [shape_length _ _ hr] at hk
    rw [List.getElem?_eq_none hk]
  | some n =>
    obtain ⟨m, hm, _, _⟩ := shape_getElem? _ _ hr start n hn
    rw [hm]
    simp only
    rw [shape_length g h hsh]
    apply bfsLoop_sim
    · have hsim : Sim (resetQueued g) (resetQueued h) := by
        refine ⟨hr, ?_⟩
        intro k a b hka hkb
        have ha := queued_resetQueued g a (List.mem_iff_getElem?.mpr ⟨k, hka⟩)
        have hb := queued_resetQueued h b (List.mem_iff_getElem?.mpr ⟨k, hkb⟩)
        exact ⟨by rw [ha, hb], fun hne => absurd ha hne⟩
      exact hsim.set start n m 0 hn hm
    · intro v hv
      rw [enqueue, List.mem_singleton] at hv
      rw [hv]
      exact (queuedAt_set _ start n _ hn (by simp) start).mpr (Or.inr rfl)

/-- Claim C12: for two states of the list with the same nodes, numbers and
adjacency lists (entries and counts) but arbitrary `level` and `queued` values,
`BFS(start, target)` returns the same value in both for every node `start` and
every `target`, and `checkIfInGraph(p1, p2)` returns the same value and prints
the same lines in both; so the outcome of a query does not depend on the
queries run before it. -/
theorem stale_state_irrelevant (g h : Graph) (hsame : shape g = shape h)
    (start target : Nat) (hstart : start < g.length) (p1 p2 : String) :
    (∃ v g1 h1, BFS g start target = some (v, g1) ∧ BFS h start target = some (v, h1)) ∧
    ∃ r1 r2, checkIfInGraph g p1 p2 = some r1 ∧ checkIfInGraph h p1 p2 = some r2 ∧
      r1.ret = r2.ret ∧ r1.out = r2.out ∧ r1.err = r2.err := by
  constructor
  · obtain ⟨r, hr⟩ := BFS_total g start target hstart
    obtain ⟨r2, hr2⟩ := BFS_total h start target (by rw [← shape_length g h hsame]; exact hstart)
    have e := BFS_sim g h hsame start target
    rw [hr, hr2] at e
    simp only [Option.map_some', Option.some.injEq] at e
    exact ⟨r.1, r.2, r2.2, hr, by rw [hr2, e]⟩
  · obtain ⟨r1, hr1⟩ := checkIfInGraph_total g p1 p2
    obtain ⟨r2, hr2⟩ := checkIfInGraph_total h p1 p2
    refine ⟨r1, r2, hr1, hr2, ?_⟩
    cases hi : posOf g p1 with
    | none =>
      rw [checkIfInGraph_not_found g p1 p2 (Or.inl hi)] at hr1
      rw [checkIfInGraph_not_found h p1 p2
        (Or.inl (by rw [← posOf_of_shape g h hsame]; exact hi))] at hr2
      cases hr1; cases hr2
      exact ⟨rfl, rfl, rfl⟩
    | some i =>
      cases hj : posOf g p2 with
      | none =>
        rw [checkIfInGraph_not_found g p1 p2 (Or.inr hj)] at hr1
        rw [checkIfInGraph_not_found h p1 p2
          (Or.inr (by rw [← posOf_of_shape g h hsame]; exact hj))] at hr2
        cases hr1; cases hr2
        exact ⟨rfl, rfl, rfl⟩
      | some j =>
        rw [checkIfInGraph_found g p1 p2 i j hi hj] at hr1
        rw [checkIfInGraph_found h p1 p2 i j (by rw [← posOf_of_shape g h hsame]; exact hi)
          (by rw [← posOf_of_shape g h hsame]; exact hj), ← callsAt_of_shape g h hsame] at hr2
        by_cases hl : linkedCallsOf j (callsAt g i) ≠ 0
        · rw [if_pos hl] at hr1 hr2
          cases hr1; cases hr2
          exact ⟨rfl, rfl, rfl⟩
        · rw [if_neg hl] at hr1 hr2
          have e := BFS_sim g h hsame i j
          cases hb1 : BFS g i j with
          | none => rw [hb1] at hr1; cases hr1
          | some b1 =>
            cases hb2 : BFS h i j with
            | none => rw [hb2] at hr2; cases hr2
            | some b2 =>
              obtain ⟨s1, g1⟩ := b1
              obtain ⟨s2, g2⟩ := b2
              rw [hb1, hb2] at e
              simp only [Option.map_some', Option.some.injEq] at e
              subst e
              rw [hb1] at hr1
              rw [hb2] at hr2
              by_cases hs : s1 = -1
              · simp only [hs, if_true, Option.some.injEq] at hr1 hr2
                subst hr1; subst hr2
                exact ⟨rfl, rfl, rfl⟩
              · simp only [hs, if_false, Option.some.injEq] at hr1 hr2
                subst hr1; subst hr2
                exact ⟨rfl, rfl, rfl⟩

/-! ## Every node is enqueued at most once -/

theorem bfsLoopLog_erase (target fuel : Nat) (g : Graph) (q deq : List Nat) :
    (bfsLoopLog target fuel g q deq).map (fun r => (r.1, r.2.1)) = bfsLoop target fuel g q := by
  induction fuel generalizing g q deq with
  | zero => rfl
  | succ fuel ih =>
    cases q with
    | nil => rfl
    | cons A q1 =>
      simp only [bfsLoopLog, bfsLoop, dequeue]
      cases g[A]? with
      | none => rfl
      | some a =>
        simp only
        split_ifs
        · rfl
        · exact ih _ _ _

theorem BFSLog_erase (g : Graph) (start target : Nat) :
    (BFSLog g start target).map (fun r => (r.1, r.2.1)) = BFS g start target := by
  simp only [BFSLog, BFS]
  cases (resetQueued g)[start]? with
  | none => rfl
  | some s => exact bfsLoopLog_erase _ _ _ _ _

theorem visitChildren_nodup (A : Nat) (cs : List edges) (g : Graph) (q seen : List Nat)
    (hnd : (seen ++ q).Nodup) (hq : ∀ v ∈ seen ++ q, queuedAt g v) :
    (seen ++ (visitChildren A cs g q).2).Nodup ∧
    ∀ v ∈ seen ++ (visitChildren A cs g q).2, queuedAt (visitChildren A cs g q).1 v := by
  induction cs generalizing g q with
  | nil => exact ⟨hnd, hq⟩
  | cons c cs ih =>
    rw [visitChildren_cons]
    split
    · rename_i n a hn ha
      split_ifs with h0
      · have hnq : ¬ queuedAt g c.dest := not_queuedAt g c.dest n hn h0
        have hqs := queuedAt_set g c.dest n
          { n with queued := 1, level := a.level + 1 } hn (by simp)
        apply ih
        · rw [← List.append_assoc, List.nodup_append]
          refine ⟨hnd, List.nodup_singleton _, ?_⟩
          intro v hv hv2
          rw [List.mem_singleton.mp hv2] at hv
          exact hnq (hq _ hv)
        · intro v hv
          rw [← List.append_assoc] at hv
          rcases List.mem_append.mp hv with hv | hv
          · exact (hqs v).mpr (Or.inl (hq v hv))
          · exact (hqs v).mpr (Or.inr (List.mem_singleton.mp hv))
      · exact ih g q hnd hq
    · exact ih g q hnd hq

theorem bfsLoopLog_nodup (target fuel : Nat) (g : Graph) (q deq : List Nat)
    (r : Int × Graph × List Nat × List Nat)
    (hnd : (deq ++ q).Nodup) (hq : ∀ v ∈ deq ++ q, queuedAt g v)
    (hr : bfsLoopLog target fuel g q deq = some r) :
    (r.2.2.1 ++ r.2.2.2).Nodup ∧ (∀ v ∈ r.2.2.1 ++ r.2.2.2, v < g.length) := by
  induction fuel generalizing g q deq with
  | zero => simp [bfsLoopLog] at hr
  | succ fuel ih =>
    have hlt : ∀ (g1 : Graph) (l : List Nat), (∀ v ∈ l, queuedAt g1 v) →
        ∀ v ∈ l, v < g1.length := by
      intro g1 l hl v hv
      obtain ⟨n, hn, _⟩ := hl v hv
      exact (List.getElem?_eq_some.mp hn).1
    cases q with
    | nil =>
      simp only [bfsLoopLog, dequeue, Option.some.injEq] at hr
      subst hr
      exact ⟨hnd, hlt g _ hq⟩
    | cons A q1 =>
      simp only [bfsLoopLog, dequeue] at hr
      cases hA : g[A]? with
      | none => rw [hA] at hr; cases hr
      | some a =>
        rw [hA] at hr
        simp only at hr
        have hnd2 : ((deq ++ [A]) ++ q1).Nodup := by
          rw [List.append_assoc]; exact hnd
        have hq2 : ∀ v ∈ (deq ++ [A]) ++ q1, queuedAt g v := by
          intro v hv
          rw [List.append_assoc] at hv
          exact hq v hv
        split_ifs at hr
        · simp only [Option.some.injEq] at hr
          subst hr
          exact ⟨hnd2, hlt g _ hq2⟩
        · obtain ⟨h1, h2⟩ := visitChildren_nodup A a.calls g q1 (deq ++ [A]) hnd2 hq2
          have := ih _ _ _ h1 h2 hr
          rw [visitChildren_length] at this
          exact this

theorem length_le_of_nodup_lt (l : List Nat) (n : Nat) (hnd : l.Nodup)
    (hlt : ∀ v ∈ l, v < n) : l.length ≤ n := by
  have h1 : l.toFinset ⊆ Finset.range n := by
    intro v hv
    rw [List.mem_toFinset] at hv
    exact Finset.mem_range.mpr (hlt v hv)
  have h2 := Finset.card_le_card h1
  rw [List.toFinset_card_of_nodup hnd, Finset.card_range] at h2
  exact h2

/-- Claim C19: for every list of nodes, every node `start` and every `target`,
`BFS(start, target)` returns (the loop ends within its fixed number of
iterations), no node is enqueued more than once during the run (the dequeued
nodes followed by the nodes left in the queue have no repetition), and the
number of dequeues is at most the number of nodes of the list. -/
theorem BFS_terminates_once (g : Graph) (start target : Nat) (hstart : start < g.length) :
    ∃ v g1 deq rest, BFSLog g start target = some (v, g1, deq, rest) ∧
      BFS g start target = some (v, g1) ∧
      (deq ++ rest).Nodup ∧ deq.length ≤ g.length := by
  obtain ⟨r, hr⟩ := BFS_total g start target hstart
  have he := BFSLog_erase g start target
  rw [hr] at he
  cases hl : BFSLog g start target with
  | none => rw [hl] at he; cases he
  | some rl =>
    rw [hl] at he
    simp only [Option.map_some', Option.some.injEq] at he
    obtain ⟨v, g1, deq, rest⟩ := rl
    refine ⟨v, g1, deq, rest, rfl, by rw [hr, ← he], ?_⟩
    have hs2 : start < (resetQueued g).length := by rwa [length_resetQueued]
    have hget : (resetQueued g)[start]? = some (resetQueued g)[start] :=
      List.getElem?_eq_getElem hs2
    simp only [BFSLog, hget, enqueue] at hl
    have := bfsLoopLog_nodup target _ _ _ _ _ (by simp)
      (by
        intro x hx
        simp only [List.nil_append, List.mem_singleton] at hx
        rw [hx]
        exact (queuedAt_set _ start _ _ hget (by simp) start).mpr (Or.inr rfl)) hl
    simp only [List.length_set, length_resetQueued] at this
    refine ⟨this.1, ?_⟩
    have h3 := length_le_of_nodup_lt _ _ this.1 this.2
    rw [List.length_append] at h3
    omega

theorem BFS_terminates_once_witness :
    0 < (build [("555-111-2222", "555-333-4444"),
      ("555-333-4444", "555-555-6666")]).length ∧
    ∃ v g1 deq rest,
      BFSLog (build [("555-111-2222", "555-333-4444"), ("555-333-4444", "555-555-6666")])
        0 2 = some (v, g1, deq, rest) ∧
      BFS (build [("555-111-2222", "555-333-4444"), ("555-333-4444", "555-555-6666")])
        0 2 = some (v, g1) ∧
      (deq ++ rest).Nodup ∧
      deq.length ≤ (build [("555-111-2222", "555-333-4444"),
        ("555-333-4444", "555-555-6666")]).length :=
  ⟨by decide, BFS_terminates_once _ 0 2 (by decide)⟩

theorem stale_state_irrelevant_witness :
    shape (build [("555-111-2222", "555-333-4444"), ("555-333-4444", "555-555-6666")]) =
      shape [⟨"555-111-2222", [⟨1, 1⟩], 0, 1⟩, ⟨"555-333-4444", [⟨0, 1⟩, ⟨2, 1⟩], 1, 1⟩,
        ⟨"555-555-6666", [⟨1, 1⟩], 2, 1⟩] ∧
    0 < (build [("555-111-2222", "555-333-4444"),
      ("555-333-4444", "555-555-6666")]).length ∧
    ((∃ v g1 h1,
      BFS (build [("555-111-2222", "555-333-4444"), ("555-333-4444", "555-555-6666")])
        0 1 = some (v, g1) ∧
      BFS [⟨"555-111-2222", [⟨1, 1⟩], 0, 1⟩, ⟨"555-333-4444", [⟨0, 1⟩, ⟨2, 1⟩], 1, 1⟩,
        ⟨"555-555-6666", [⟨1, 1⟩], 2, 1⟩] 0 1 = some (v, h1)) ∧
    ∃ r1 r2,
      checkIfInGraph (build [("555-111-2222", "555-333-4444"),
        ("555-333-4444", "555-555-6666")]) "555-555-6666" "555-111-2222" = some r1 ∧
      checkIfInGraph [⟨"555-111-2222", [⟨1, 1⟩], 0, 1⟩,
        ⟨"555-333-4444", [⟨0, 1⟩, ⟨2, 1⟩], 1, 1⟩, ⟨"555-555-6666", [⟨1, 1⟩], 2, 1⟩]
        "555-555-6666" "555-111-2222" = some r2 ∧
      r1.ret = r2.ret ∧ r1.out = r2.out ∧ r1.err = r2.err) :=
  ⟨by decide, by decide,
    stale_state_irrelevant _ _ (by decide) 0 1 (by decide) "555-555-6666" "555-111-2222"⟩

/-! ## The endpoints of the search of a query -/

theorem bfsCallOf_eq_some (g : Graph) (p1 p2 : String) (s t : Nat) :
    bfsCallOf g p1 p2 = some (s, t) ↔
      posOf g p1 = some s ∧ posOf g p2 = some t ∧ linkedCallsOf t (callsAt g s) = 0 := by
  unfold bfsCallOf posOf
  rw [findNodes_eq]
  cases lastPos p1 g 0 none with
  | none => simp
  | some i =>
    cases lastPos p2 g 0 none with
    | none => simp
    | some j =>
      simp only [ne_eq, ite_not, Option.some.injEq]
      by_cases hl : linkedCallsOf j (callsAt g i) = 0
      · rw [if_pos hl]
        simp only [Option.some.injEq, Prod.mk.injEq]
        constructor
        · rintro ⟨rfl, rfl⟩
          exact ⟨rfl, rfl, hl⟩
        · rintro ⟨rfl, rfl, _⟩
          exact ⟨rfl, rfl⟩
      · rw [if_neg hl]
        constructor
        · intro h; cases h
        · rintro ⟨rfl, rfl, h⟩
          exact absurd h hl

theorem checkIfInGraph_of_bfsCallOf (g : Graph) (p1 p2 : String) (s t : Nat)
    (h : bfsCallOf g p1 p2 = some (s, t)) :
    checkIfInGraph g p1 p2 =
      match BFS g s t with
      | none => none
      | some (search, g1) =>
        if search = -1 then
          some { ret := 0, out := ["Not connected\n"], err := [], graph := g1 }
        else
          some { ret := 0, out := [connectedLine search], err := [], graph := g1 } := by
  obtain ⟨h1, h2, h3⟩ := (bfsCallOf_eq_some g p1 p2 s t).mp h
  rw [checkIfInGraph_found g p1 p2 s t h1 h2, if_neg (by simp [h3])]

theorem checkIfInGraph_of_bfsCallOf_none (g : Graph) (p1 p2 : String)
    (h : bfsCallOf g p1 p2 = none) :
    ∃ r, checkIfInGraph g p1 p2 = some r ∧ r.graph = g := by
  cases hi : posOf g p1 with
  | none => exact ⟨_, checkIfInGraph_not_found g p1 p2 (Or.inl hi), rfl⟩
  | some i =>
    cases hj : posOf g p2 with
    | none => exact ⟨_, checkIfInGraph_not_found g p1 p2 (Or.inr hj), rfl⟩
    | some j =>
      rw [checkIfInGraph_found g p1 p2 i j hi hj]
      by_cases hl : linkedCallsOf j (callsAt g i) ≠ 0
      · rw [if_pos hl]; exact ⟨_, rfl, rfl⟩
      · rw [not_not] at hl
        have := (bfsCallOf_eq_some g p1 p2 i j).mpr ⟨hi, hj, hl⟩
        rw [h] at this
        cases this

theorem checkIfInGraph_no_bfs (g : Graph) (p1 p2 : String)
    (h : bfsCallOf g p1 p2 = none) :
    ∃ r, checkIfInGraph g p1 p2 = some r ∧ r.graph = g ∧
      (r.out = [] ∨ ∃ n, r.out = [talkedLine n]) := by
  cases hi : posOf g p1 with
  | none => exact ⟨_, checkIfInGraph_not_found g p1 p2 (Or.inl hi), rfl, Or.inl rfl⟩
  | some i =>
    cases hj : posOf g p2 with
    | none => exact ⟨_, checkIfInGraph_not_found g p1 p2 (Or.inr hj), rfl, Or.inl rfl⟩
    | some j =>
      rw [checkIfInGraph_found g p1 p2 i j hi hj]
      by_cases hl : linkedCallsOf j (callsAt g i) ≠ 0
      · rw [if_pos hl]; exact ⟨_, rfl, rfl, Or.inr ⟨_, rfl⟩⟩
      · rw [not_not] at hl
        have := (bfsCallOf_eq_some g p1 p2 i j).mpr ⟨hi, hj, hl⟩
        rw [h] at this
        cases this

theorem checkIfInGraph_same_node (g : Graph) (p1 p2 : String) (s : Nat)
    (h : bfsCallOf g p1 p2 = some (s, s)) :
    ∃ g1, BFS g s s = some (-1, g1) ∧
      checkIfInGraph g p1 p2 =
        some { ret := 0, out := ["Not connected\n"], err := [], graph := g1 } := by
  obtain ⟨h1, _, _⟩ := (bfsCallOf_eq_some g p1 p2 s s).mp h
  obtain ⟨n, hn, _⟩ := posOf_some _ _ _ h1
  refine ⟨_, BFS_self g s n hn, ?_⟩
  rw [checkIfInGraph_of_bfsCallOf g p1 p2 s s h, BFS_self g s n hn]
  rfl

/-- Claim C17 (amended): in a graph built from the empty graph by insertions of
pairs of different numbers, the query `checkIfInGraph(p1, p2)` either makes no
call of `BFS`, leaves the list as it is and prints nothing or a line `Talked n
times`, or it makes the call `BFS(s, t)` and prints `Not connected` or
`Connected through N numbers` from its value.  The call is made with the same
node as start and target exactly when `p1` and `p2` are the same string and a
node carries that number; `BFS` then returns -1 and the query prints `Not
connected`.  For two different strings the two nodes of the call are
different. -/
theorem bfs_same_endpoints (calls : List (String × String)) (hd : Distinct calls)
    (p1 p2 : String) :
    (bfsCallOf (build calls) p1 p2 = none →
      ∃ r, checkIfInGraph (build calls) p1 p2 = some r ∧ r.graph = build calls ∧
        (r.out = [] ∨ ∃ n, r.out = [talkedLine n])) ∧
    (∀ s t, bfsCallOf (build calls) p1 p2 = some (s, t) →
      checkIfInGraph (build calls) p1 p2 =
        match BFS (build calls) s t with
        | none => none
        | some (search, g1) =>
          if search = -1 then
            some { ret := 0, out := ["Not connected\n"], err := [], graph := g1 }
          else
            some { ret := 0, out := [connectedLine search], err := [], graph := g1 }) ∧
    ((∃ s, bfsCallOf (build calls) p1 p2 = some (s, s)) ↔ (p1 = p2 ∧ Occurs calls p1)) ∧
    (∀ s, bfsCallOf (build calls) p1 p2 = some (s, s) →
      ∃ g1, BFS (build calls) s s = some (-1, g1) ∧
        checkIfInGraph (build calls) p1 p2 =
          some { ret := 0, out := ["Not connected\n"], err := [], graph := g1 }) ∧
    (p1 ≠ p2 → ∀ s t, bfsCallOf (build calls) p1 p2 = some (s, t) → s ≠ t) := by
  have hsame : ∀ s, bfsCallOf (build calls) p1 p2 = some (s, s) → p1 = p2 ∧ Occurs calls p1 := by
    intro s hs
    obtain ⟨h1, h2, _⟩ := (bfsCallOf_eq_some _ p1 p2 s s).mp hs
    obtain ⟨n, hn, hp1⟩ := posOf_some _ _ _ h1
    obtain ⟨m, hm, hp2⟩ := posOf_some _ _ _ h2
    rw [hn] at hm
    cases hm
    refine ⟨hp1.symm.trans hp2, ?_⟩
    rw [← mem_numbers_build, ← hp1]
    exact mem_numbers_of_getElem? _ _ _ hn
  have htie : ∀ s t, bfsCallOf (build calls) p1 p2 = some (s, t) →
      checkIfInGraph (build calls) p1 p2 =
        match BFS (build calls) s t with
        | none => none
        | some (search, g1) =>
          if search = -1 then
            some { ret := 0, out := ["Not connected\n"], err := [], graph := g1 }
          else
            some { ret := 0, out := [connectedLine search], err := [], graph := g1 } := by
    intro s t h
    unfold bfsCallOf at h
    unfold checkIfInGraph
    generalize findNodes p1 p2 (build calls) 0 (none, none) = f at h ⊢
    obtain ⟨a, b⟩ := f
    cases a with
    | none => simp at h
    | some i =>
      cases b with
      | none => simp at h
      | some j =>
        by_cases hl : linkedCallsOf j (callsAt (build calls) i) ≠ 0
        · simp only [if_pos hl] at h
          cases h
        · simp only [if_neg hl] at h
          cases h
          simp only [if_neg hl]
  refine ⟨checkIfInGraph_no_bfs _ p1 p2, htie, ⟨?_, ?_⟩,
    fun s h => checkIfInGraph_same_node _ p1 p2 s h, ?_⟩
  · rintro ⟨s, hs⟩
    exact hsame s hs
  · rintro ⟨rfl, hocc⟩
    obtain ⟨i, hi⟩ := posOf_of_mem _ _ ((mem_numbers_build calls p1).mpr hocc)
    refine ⟨i, (bfsCallOf_eq_some _ p1 p1 i i).mpr ⟨hi, hi, ?_⟩⟩
    rw [linkedCallsOf_eq, (edge_count calls hd p1 p1 i i hi hi).1, pairCount_self calls p1 hd]
    rfl
  · intro hne s t h hst
    subst hst
    exact hne (hsame s h).1

theorem bfs_same_endpoints_witness :
    Distinct [("555-111-2222", "555-333-4444")] ∧
    ((bfsCallOf (build [("555-111-2222", "555-333-4444")])
        "555-333-4444" "555-333-4444" = none →
      ∃ r, checkIfInGraph (build [("555-111-2222", "555-333-4444")])
          "555-333-4444" "555-333-4444" = some r ∧
        r.graph = build [("555-111-2222", "555-333-4444")] ∧
        (r.out = [] ∨ ∃ n, r.out = [talkedLine n])) ∧
    (∀ s t, bfsCallOf (build [("555-111-2222", "555-333-4444")])
        "555-333-4444" "555-333-4444" = some (s, t) →
      checkIfInGraph (build [("555-111-2222", "555-333-4444")])
          "555-333-4444" "555-333-4444" =
        match BFS (build [("555-111-2222", "555-333-4444")]) s t with
        | none => none
        | some (search, g1) =>
          if search = -1 then
            some { ret := 0, out := ["Not connected\n"], err := [], graph := g1 }
          else
            some { ret := 0, out := [connectedLine search], err := [], graph := g1 }) ∧
    ((∃ s, bfsCallOf (build [("555-111-2222", "555-333-4444")])
        "555-333-4444" "555-333-4444" = some (s, s)) ↔
      ("555-333-4444" = "555-333-4444" ∧
        Occurs [("555-111-2222", "555-333-4444")] "555-333-4444")) ∧
    (∀ s, bfsCallOf (build [("555-111-2222", "555-333-4444")])
        "555-333-4444" "555-333-4444" = some (s, s) →
      ∃ g1, BFS (build [("555-111-2222", "555-333-4444")]) s s = some (-1, g1) ∧
        checkIfInGraph (build [("555-111-2222", "555-333-4444")])
            "555-333-4444" "555-333-4444" =
          some { ret := 0, out := ["Not connected\n"], err := [], graph := g1 }) ∧
    ("555-333-4444" ≠ "555-333-4444" →
      ∀ s t, bfsCallOf (build [("555-111-2222", "555-333-4444")])
        "555-333-4444" "555-333-4444" = some (s, t) → s ≠ t)) :=
  ⟨by decide, bfs_same_endpoints _ (by decide) "555-333-4444" "555-333-4444"⟩

/-- Claim C17 fails as stated: after the insertion of one pair of different
numbers, the query of a number of the graph with itself calls `BFS` with the
node of that number as start and as target (and prints `Not connected`). -/
theorem bfs_called_with_same_node :
    Distinct [("555-111-2222", "555-333-4444")] ∧
    bfsCallOf (build [("555-111-2222", "555-333-4444")]) "555-111-2222" "555-111-2222" =
      some (0, 0) ∧
    (checkIfInGraph (build [("555-111-2222", "555-333-4444")])
      "555-111-2222" "555-111-2222").map (fun r => (r.ret, r.out)) =
      some (0, ["Not connected\n"]) :=
  ⟨by decide, by decide, by decide⟩

/-! ## Symmetry of queries -/

theorem Walk.prepend {g : Graph} {u v w k : Nat} (hadj : Adj g u v) (hw : Walk g v w k) :
    Walk g u w (k + 1) := by
  induction hw with
  | refl => exact Walk.step Walk.refl hadj
  | step _ hadj2 ih => exact Walk.step ih hadj2

theorem walk_symm (g : Graph) (hsym : ∀ u v, Adj g u v → Adj g v u) (s t k : Nat)
    (hw : Walk g s t k) : Walk g t s k := by
  induction hw with
  | refl => exact Walk.refl
  | step _ hadj ih => exact Walk.prepend (hsym _ _ hadj) ih

theorem adj_symm_of_mirrored (g : Graph) (hm : Mirrored g) (u v : Nat) (h : Adj g u v) :
    Adj g v u := by
  obtain ⟨e, he, rfl⟩ := h
  exact ⟨⟨u, e.totalCalls⟩, hm u e.dest e.totalCalls he, rfl⟩

theorem BFS_symm (g : Graph) (hwf : WellFormed g) (hsym : ∀ u v, Adj g u v → Adj g v u)
    (s t : Nat) (hs : s < g.length) (ht : t < g.length) :
    ∃ v g1 g2, BFS g s t = some (v, g1) ∧ BFS g t s = some (v, g2) := by
  obtain ⟨r1, hr1, h1⟩ := BFS_spec g s t hwf hs
  obtain ⟨r2, hr2, h2⟩ := BFS_spec g t s hwf ht
  refine ⟨r1.1, r1.2, r2.2, hr1, ?_⟩
  rw [hr2]
  have e : r2.1 = r1.1 := by
    rcases h1 with ⟨e1, hno1⟩ | ⟨d1, e1, hw1, hmin1⟩
    · rcases h2 with ⟨e2, _⟩ | ⟨d2, _, hw2, _⟩
      · rw [e1, e2]
      · exact absurd (walk_symm g hsym _ _ _ hw2) (hno1 d2)
    · rcases h2 with ⟨_, hno2⟩ | ⟨d2, e2, hw2, hmin2⟩
      · exact absurd (walk_symm g hsym _ _ _ hw1) (hno2 d1)
      · have : d1 = d2 := Nat.le_antisymm (hmin1 d2 (walk_symm g hsym _ _ _ hw2))
          (hmin2 d1 (walk_symm g hsym _ _ _ hw1))
        rw [e1, e2, this]
  rw [← e]

/-- Claim C20: in a graph built from the empty graph by insertions of pairs of
different numbers, for every pair of strings `p1`, `p2`, the calls
`checkIfInGraph(p1, p2)` and `checkIfInGraph(p2, p1)` return the same value and
print the same lines (the same `Talked N times`, the same
`Connected through N numbers`, or both `Not connected`). -/
theorem query_symmetric (calls : List (String × String)) (hd : Distinct calls)
    (p1 p2 : String) :
    ∃ r1 r2, checkIfInGraph (build calls) p1 p2 = some r1 ∧
      checkIfInGraph (build calls) p2 p1 = some r2 ∧
      r1.ret = r2.ret ∧ r1.out = r2.out ∧ r1.err = r2.err := by
  have hinv := Inv_build calls hd
  cases hi : posOf (build calls) p1 with
  | none =>
    exact ⟨_, _, checkIfInGraph_not_found _ p1 p2 (Or.inl hi),
      checkIfInGraph_not_found _ p2 p1 (Or.inr hi), rfl, rfl, rfl⟩
  | some i =>
    cases hj : posOf (build calls) p2 with
    | none =>
      exact ⟨_, _, checkIfInGraph_not_found _ p1 p2 (Or.inr hj),
        checkIfInGraph_not_found _ p2 p1 (Or.inl hj), rfl, rfl, rfl⟩
    | some j =>
      rw [checkIfInGraph_found _ p1 p2 i j hi hj, checkIfInGraph_found _ p2 p1 j i hj hi]
      have hl : linkedCallsOf i (callsAt (build calls) j) =
          linkedCallsOf j (callsAt (build calls) i) := by
        rw [linkedCallsOf_eq, linkedCallsOf_eq, (edge_count calls hd p1 p2 i j hi hj).1,
          (edge_count calls hd p1 p2 i j hi hj).2]
      rw [hl]
      by_cases h0 : linkedCallsOf j (callsAt (build calls) i) ≠ 0
      · rw [if_pos h0, if_pos h0]
        exact ⟨_, _, rfl, rfl, rfl, rfl, rfl⟩
      · rw [if_neg h0, if_neg h0]
        obtain ⟨v, g1, g2, hb1, hb2⟩ := BFS_symm (build calls)
          (wellFormed_of_inv calls _ hinv)
          (adj_symm_of_mirrored _ (Inv_mirrored calls _ hinv)) i j
          (posOf_lt _ _ _ hi) (posOf_lt _ _ _ hj)
        rw [hb1, hb2]
        by_cases hv : v = -1
        · simp only [hv, if_true]
          exact ⟨_, _, rfl, rfl, rfl, rfl, rfl⟩
        · simp only [hv, if_false]
          exact ⟨_, _, rfl, rfl, rfl, rfl, rfl⟩

theorem query_symmetric_witness :
    Distinct [("555-111-2222", "555-333-4444"), ("555-333-4444", "555-555-6666")] ∧
    ∃ r1 r2,
      checkIfInGraph (build [("555-111-2222", "555-333-4444"),
        ("555-333-4444", "555-555-6666")]) "555-111-2222" "555-555-6666" = some r1 ∧
      checkIfInGraph (build [("555-111-2222", "555-333-4444"),
        ("555-333-4444", "555-555-6666")]) "555-555-6666" "555-111-2222" = some r2 ∧
      r1.ret = r2.ret ∧ r1.out = r2.out ∧ r1.err = r2.err :=
  ⟨by decide, query_symmetric _ (by decide) "555-111-2222" "555-555-6666"⟩

/-! ## The format of a phone number -/

theorem parseFile_example :
    parseFile [] (some ["555-111-2222 555-333-4444\n", "555-333-4444 555-555-6666\n"]) =
      (0, [], build [("555-111-2222", "555-333-4444"), ("555-333-4444", "555-555-6666")]) := by
  decide

theorem checkPhoneFormatFrom_spec (l : List Char) (k : Nat) :
    (checkPhoneFormatFrom l k = 0 ∨ checkPhoneFormatFrom l k = 1) ∧
    (checkPhoneFormatFrom l k = 0 ↔
      (k + l.length = 12 ∧ ∀ (i : Nat) (c : Char), l[i]? = some c → okAt (k + i) c)) := by
  induction l generalizing k with
  | nil =>
    by_cases hk : k = 12
    · simp [checkPhoneFormatFrom, hk]
    · simp [checkPhoneFormatFrom, hk]
  | cons c rest ih =>
    have hcons : (∀ (i : Nat) (d : Char), (c :: rest)[i]? = some d → okAt (k + i) d) ↔
        (okAt k c ∧ ∀ (i : Nat) (d : Char), rest[i]? = some d → okAt (k + 1 + i) d) := by
      constructor
      · intro h
        refine ⟨h 0 c (by simp), fun i d hd => ?_⟩
        have := h (i + 1) d (by simpa using hd)
        rwa [show k + (i + 1) = k + 1 + i by omega] at this
      · rintro ⟨h0, h1⟩ i d hd
        cases i with
        | zero =>
          simp only [List.getElem?_cons_zero, Option.some.injEq] at hd
          subst hd
          exact h0
        | succ i =>
          have := h1 i d (by simpa using hd)
          rwa [show k + 1 + i = k + (i + 1) by omega] at this
    rw [hcons, List.length_cons, show k + (rest.length + 1) = k + 1 + rest.length by omega]
    have hone : ∀ P : Prop, ¬ P → (((1 : Int) = 0 ∨ (1 : Int) = 1) ∧ ((1 : Int) = 0 ↔ P)) :=
      fun P hP => ⟨Or.inr rfl, ⟨fun h => absurd h (by decide), fun h => absurd h hP⟩⟩
    by_cases hk : k > 12
    · have e : checkPhoneFormatFrom (c :: rest) k = 1 := by
        simp only [checkPhoneFormatFrom, hk, if_true]
      rw [e]
      exact hone _ (fun h => by omega)
    · by_cases h37 : k = 3 ∨ k = 7
      · by_cases hc : c = '-'
        · have e : checkPhoneFormatFrom (c :: rest) k = checkPhoneFormatFrom rest (k + 1) := by
            simp only [checkPhoneFormatFrom, hk, if_false, h37, if_true, hc, ne_eq,
              not_true_eq_false]
          have hok : okAt k c := by simp only [okAt, h37, if_true, hc]
          rw [e]
          simp only [hok, true_and]
          exact ih (k + 1)
        · have e : checkPhoneFormatFrom (c :: rest) k = 1 := by
            simp only [checkPhoneFormatFrom, hk, if_false, h37, if_true, hc, ne_eq,
              not_false_eq_true]
          rw [e]
          refine hone _ (fun h => hc ?_)
          have := h.2.1
          simpa only [okAt, h37, if_true] using this
      · by_cases hc : c < '0' ∨ c > '9'
        · have e : checkPhoneFormatFrom (c :: rest) k = 1 := by
            simp only [checkPhoneFormatFrom, hk, if_false, h37, hc, if_true]
          rw [e]
          refine hone _ (fun h => ?_)
          have hok := h.2.1
          simp only [okAt, h37, if_false] at hok
          rcases hc with hc | hc
          · exact absurd hok.1 (not_le.mpr hc)
          · exact absurd hok.2 (not_le.mpr hc)
        · have e : checkPhoneFormatFrom (c :: rest) k = checkPhoneFormatFrom rest (k + 1) := by
            simp only [checkPhoneFormatFrom, hk, if_false, h37, hc]
          rw [not_or, not_lt, not_lt] at hc
          have hok : okAt k c := by simp only [okAt, h37, if_false]; exact hc
          rw [e]
          simp only [hok, true_and]
          exact ih (k + 1)

theorem checkPhoneFormat_eq_zero (s : String) :
    checkPhoneFormat s = 0 ↔ IsPhoneNumber s.data := by
  unfold checkPhoneFormat IsPhoneNumber
  rw [(checkPhoneFormatFrom_spec s.data 0).2]
  simp

/-- Claim C15: for every string `s` (the characters before the terminating
NUL), `checkPhoneFormat(s)` returns 0 if and only if `s` has exactly 12
characters, the characters at the indices 3 and 7 are `-`, and each of the other
ten characters is a decimal digit; for every other string, the empty string and
the strings of 13 or more characters included, it returns 1. -/
theorem checkPhoneFormat_spec (s : String) :
    (checkPhoneFormat s = 0 ↔ IsPhoneNumber s.data) ∧
    (¬ IsPhoneNumber s.data → checkPhoneFormat s = 1) ∧
    (s.data.length ≠ 12 → checkPhoneFormat s = 1) := by
  have h01 := (checkPhoneFormatFrom_spec s.data 0).1
  have hiff := checkPhoneFormat_eq_zero s
  refine ⟨hiff, ?_, ?_⟩
  · intro hn
    rcases h01 with h | h
    · exact absurd (hiff.mp h) hn
    · exact h
  · intro hlen
    rcases h01 with h | h
    · exact absurd (hiff.mp h).1 hlen
    · exact h

/-! ## Scanning a line -/

theorem isspace_of_digitOrDash (c : Char) (h : DigitOrDash c) : isspace c = false := by
  have hn : (48 ≤ c.toNat ∧ c.toNat ≤ 57) ∨ c.toNat = 45 := by
    rcases h with ⟨h1, h2⟩ | h
    · have a : ('0' : Char).toNat ≤ c.toNat := h1
      have b : c.toNat ≤ ('9' : Char).toNat := h2
      exact Or.inl ⟨a, b⟩
    · rw [h]
      exact Or.inr (by decide)
  unfold isspace
  simp only [Bool.or_eq_false_iff, Bool.and_eq_false_iff, decide_eq_false_iff_not]
  omega

theorem okAt_digitOrDash (i : Nat) (c : Char) (h : okAt i c) : DigitOrDash c := by
  unfold okAt at h
  split_ifs at h
  · exact Or.inr h
  · exact Or.inl h

theorem IsPhoneNumber.all {t : List Char} (h : IsPhoneNumber t) : ∀ c ∈ t, DigitOrDash c := by
  intro c hc
  obtain ⟨i, hi⟩ := List.mem_iff_getElem?.mp hc
  exact okAt_digitOrDash i c (h.2 i c hi)

theorem IsPhoneNumber.head {t l : List Char} (h : IsPhoneNumber t) :
    ∃ c, (t ++ l).head? = some c ∧ DigitOrDash c := by
  cases t with
  | nil => have := h.1; simp at this
  | cons c r => exact ⟨c, rfl, h.all c (List.mem_cons_self _ _)⟩

theorem copyNumber_append (t tok l : List Char) (ht : ∀ c ∈ t, DigitOrDash c)
    (hlen : tok.length + t.length ≤ 12) (hl : ∀ c, l.head? = some c → ¬ DigitOrDash c) :
    copyNumber (t ++ l) tok = (l, tok ++ t, false) := by
  induction t generalizing tok with
  | nil =>
    cases l with
    | nil => simp [copyNumber]
    | cons c r =>
      have hc : ¬ DigitOrDash c := hl c rfl
      unfold DigitOrDash at hc
      simp [copyNumber, hc]
  | cons c r ih =>
    have hc : DigitOrDash c := ht c (List.mem_cons_self _ _)
    unfold DigitOrDash at hc
    simp only [List.length_cons] at hlen
    have hlt : tok.length < 12 := by omega
    have e : copyNumber (c :: r ++ l) tok = copyNumber (r ++ l) (tok ++ [c]) := by
      show copyNumber (c :: (r ++ l)) tok = _
      simp only [copyNumber, hc, if_true, hlt]
    rw [e, ih (tok ++ [c]) (fun d hd => ht d (List.mem_cons_of_mem _ hd))
      (by simp only [List.length_append, List.length_singleton]; omega)]
    simp

theorem copyNumber_inv (l tok l1 tok1 : List Char) (hlen : tok.length ≤ 12)
    (h : copyNumber l tok = (l1, tok1, false)) :
    ∃ t, l = t ++ l1 ∧ tok1 = tok ++ t ∧ (∀ c ∈ t, DigitOrDash c) ∧
      (∀ c, l1.head? = some c → ¬ DigitOrDash c) ∧ tok1.length ≤ 12 := by
  induction l generalizing tok with
  | nil =>
    simp only [copyNumber, Prod.mk.injEq, and_true] at h
    obtain ⟨rfl, rfl⟩ := h
    exact ⟨[], rfl, by simp, by simp, by simp, hlen⟩
  | cons c r ih =>
    unfold copyNumber at h
    by_cases hc : ('0' ≤ c ∧ c ≤ '9') ∨ c = '-'
    · rw [if_pos hc] at h
      by_cases hlt : tok.length < 12
      · rw [if_pos hlt] at h
        obtain ⟨t, h1, h2, h3, h4, h5⟩ := ih (tok ++ [c])
          (by simp only [List.length_append, List.length_singleton]; omega) h
        refine ⟨c :: t, by rw [h1]; rfl, by rw [h2]; simp, ?_, h4, h5⟩
        intro d hd
        rcases List.mem_cons.mp hd with rfl | hd
        · exact hc
        · exact h3 d hd
      · rw [if_neg hlt] at h
        have hs : isspace c = false := isspace_of_digitOrDash c hc
        simp only [hs, Bool.false_eq_true, not_false_eq_true, if_true, Prod.mk.injEq,
          Bool.true_eq_false, and_false] at h
    · rw [if_neg hc] at h
      simp only [Prod.mk.injEq, and_true] at h
      obtain ⟨rfl, rfl⟩ := h
      refine ⟨[], rfl, by simp, by simp, ?_, hlen⟩
      intro d hd
      simp only [List.head?_cons, Option.some.injEq] at hd
      subst hd
      exact hc

theorem dropWhile_isspace_append (ws l : List Char) (hws : ∀ c ∈ ws, isspace c = true)
    (hl : ∀ c, l.head? = some c → isspace c = false) :
    (ws ++ l).dropWhile isspace = l := by
  induction ws with
  | nil =>
    cases l with
    | nil => rfl
    | cons c r => simp [List.dropWhile, hl c rfl]
  | cons c r ih =>
    simp only [List.cons_append, List.dropWhile, hws c (List.mem_cons_self _ _)]
    exact ih (fun d hd => hws d (List.mem_cons_of_mem _ hd))

theorem onlySpace_iff (l : List Char) : onlySpace l = true ↔ ∀ c ∈ l, isspace c = true := by
  induction l with
  | nil => simp [onlySpace]
  | cons c r ih =>
    unfold onlySpace
    by_cases hc : isspace c = true
    · simp [hc, ih]
    · simp [hc]

theorem sscanfPhone_ne_four (s : List Char) (h : s.length ≤ 12) : sscanfPhone s ≠ 4 := by
  have hdrop : ∀ (w : Nat) (l r : List Char), scanField w l = some r → r.length + w ≤ l.length ∨
      r = [] := by
    intro w l r hr
    cases l with
    | nil => cases hr
    | cons a t =>
      simp only [scanField, Option.some.injEq] at hr
      subst hr
      by_cases hw : w ≤ (a :: t).length
      · left
        rw [List.length_drop]
        omega
      · right
        exact List.drop_eq_nil_of_le (by omega)
  unfold sscanfPhone
  cases h1 : scanField 3 s with
  | none => simp
  | some r1 =>
    simp only
    cases r1 with
    | nil => simp
    | cons c1 r2 =>
      by_cases hc1 : c1 = '-'
      · subst hc1
        simp only
        cases h2 : scanField 3 r2 with
        | none => simp
        | some r3 =>
          simp only
          cases r3 with
          | nil => simp
          | cons c3 r4 =>
            by_cases hc3 : c3 = '-'
            · subst hc3
              simp only
              cases h3 : scanField 4 r4 with
              | none => simp
              | some r5 =>
                simp only
                cases h4 : scanField 1 r5 with
                | none => simp
                | some r6 =>
                  exfalso
                  have e1 := hdrop 3 s _ h1
                  have e2 := hdrop 3 r2 _ h2
                  have e3 := hdrop 4 r4 _ h3
                  have e5 : r5 ≠ [] := by
                    rintro rfl
                    cases h4
                  have e5l : 0 < r5.length := List.length_pos.mpr e5
                  simp only [List.length_cons, reduceCtorEq, or_false] at e1 e2
                  rcases e3 with e3 | e3
                  · omega
                  · exact e5 e3
            · split <;> simp_all
      · split <;> simp_all

/-! ## The body of the reading loop -/

theorem checkPhoneFormat_zero_or_one (s : String) :
    checkPhoneFormat s = 0 ∨ checkPhoneFormat s = 1 :=
  (checkPhoneFormatFrom_spec s.data 0).1

theorem parseLine_of (line l1 tok1 l2 tok2 : List Char) (f1 f2 : Bool)
    (h1 : copyNumber line [] = (l1, tok1, f1))
    (h2 : copyNumber (l1.dropWhile isspace) [] = (l2, tok2, f2)) :
    parseLine line =
      if (f1 || f2 || ! onlySpace l2) = true then
        { errSeen := true,
          err := (if f1 then ["Too Many Args Given"] else []) ++
            (if f2 then ["Too Many Args Given"] else []) ++
            (if (! onlySpace l2) = true then ["Incorrect Format.\n"] else []),
          action := LineAction.next }
      else if sscanfPhone tok1 = 4 then
        { errSeen := true, err := ["Incorrect Format."], action := LineAction.stop }
      else if sscanfPhone tok2 = 4 then
        { errSeen := true, err := ["Incorrect Format."], action := LineAction.stop }
      else if checkPhoneFormat (String.mk tok1) + checkPhoneFormat (String.mk tok2) ≠ 0 then
        { errSeen := false, err := ["Incorrect Formating.\n"], action := LineAction.next }
      else { errSeen := false, err := [],
             action := LineAction.insert (String.mk tok1) (String.mk tok2) } := by
  unfold parseLine
  simp only [h1, h2]

theorem copyNumber_length (l tok : List Char) (hlen : tok.length ≤ 12) :
    (copyNumber l tok).2.1.length ≤ 12 := by
  induction l generalizing tok with
  | nil => exact hlen
  | cons c r ih =>
    unfold copyNumber
    split_ifs with h1 h2 h3
    · exact ih _ (by simp only [List.length_append, List.length_singleton]; omega)
    · exact ih _ hlen
    · exact hlen
    · exact hlen

theorem parseLine_ne_stop (line : List Char) : (parseLine line).action ≠ LineAction.stop := by
  rcases h1 : copyNumber line [] with ⟨l1, tok1, f1⟩
  rcases h2 : copyNumber (l1.dropWhile isspace) [] with ⟨l2, tok2, f2⟩
  have ht1 : tok1.length ≤ 12 := by
    have := copyNumber_length line [] (by simp)
    rwa [h1] at this
  have ht2 : tok2.length ≤ 12 := by
    have := copyNumber_length (l1.dropWhile isspace) [] (by simp)
    rwa [h2] at this
  rw [parseLine_of line l1 tok1 l2 tok2 f1 f2 h1 h2,
    if_neg (sscanfPhone_ne_four tok1 ht1), if_neg (sscanfPhone_ne_four tok2 ht2)]
  split_ifs <;> simp

theorem parseLine_of_isRecord (line t1 t2 : List Char) (h : IsRecord line t1 t2) :
    parseLine line =
      { errSeen := false, err := [],
        action := LineAction.insert (String.mk t1) (String.mk t2) } := by
  obtain ⟨ws, rest, hline, hp1, hp2, hne, hws, hrest⟩ := h
  have hhead_ws : ∀ c, (ws ++ (t2 ++ rest)).head? = some c → ¬ DigitOrDash c := by
    intro c hc hdd
    cases ws with
    | nil => exact hne rfl
    | cons w r =>
      simp only [List.cons_append, List.head?_cons, Option.some.injEq] at hc
      subst hc
      have := hws w (List.mem_cons_self _ _)
      rw [isspace_of_digitOrDash w hdd] at this
      cases this
  have hhead_rest : ∀ c, rest.head? = some c → ¬ DigitOrDash c := by
    intro c hc hdd
    cases rest with
    | nil => cases hc
    | cons w r =>
      simp only [List.head?_cons, Option.some.injEq] at hc
      subst hc
      have := hrest w (List.mem_cons_self _ _)
      rw [isspace_of_digitOrDash w hdd] at this
      cases this
  have h1 : copyNumber line [] = (ws ++ (t2 ++ rest), t1, false) := by
    rw [hline, List.append_assoc, List.append_assoc]
    have := copyNumber_append t1 [] (ws ++ (t2 ++ rest)) hp1.all
      (by rw [hp1.1]; simp) hhead_ws
    simpa using this
  have hdrop : (ws ++ (t2 ++ rest)).dropWhile isspace = t2 ++ rest := by
    apply dropWhile_isspace_append ws _ hws
    intro c hc
    obtain ⟨d, hd, hdd⟩ := hp2.head (l := rest)
    rw [hd] at hc
    have e := Option.some.inj hc
    rw [← e]
    exact isspace_of_digitOrDash d hdd
  have h2 : copyNumber ((ws ++ (t2 ++ rest)).dropWhile isspace) [] = (rest, t2, false) := by
    rw [hdrop]
    have := copyNumber_append t2 [] rest hp2.all (by rw [hp2.1]; simp) hhead_rest
    simpa using this
  have hos : onlySpace rest = true := (onlySpace_iff rest).mpr hrest
  have hc1 : checkPhoneFormat (String.mk t1) = 0 := (checkPhoneFormat_eq_zero _).mpr hp1
  have hc2 : checkPhoneFormat (String.mk t2) = 0 := (checkPhoneFormat_eq_zero _).mpr hp2
  rw [parseLine_of line _ t1 rest t2 false false h1 h2,
    if_neg (by simp [hos]),
    if_neg (sscanfPhone_ne_four t1 (by rw [hp1.1])),
    if_neg (sscanfPhone_ne_four t2 (by rw [hp2.1])),
    if_neg (by rw [hc1, hc2]; simp)]

theorem isRecord_of_parseLine (line : List Char) (a b : String)
    (h : (parseLine line).action = LineAction.insert a b) : IsRecord line a.data b.data := by
  rcases h1 : copyNumber line [] with ⟨l1, tok1, f1⟩
  rcases h2 : copyNumber (l1.dropWhile isspace) [] with ⟨l2, tok2, f2⟩
  rw [parseLine_of line l1 tok1 l2 tok2 f1 f2 h1 h2] at h
  split_ifs at h with hskip hs1 hs2 hcf
  simp only [LineAction.insert.injEq] at h
  obtain ⟨rfl, rfl⟩ := h
  simp only [Bool.or_eq_true, Bool.not_eq_true', not_or, Bool.not_eq_true,
    Bool.not_eq_false] at hskip
  obtain ⟨⟨hf1, hf2⟩, hos⟩ := hskip
  subst hf1
  subst hf2
  rw [not_not] at hcf
  have hz : checkPhoneFormat (String.mk tok1) = 0 ∧ checkPhoneFormat (String.mk tok2) = 0 := by
    rcases checkPhoneFormat_zero_or_one (String.mk tok1) with e1 | e1 <;>
      rcases checkPhoneFormat_zero_or_one (String.mk tok2) with e2 | e2 <;>
      rw [e1, e2] at hcf <;> first | exact ⟨e1, e2⟩ | exact absurd hcf (by decide)
  have hp1 : IsPhoneNumber tok1 := (checkPhoneFormat_eq_zero _).mp hz.1
  have hp2 : IsPhoneNumber tok2 := (checkPhoneFormat_eq_zero _).mp hz.2
  obtain ⟨t1, hl, ht1, _, hhead1, _⟩ := copyNumber_inv line [] l1 tok1 (by simp) h1
  obtain ⟨t2, hl2, ht2, _, _, _⟩ := copyNumber_inv _ [] l2 tok2 (by simp) h2
  simp only [List.nil_append] at ht1 ht2
  subst ht1
  subst ht2
  refine ⟨l1.takeWhile isspace, l2, ?_, hp1, hp2, ?_, ?_, (onlySpace_iff l2).mp hos⟩
  · rw [List.append_assoc, List.append_assoc, ← hl2, List.takeWhile_append_dropWhile]
    exact hl
  · intro hnil
    have hd : l1.dropWhile isspace = l1 := by
      have := List.takeWhile_append_dropWhile isspace l1
      rw [hnil] at this
      exact this
    rw [hd] at hl2
    obtain ⟨c, hc, hdd⟩ := hp2.head (l := l2)
    rw [← hl2] at hc
    exact hhead1 c hc hdd
  · intro c hc
    exact List.mem_takeWhile_imp hc

theorem parseLine_insert_iff (line : List Char) (a b : String) :
    (parseLine line).action = LineAction.insert a b ↔ IsRecord line a.data b.data := by
  constructor
  · exact isRecord_of_parseLine line a b
  · intro h
    rw [parseLine_of_isRecord line _ _ h]

theorem parseLines_graph_cons (g : Graph) (e : Int) (err : List String) (line : String)
    (rest : List String) :
    ∃ e1 err1, (parseLines g e err (line :: rest)).2.2 =
      (parseLines (match (parseLine line.data).action with
        | LineAction.insert a b => addNodesToLL g a b
        | _ => g) e1 err1 rest).2.2 := by
  have hns := parseLine_ne_stop line.data
  simp only [parseLines]
  cases ha : (parseLine line.data).action with
  | next => exact ⟨_, _, rfl⟩
  | stop => exact absurd ha hns
  | insert a b => exact ⟨_, _, rfl⟩

theorem records_parseLines (g : Graph) (e : Int) (err : List String) (lines : List String) :
    Records g lines (parseLines g e err lines).2.2 := by
  induction lines generalizing g e err with
  | nil => exact Records.done g
  | cons line rest ih =>
    obtain ⟨e1, err1, h⟩ := parseLines_graph_cons g e err line rest
    rw [h]
    cases ha : (parseLine line.data).action with
    | next =>
      refine Records.other _ _ _ _ ?_ (ih g e1 err1)
      intro t1 t2 hrec
      rw [parseLine_of_isRecord _ _ _ hrec] at ha
      cases ha
    | stop => exact absurd ha (parseLine_ne_stop line.data)
    | insert a b =>
      exact Records.record _ _ _ _ a.data b.data ((parseLine_insert_iff _ a b).mp ha)
        (ih _ e1 err1)

theorem records_unique (g g1 : Graph) (e : Int) (err : List String) (lines : List String)
    (h : Records g lines g1) : (parseLines g e err lines).2.2 = g1 := by
  induction h generalizing e err with
  | done g => rfl
  | record g g1 line rest t1 t2 hrec _ ih =>
    obtain ⟨e1, err1, h⟩ := parseLines_graph_cons g e err line rest
    rw [h, parseLine_of_isRecord _ _ _ hrec]
    exact ih e1 err1
  | other g g1 line rest hno _ ih =>
    obtain ⟨e1, err1, h⟩ := parseLines_graph_cons g e err line rest
    rw [h]
    cases ha : (parseLine line.data).action with
    | next => exact ih e1 err1
    | stop => exact absurd ha (parseLine_ne_stop line.data)
    | insert a b => exact absurd ((parseLine_insert_iff _ a b).mp ha) (hno _ _)

/-- Claim C14: for every sequence of input lines, the graph that `parseFile`
leaves is the graph obtained by calling `addNodesToLL(t1, t2)`, in line order,
for exactly the lines that consist of a phone number `t1`, one or more white
space characters, a phone number `t2` and then only white space; every other
line changes nothing, and no line ends the reading loop. -/
theorem parseFile_skips_bad_lines (g : Graph) (lines : List String) (g1 : Graph) :
    (Records g lines g1 ↔ (parseFile g (some lines)).2.2 = g1) ∧
    ∀ line ∈ lines, (parseLine line.data).action ≠ LineAction.stop := by
  refine ⟨⟨fun h => records_unique g g1 0 [] lines h, ?_⟩,
    fun line _ => parseLine_ne_stop line.data⟩
  rintro rfl
  exact records_parseLines g 0 [] lines

/-! ## The error flag -/

/-- Claim C13, the code at two failing inputs: a file whose only line has a
first token of 11 characters, and a file whose only line has no second token.
In both runs the line fails `checkPhoneFormat`, `Incorrect Formating.` is
written to `stderr` and the line is skipped, but `parseFile` returns 0. -/
theorem parseFile_misses_format_error :
    parseFile [] (some ["555-111-222 555-333-4444\n"]) =
      (0, ["Incorrect Formating.\n"], []) ∧
    parseFile [] (some ["555-111-2222\n"]) = (0, ["Incorrect Formating.\n"], []) ∧
    (∀ t1 t2, ¬ IsRecord "555-111-222 555-333-4444\n".data t1 t2) ∧
    (∀ t1 t2, ¬ IsRecord "555-111-2222\n".data t1 t2) := by
  refine ⟨by decide, by decide, ?_, ?_⟩
  · intro t1 t2 h
    have := parseLine_of_isRecord _ _ _ h
    have e : (parseLine "555-111-222 555-333-4444\n".data).action = LineAction.next := by
      decide
    rw [this] at e
    cases e
  · intro t1 t2 h
    have := parseLine_of_isRecord _ _ _ h
    have e : (parseLine "555-111-2222\n".data).action = LineAction.next := by decide
    rw [this] at e
    cases e

/-! ## Lines with two equal numbers -/

theorem noSelfEntry_addNodesToLL (g : Graph) (x y : String) (h : NoSelfEntry g) :
    NoSelfEntry (addNodesToLL g x y) := by
  obtain ⟨i, j, heq, hij, ⟨ni, hni, _⟩, ⟨nj, hnj, _⟩⟩ := addNodesToLL_eq g x y
  have hil := (List.getElem?_eq_some.mp hni).1
  have hjl := (List.getElem?_eq_some.mp hnj).1
  have hadd : ∀ (k p : Nat), k ≠ p → k ∉ dests (callsAt g k) →
      k ∉ dests (addEdgeTo (callsAt g k) p) := by
    intro k p hkp hk
    rw [dests_addEdgeTo]
    split_ifs
    · exact hk
    · intro hm
      rcases List.mem_append.mp hm with hm | hm
      · exact hk hm
      · exact hkp (List.mem_singleton.mp hm)
  intro k
  rw [heq, callsAt_addEdges _ i j k hij hil hjl]
  split_ifs with h1 h2
  · rw [callsAt_append_newNodes, h1]
    exact hadd i j hij (h i)
  · rw [callsAt_append_newNodes, h2]
    exact hadd j i hij.symm (h j)
  · rw [callsAt_append_newNodes]
    exact h k

theorem noSelfEntry_parseLines (g : Graph) (e : Int) (err : List String)
    (lines : List String) (h : NoSelfEntry g) : NoSelfEntry (parseLines g e err lines).2.2 := by
  induction lines generalizing g e err with
  | nil => exact h
  | cons line rest ih =>
    obtain ⟨e1, err1, heq⟩ := parseLines_graph_cons g e err line rest
    rw [heq]
    apply ih
    cases (parseLine line.data).action with
    | next => exact h
    | stop => exact h
    | insert a b => exact noSelfEntry_addNodesToLL g a b h

/-- Claim C18 (amended): `parseFile` calls `addNodesToLL(t1, t2)` for every line
that consists of two phone numbers separated by white space, also when the two
numbers are equal: a line whose two tokens are the same phone number `t` is not
rejected but leads to the call `addNodesToLL(t, t)`.  In the graph that
`parseFile` builds from the empty graph no node has an entry to itself: the two
ends of an edge entry are always different nodes. -/
theorem equal_numbers_inserted (g : Graph) (line : String) (t : List Char)
    (lines : List String) :
    (IsRecord line.data t t →
      (parseLine line.data).action = LineAction.insert (String.mk t) (String.mk t) ∧
      (parseFile g (some [line])).2.2 = addNodesToLL g (String.mk t) (String.mk t)) ∧
    NoSelfEntry (parseFile [] (some lines)).2.2 := by
  constructor
  · intro h
    have hp := parseLine_of_isRecord _ _ _ h
    refine ⟨by rw [hp], ?_⟩
    simp only [parseFile, parseLines, hp]
  · exact noSelfEntry_parseLines [] 0 [] lines (fun k => by simp [callsAt, dests])

/-- Claim C18 fails as stated: on a line whose two tokens are the same phone
number `parseFile` calls `addNodesToLL` with two equal numbers, and the graph
then has two nodes with this number that are joined by an edge. -/
theorem equal_numbers_not_rejected :
    (parseLine "555-111-2222 555-111-2222\n".data).action =
      LineAction.insert "555-111-2222" "555-111-2222" ∧
    parseFile [] (some ["555-111-2222 555-111-2222\n"]) =
      (0, [], [⟨"555-111-2222", [⟨1, 1⟩], 0, 0⟩, ⟨"555-111-2222", [⟨0, 1⟩], 0, 0⟩]) := by
  decide

/-! ## Graphs built from arbitrary pairs -/

theorem mem_addEdgeTo (cs : List edges) (p : Nat) (e : edges) (h : e ∈ addEdgeTo cs p) :
    e ∈ cs ∨ e = ⟨p, 1⟩ ∨ ∃ c0, (⟨p, c0⟩ : edges) ∈ cs ∧ e = ⟨p, incrInt c0⟩ := by
  induction cs with
  | nil =>
    right; left
    simpa [addEdgeTo] using h
  | cons f r ih =>
    rw [addEdgeTo_cons] at h
    by_cases hf : f.dest = p
    · rw [if_pos hf] at h
      rcases List.mem_cons.mp h with h | h
      · right; right
        refine ⟨f.totalCalls, ?_, ?_⟩
        · rw [← hf]
          exact List.mem_cons_self _ _
        · rw [h, hf]
      · exact Or.inl (List.mem_cons_of_mem _ h)
    · rw [if_neg hf] at h
      rcases List.mem_cons.mp h with h | h
      · exact Or.inl (h ▸ List.mem_cons_self _ _)
      · rcases ih h with h1 | h1 | ⟨c0, h1, h2⟩
        · exact Or.inl (List.mem_cons_of_mem _ h1)
        · exact Or.inr (Or.inl h1)
        · exact Or.inr (Or.inr ⟨c0, List.mem_cons_of_mem _ h1, h2⟩)

theorem mem_dests_addEdgeTo (cs : List edges) (p : Nat) : p ∈ dests (addEdgeTo cs p) := by
  rw [dests_addEdgeTo]
  split_ifs with h
  · exact h
  · exact List.mem_append_right _ (List.mem_singleton.mpr rfl)

theorem inRange_addNodesToLL (g : Graph) (x y : String) (h : InRange g) :
    InRange (addNodesToLL g x y) := by
  obtain ⟨i, j, heq, hij, ⟨ni, hni, _⟩, ⟨nj, hnj, _⟩⟩ := addNodesToLL_eq g x y
  have hil := (List.getElem?_eq_some.mp hni).1
  have hjl := (List.getElem?_eq_some.mp hnj).1
  have hlen : g.length ≤ (g ++ newNodes g x y).length := by
    rw [List.length_append]; omega
  have hadd : ∀ (k p : Nat), p < (g ++ newNodes g x y).length →
      ∀ e ∈ addEdgeTo (callsAt g k) p, e.dest < (g ++ newNodes g x y).length := by
    intro k p hp e he
    rcases mem_addEdgeTo _ _ _ he with h1 | h1 | ⟨c0, _, h1⟩
    · exact Nat.lt_of_lt_of_le (h k e h1) hlen
    · rw [h1]; exact hp
    · rw [h1]; exact hp
  intro k e he
  rw [heq, length_addEdges]
  rw [heq, callsAt_addEdges _ i j k hij hil hjl] at he
  split_ifs at he with h1 h2
  · rw [callsAt_append_newNodes] at he
    exact hadd i j hjl e he
  · rw [callsAt_append_newNodes] at he
    exact hadd j i hil e he
  · rw [callsAt_append_newNodes] at he
    exact Nat.lt_of_lt_of_le (h k e he) hlen

theorem inRange_build (calls : List (String × String)) : InRange (build calls) := by
  induction calls using List.reverseRecOn with
  | nil =>
    intro k e he
    simp [build, callsAt] at he
  | append_singleton l p ih =>
    obtain ⟨x, y⟩ := p
    rw [build_append_singleton]
    exact inRange_addNodesToLL _ x y ih

theorem wellFormed_of_inRange (g : Graph) (h : InRange g) : WellFormed g := by
  intro n hn e he
  obtain ⟨k, hk⟩ := List.mem_iff_getElem?.mp hn
  exact h k e (by rw [callsAt_of_getElem? g k n hk]; exact he)

theorem pairCount_le_append (calls : List (String × String)) (x y a b : String) :
    pairCount calls a b ≤ pairCount (calls ++ [(x, y)]) a b := by
  rw [pairCount_append_singleton]
  omega

theorem countsBounded_addNodesToLL (calls : List (String × String)) (g : Graph)
    (x y : String) (hr : InRange g) (h : CountsBounded calls g) :
    CountsBounded (calls ++ [(x, y)]) (addNodesToLL g x y) := by
  obtain ⟨i, j, heq, hij, ⟨ni, hni, hx⟩, ⟨nj, hnj, hy⟩⟩ := addNodesToLL_eq g x y
  have hil := (List.getElem?_eq_some.mp hni).1
  have hjl := (List.getElem?_eq_some.mp hnj).1
  -- the invariant for the list with the new nodes appended
  have hold : ∀ (k l : Nat) (nk nl : phoneNode) (c : Int),
      (g ++ newNodes g x y)[k]? = some nk → (g ++ newNodes g x y)[l]? = some nl →
      (⟨l, c⟩ : edges) ∈ nk.calls →
      ∃ m : Nat, 1 ≤ m ∧ m ≤ pairCount calls nk.pNumber nl.pNumber ∧ c = wrapInt m := by
    intro k l nk nl c hk hl hc
    have hck : callsAt g k = nk.calls := by
      rw [← callsAt_append_newNodes g x y k, callsAt_of_getElem? _ k nk hk]
    have hc2 : (⟨l, c⟩ : edges) ∈ callsAt g k := by rw [hck]; exact hc
    obtain ⟨nk2, hk2, hmem⟩ := getElem?_of_mem_callsAt g k _ hc2
    have hll : l < g.length := hr k _ hc2
    have hk3 : nk2 = nk := by
      have e : (g ++ newNodes g x y)[k]? = g[k]? :=
        List.getElem?_append_left (List.getElem?_eq_some.mp hk2).1
      rw [hk, hk2] at e
      exact (Option.some.inj e).symm
    have hl2 : g[l]? = some nl := by
      have e : (g ++ newNodes g x y)[l]? = g[l]? := List.getElem?_append_left hll
      rw [← e]
      exact hl
    subst hk3
    exact h k l nk2 nl c hk2 hl2 hmem
  intro k l mk ml c hk hl hc
  rw [heq, getElem?_addEdges _ i j k hij] at hk
  rw [heq, getElem?_addEdges _ i j l hij] at hl
  cases hgk : (g ++ newNodes g x y)[k]? with
  | none => rw [hgk] at hk; cases hk
  | some nk =>
    cases hgl : (g ++ newNodes g x y)[l]? with
    | none => rw [hgl] at hl; cases hl
    | some nl =>
      rw [hgk] at hk
      rw [hgl] at hl
      simp only [Option.map_some', Option.some.injEq] at hk hl
      have hpk : mk.pNumber = nk.pNumber := by
        rw [← hk]; split_ifs <;> rfl
      have hpl : ml.pNumber = nl.pNumber := by
        rw [← hl]; split_ifs <;> rfl
      have hcalls : mk.calls = (if k = i then addEdgeTo nk.calls j
          else if k = j then addEdgeTo nk.calls i else nk.calls) := by
        rw [← hk]; split_ifs <;> rfl
      rw [hpk, hpl]
      have mono : ∀ (d : Int),
          (∃ m : Nat, 1 ≤ m ∧ m ≤ pairCount calls nk.pNumber nl.pNumber ∧ d = wrapInt m) →
          ∃ m : Nat, 1 ≤ m ∧ m ≤ pairCount (calls ++ [(x, y)]) nk.pNumber nl.pNumber ∧
            d = wrapInt m := by
        rintro d ⟨m, h1, h2, h3⟩
        exact ⟨m, h1, le_trans h2 (pairCount_le_append calls x y _ _), h3⟩
      have bump : ∀ (p : Nat) (np : phoneNode), (g ++ newNodes g x y)[p]? = some np →
          ((x = nk.pNumber ∧ y = np.pNumber) ∨ (x = np.pNumber ∧ y = nk.pNumber)) →
          (⟨l, c⟩ : edges) ∈ addEdgeTo nk.calls p →
          ∃ m : Nat, 1 ≤ m ∧ m ≤ pairCount (calls ++ [(x, y)]) nk.pNumber nl.pNumber ∧
            c = wrapInt m := by
        intro p np hp hxy hmem
        rcases mem_addEdgeTo _ _ _ hmem with h1 | h1 | ⟨c0, h1, h2⟩
        · exact mono c (hold k l nk nl c hgk hgl h1)
        · simp only [edges.mk.injEq] at h1
          have hlp : l = p := h1.1
          have hc1 : c = 1 := h1.2
          have hnp : np = nl := by
            rw [← hlp, hgl] at hp
            exact (Option.some.inj hp).symm
          rw [hnp] at hxy
          refine ⟨1, le_refl _, ?_, by rw [hc1]; decide⟩
          rw [pairCount_append_singleton, if_pos hxy]
          omega
        · simp only [edges.mk.injEq] at h2
          have hlp : l = p := h2.1
          have hc1 : c = incrInt c0 := h2.2
          have hnp : np = nl := by
            rw [← hlp, hgl] at hp
            exact (Option.some.inj hp).symm
          rw [hnp] at hxy
          rw [← hlp] at h1
          obtain ⟨m, hm1, hm2, hm3⟩ := hold k l nk nl c0 hgk hgl h1
          refine ⟨m + 1, by omega, ?_, ?_⟩
          · rw [pairCount_append_singleton, if_pos hxy]
            omega
          · rw [hc1, hm3, incrInt_wrapInt]
            push_cast
            rfl
      rw [hcalls] at hc
      by_cases h1 : k = i
      · rw [if_pos h1] at hc
        subst h1
        rw [hni] at hgk
        cases hgk
        exact bump j nj hnj (Or.inl ⟨hx.symm, hy.symm⟩) hc
      · rw [if_neg h1] at hc
        by_cases h2 : k = j
        · rw [if_pos h2] at hc
          subst h2
          rw [hnj] at hgk
          cases hgk
          exact bump i ni hni (Or.inr ⟨hx.symm, hy.symm⟩) hc
        · rw [if_neg h2] at hc
          exact mono c (hold k l nk nl c hgk hgl hc)

theorem countsBounded_build (calls : List (String × String)) :
    CountsBounded calls (build calls) := by
  induction calls using List.reverseRecOn with
  | nil =>
    intro i j ni nj c hi
    simp [build] at hi
  | append_singleton l p ih =>
    obtain ⟨x, y⟩ := p
    rw [build_append_singleton]
    exact countsBounded_addNodesToLL l _ x y (inRange_build l) ih

/-! ## Printed numbers -/

theorem digitChar_ne_dash (d : Nat) (h : d < 10) : Nat.digitChar d ≠ '-' := by
  interval_cases d <;> decide

theorem digitChar_eq_zero (d : Nat) (h : d < 10) (h0 : Nat.digitChar d = '0') : d = 0 := by
  interval_cases d <;> first | rfl | exact absurd h0 (by decide)

theorem toDigitsCore_head (fuel n : Nat) (ds : List Char) (hf : 0 < fuel) :
    ∃ d, d < 10 ∧ (Nat.toDigitsCore 10 fuel n ds).head? = some (Nat.digitChar d) := by
  induction fuel generalizing n ds with
  | zero => omega
  | succ f ih =>
    simp only [Nat.toDigitsCore]
    split_ifs with h0
    · exact ⟨n % 10, Nat.mod_lt _ (by decide), rfl⟩
    · cases f with
      | zero => exact ⟨n % 10, Nat.mod_lt _ (by decide), rfl⟩
      | succ f2 => exact ih _ _ (Nat.succ_pos _)

theorem toDigitsCore_length_ge (fuel n : Nat) (ds : List Char) (hf : 0 < fuel) :
    ds.length + 1 ≤ (Nat.toDigitsCore 10 fuel n ds).length := by
  induction fuel generalizing n ds with
  | zero => omega
  | succ f ih =>
    simp only [Nat.toDigitsCore]
    split_ifs with h0
    · simp
    · cases f with
      | zero => simp [Nat.toDigitsCore]
      | succ f2 =>
        have := ih (n / 10) (Nat.digitChar (n % 10) :: ds) (Nat.succ_pos _)
        simp only [List.length_cons] at this
        omega

theorem repr_ne_zero (n : Nat) (hn : 1 ≤ n) : Nat.repr n ≠ "0" := by
  intro h
  have hd : Nat.toDigits 10 n = ['0'] := by
    have := congrArg String.data h
    simpa [Nat.repr, List.asString] using this
  unfold Nat.toDigits at hd
  simp only [Nat.toDigitsCore] at hd
  split_ifs at hd with h0
  · simp only [List.cons.injEq, and_true] at hd
    have := digitChar_eq_zero (n % 10) (Nat.mod_lt _ (by decide)) hd
    omega
  · have hpos : 0 < n := by omega
    have := toDigitsCore_length_ge n (n / 10) [Nat.digitChar (n % 10)] hpos
    rw [hd] at this
    simp at this

theorem repr_head (n : Nat) :
    ∃ d, d < 10 ∧ (Nat.repr n).data.head? = some (Nat.digitChar d) := by
  have := toDigitsCore_head (n + 1) n [] (Nat.succ_pos _)
  simpa [Nat.repr, Nat.toDigits, List.asString] using this

theorem toString_pos_ne (N M : Int) (hN : 1 ≤ N) (hM : M ≤ 0) : toString N ≠ toString M := by
  intro h
  cases N with
  | negSucc n =>
    have := Int.negSucc_lt_zero n
    omega
  | ofNat n =>
    have hn : 1 ≤ n := by
      have : (1 : Int) ≤ (n : Int) := hN
      omega
    cases M with
    | ofNat m =>
      have hm : m = 0 := by
        have : (m : Int) ≤ 0 := hM
        omega
      subst hm
      exact repr_ne_zero n hn h
    | negSucc m =>
      have e : (toString (Int.ofNat n)).data.head? = (toString (Int.negSucc m)).data.head? := by
        rw [h]
      obtain ⟨d, hd, hhead⟩ := repr_head n
      have e1 : (toString (Int.ofNat n)).data.head? = some (Nat.digitChar d) := hhead
      have e2 : (toString (Int.negSucc m)).data.head? = some '-' := by
        show ("-" ++ Nat.repr (m + 1)).data.head? = some '-'
        rw [String.data_append]
        rfl
      rw [e1, e2] at e
      exact digitChar_ne_dash d hd (Option.some.inj e)

theorem connectedLine_inj (N M : Int) (h : connectedLine N = connectedLine M) :
    toString N = toString M := by
  have e := congrArg String.data h
  simp only [connectedLine, String.data_append] at e
  have e2 := List.append_cancel_right e
  exact String.ext (List.append_cancel_left e2)

theorem connectedLine_head (N : Int) : (connectedLine N).data.head? = some 'C' := by
  simp only [connectedLine, String.data_append]
  rfl

theorem talkedLine_head (n : Int) : (talkedLine n).data.head? = some 'T' := by
  simp only [talkedLine, String.data_append]
  rfl

theorem talkedLine_ne_connectedLine (n N : Int) : talkedLine n ≠ connectedLine N := by
  intro h
  have e := talkedLine_head n
  rw [h, connectedLine_head] at e
  exact absurd (Option.some.inj e) (by decide)

theorem notConnected_ne_connectedLine (N : Int) : "Not connected\n" ≠ connectedLine N := by
  intro h
  have e : ("Not connected\n" : String).data.head? = some 'N' := rfl
  rw [h, connectedLine_head] at e
  exact absurd (Option.some.inj e) (by decide)

/-! ## Indirect connections -/

theorem linkedCallsOf_ne_zero (calls : List (String × String)) (p1 p2 : String) (i j : Nat)
    (hmax : pairCount calls p1 p2 ≤ 2147483647)
    (hi : posOf (build calls) p1 = some i) (hj : posOf (build calls) p2 = some j)
    (hmem : j ∈ dests (callsAt (build calls) i)) :
    linkedCallsOf j (callsAt (build calls) i) ≠ 0 := by
  obtain ⟨ni, hni, hp1⟩ := posOf_some _ _ _ hi
  obtain ⟨nj, hnj, hp2⟩ := posOf_some _ _ _ hj
  cases hc : countTo j (callsAt (build calls) i) with
  | none => exact absurd hmem ((countTo_eq_none _ _).mp hc)
  | some c =>
    have hin := mem_of_countTo _ _ _ hc
    rw [callsAt_of_getElem? _ i ni hni] at hin
    obtain ⟨m, hm1, hm2, hm3⟩ := countsBounded_build calls i j ni nj c hni hnj hin
    rw [hp1, hp2] at hm2
    rw [linkedCallsOf_eq, hc, Option.getD_some, hm3, wrapInt_of_le m (le_trans hm2 hmax)]
    omega

/-- Claim C21: in a graph built from the empty graph by insertions of any pairs,
for strings `p1`, `p2` whose pair was inserted at most `INT_MAX` times,
`checkIfInGraph(p1, p2)` returns and prints nothing on `stdout`, or a line
`Talked n times`, or `Not connected`, or a line `Connected through N numbers`
with `N ≥ 1`; it prints neither `Connected through 0 numbers` nor such a line
with a negative `N`. -/
theorem connected_through_positive (calls : List (String × String)) (p1 p2 : String)
    (hmax : pairCount calls p1 p2 ≤ 2147483647) :
    ∃ r, checkIfInGraph (build calls) p1 p2 = some r ∧
      (r.out = [] ∨ (∃ n, r.out = [talkedLine n]) ∨ r.out = ["Not connected\n"] ∨
        ∃ N, 1 ≤ N ∧ r.out = [connectedLine N]) ∧
      ∀ N, N ≤ 0 → r.out ≠ [connectedLine N] := by
  have hcase : ∃ r, checkIfInGraph (build calls) p1 p2 = some r ∧
      (r.out = [] ∨ (∃ n, r.out = [talkedLine n]) ∨ r.out = ["Not connected\n"] ∨
        ∃ N, 1 ≤ N ∧ r.out = [connectedLine N]) := by
    cases hi : posOf (build calls) p1 with
    | none => exact ⟨_, checkIfInGraph_not_found _ p1 p2 (Or.inl hi), Or.inl rfl⟩
    | some i =>
      cases hj : posOf (build calls) p2 with
      | none => exact ⟨_, checkIfInGraph_not_found _ p1 p2 (Or.inr hj), Or.inl rfl⟩
      | some j =>
        rw [checkIfInGraph_found _ p1 p2 i j hi hj]
        by_cases hl : linkedCallsOf j (callsAt (build calls) i) ≠ 0
        · rw [if_pos hl]
          exact ⟨_, rfl, Or.inr (Or.inl ⟨_, rfl⟩)⟩
        · rw [if_neg hl]
          have hnot : j ∉ dests (callsAt (build calls) i) :=
            fun hm => hl (linkedCallsOf_ne_zero calls p1 p2 i j hmax hi hj hm)
          obtain ⟨r, hr, hspec⟩ := BFS_spec (build calls) i j
            (wellFormed_of_inRange _ (inRange_build calls)) (posOf_lt _ _ _ hi)
          obtain ⟨search, g1⟩ := r
          rw [hr]
          by_cases hs : search = -1
          · simp only [hs, if_true]
            exact ⟨_, rfl, Or.inr (Or.inr (Or.inl rfl))⟩
          · simp only [hs, if_false]
            refine ⟨_, rfl, Or.inr (Or.inr (Or.inr ⟨search, ?_, rfl⟩))⟩
            rcases hspec with ⟨h1, _⟩ | ⟨d, hd, hw, _⟩
            · exact absurd h1 hs
            · simp only at hd
              match d, hd, hw with
              | 0, hd, _ => exact absurd (by rw [hd]; rfl) hs
              | 1, _, hw =>
                obtain ⟨e, he, hej⟩ := walk_one _ _ _ hw
                exact absurd (List.mem_map.mpr ⟨e, he, hej⟩) hnot
              | d + 2, hd, _ =>
                rw [hd]
                push_cast
                omega
  obtain ⟨r, hr, hout⟩ := hcase
  refine ⟨r, hr, hout, ?_⟩
  intro N hN hprint
  rcases hout with h | ⟨n, h⟩ | h | ⟨M, hM, h⟩
  · rw [h] at hprint
    cases hprint
  · rw [h] at hprint
    exact talkedLine_ne_connectedLine n N (List.cons.inj hprint).1
  · rw [h] at hprint
    exact notConnected_ne_connectedLine N (List.cons.inj hprint).1
  · rw [h] at hprint
    exact toString_pos_ne M N hM hN (connectedLine_inj M N (List.cons.inj hprint).1)

theorem connected_through_positive_witness :
    pairCount [("555-111-2222", "555-333-4444"), ("555-333-4444", "555-555-6666")]
      "555-111-2222" "555-555-6666" ≤ 2147483647 ∧
    ∃ r, checkIfInGraph (build [("555-111-2222", "555-333-4444"),
        ("555-333-4444", "555-555-6666")]) "555-111-2222" "555-555-6666" = some r ∧
      (r.out = [] ∨ (∃ n, r.out = [talkedLine n]) ∨ r.out = ["Not connected\n"] ∨
        ∃ N, 1 ≤ N ∧ r.out = [connectedLine N]) ∧
      ∀ N, N ≤ 0 → r.out ≠ [connectedLine N] :=
  ⟨by decide, connected_through_positive _ "555-111-2222" "555-555-6666" (by decide)⟩

/-! ## A pair of equal numbers -/

theorem addNodesToLL_self (g : Graph) (A : String) :
    ∃ (h : Graph) (i : Nat), addNodesToLL g A A = addEdges (h ++ [newNode A]) i h.length ∧
      g.length ≤ h.length ∧ ∃ n, h[i]? = some n ∧ n.pNumber = A := by
  cases g with
  | nil =>
    refine ⟨[newNode A], 0, ?_, by simp, newNode A, rfl, rfl⟩
    rw [addNodesToLL_nil]
    rfl
  | cons n r =>
    rw [addNodesToLL_cons]
    simp only [if_true]
    cases hp : posOf (n :: r) A with
    | none =>
      refine ⟨(n :: r) ++ [newNode A], (n :: r).length, rfl, by simp, newNode A, ?_, rfl⟩
      exact List.getElem?_concat_length _ _
    | some i =>
      obtain ⟨ni, hni, hA⟩ := posOf_some _ _ _ hp
      exact ⟨n :: r, i, rfl, le_refl _, ni, hni, hA⟩

/-- Claim C22: for every state of the list, the empty list included, and every
number `A`, after `addNodesToLL(A, A)` the list holds two different nodes whose
`pNumber` is `A`, so the numbers of the nodes are no longer unique: the second
argument is not searched for, and a fresh node is appended for it as the last
node; it holds the single entry, with `totalCalls` 1, to the other node, which
holds an entry to it. -/
theorem equal_pair_duplicates_node (g : Graph) (A : String) :
    ∃ i j, i ≠ j ∧ g.length ≤ j ∧ (addNodesToLL g A A).length = j + 1 ∧
      (∃ n, (addNodesToLL g A A)[i]? = some n ∧ n.pNumber = A) ∧
      (∃ m, (addNodesToLL g A A)[j]? = some m ∧ m.pNumber = A) ∧
      j ∈ dests (callsAt (addNodesToLL g A A) i) ∧
      callsAt (addNodesToLL g A A) j = [⟨i, 1⟩] ∧
      ¬ (numbers (addNodesToLL g A A)).Nodup := by
  obtain ⟨h, i, heq, hlen, ni, hni, hA⟩ := addNodesToLL_self g A
  have hil : i < h.length := (List.getElem?_eq_some.mp hni).1
  have hij : i ≠ h.length := Nat.ne_of_lt hil
  have hil2 : i < (h ++ [newNode A]).length := by
    rw [List.length_append]; omega
  have hjl2 : h.length < (h ++ [newNode A]).length := by
    rw [List.length_append, List.length_singleton]; omega
  have hgi : (h ++ [newNode A])[i]? = some ni := by
    rw [List.getElem?_append_left hil]; exact hni
  have hgj : (h ++ [newNode A])[h.length]? = some (newNode A) :=
    List.getElem?_concat_length _ _
  have hni2 : ∃ n, (addNodesToLL g A A)[i]? = some n ∧ n.pNumber = A := by
    rw [heq, getElem?_addEdges _ i h.length i hij, hgi]
    exact ⟨_, rfl, by simpa using hA⟩
  have hnj2 : ∃ m, (addNodesToLL g A A)[h.length]? = some m ∧ m.pNumber = A := by
    rw [heq, getElem?_addEdges _ i h.length h.length hij, hgj]
    refine ⟨_, rfl, ?_⟩
    simp only [Option.map_some', if_neg hij.symm, if_true]
    rfl
  refine ⟨i, h.length, hij, hlen, ?_, hni2, hnj2, ?_, ?_, ?_⟩
  · rw [heq, length_addEdges, List.length_append, List.length_singleton]
  · rw [heq, callsAt_addEdges _ i h.length i hij hil2 hjl2, if_pos rfl]
    exact mem_dests_addEdgeTo _ _
  · rw [heq, callsAt_addEdges _ i h.length h.length hij hil2 hjl2, if_neg hij.symm,
      if_pos rfl, callsAt_of_getElem? _ _ _ hgj]
    rfl
  · intro hnd
    obtain ⟨n, hn, hnA⟩ := hni2
    obtain ⟨m, hm, hmA⟩ := hnj2
    exact hij (index_unique _ hnd i h.length n m hn hm (hnA.trans hmA.symm))

end PhoneCallGraph
